import Mathlib

/-! UNIDISC engine: dependency graph, relation algebra and rule inference.

A shallow embedding of the algorithmic core of the UNIDISC engine (C++), and the
properties of it that the specification states.

Conventions of the embedding.

* Identifiers (`std::string`) are an arbitrary type `α`; only equality, and for sets that the
  code builds and hands back also the linear order, is used.
* A `std::set<T>` is the list of its elements in iteration order (ascending, duplicate-free).
  Sets that the code itself fills and returns (`Relation`, the fact base) are filled with
  `setInsert`, which keeps that order.  Sets only ever queried with `find` (`visited`,
  `completed`) are filled with `List.insert`, whose element order is immaterial.
* `std::map<string, V>` with a known key set is a total function from keys to values together
  with the key list; `operator[]` on the maps below is only ever applied to present keys.
* The getters of `Student` return the enrolled and the completed set by value.  Where the
  code tests `x->getS().find(k)` against `x->getS().end()`, the two iterators belong to two
  different temporary copies; iterators carry the object they point into (`SetIterator`), so
  such a `!=` test always succeeds and such an `==` test never does, as in the compiled
  program.  Code that first copies the set into a local variable tests true membership.
* A map that the code queries with `find` before reading (`courseLevel`) is a function into
  `Option`; `levelMap`, read with `operator[]` at keys that may be absent, is a total function
  whose value at an absent key is the empty set.
* Loops that the source bounds by a counter are structural recursions on the passes left;
  loops that the source does not bound carry a fuel argument and return `none` when it runs
  out; the theorems state the result as `some _`, so they also show that the fuel chosen is
  not exhausted on the inputs they cover.  The recursion of `computeLevel` has no bound that
  holds on every catalog, so its fuel is a parameter of `verifyPrerequisiteChain`.
-/

namespace Unidisc

variable {α : Type}

/-! ## Core.h: the catalog -/

/-- Course of Core.h, reduced to what the engine reads: the identifier and the prerequisite
set (a `set<string>`: ascending and duplicate-free). -/
structure Course (α : Type) where
  courseID : α
  prerequisites : List α

/-- The course map of DataManager (`map<string, Course>`, keyed by `Course::getID`): the
courses in ascending key order. -/
structure DataManager (α : Type) where
  courses : List (Course α)

/-- `DataManager::getCourse`: the course stored under the key, if any. -/
def DataManager.getCourse [DecidableEq α] (dm : DataManager α) (id : α) : Option (Course α) :=
  dm.courses.find? (fun c => decide (c.courseID = id))

/-- The prerequisite set that `getCourse(c)->getPrerequisites()` yields, empty when the course
is missing (every caller skips a missing course). -/
def DataManager.prereqsOf [DecidableEq α] (dm : DataManager α) (c : α) : List α :=
  match dm.getCourse c with
  | none => []
  | some course => course.prerequisites

/-! ## Insertion into an ordered set -/

/-- `std::set::insert`: no change when the element is present, otherwise the element is put
at its place in the ascending order. -/
def setInsert {β : Type} [LinearOrder β] (x : β) (s : List β) : List β :=
  if x ∈ s then s else s.orderedInsert (· ≤ ·) x

/-! ## CourseScheduling.h: topological sort -/

/-- One execution of the body `adjList[prereq].push_back(courseID); inDegree[courseID]++`,
guarded by `courseIDs.find(prereq) != courseIDs.end()`. The state is `(inDegree, adjList)`. -/
def addEdge [DecidableEq α] (courseIDs : List α) (courseID : α)
    (g : (α → Int) × (α → List α)) (prereq : α) : (α → Int) × (α → List α) :=
  if prereq ∈ courseIDs then
    (Function.update g.1 courseID (g.1 courseID + 1),
     Function.update g.2 prereq (g.2 prereq ++ [courseID]))
  else g

/-- Body of the second loop of `topologicalSort`: a missing course is skipped, otherwise its
prerequisites are scanned. -/
def addCourseEdges [DecidableEq α] (dm : DataManager α) (courseIDs : List α)
    (g : (α → Int) × (α → List α)) (courseID : α) : (α → Int) × (α → List α) :=
  match dm.getCourse courseID with
  | none => g
  | some course => course.prerequisites.foldl (addEdge courseIDs courseID) g

/-- The two graph-building loops of `topologicalSort`: every key starts at in-degree 0 with an
empty adjacency list, then the edges inside the set are added. The key set of both maps is
`courseIDs`. -/
def buildGraph [DecidableEq α] (dm : DataManager α) (courseIDs : List α) :
    (α → Int) × (α → List α) :=
  courseIDs.foldl (addCourseEdges dm courseIDs) (fun _ => 0, fun _ => [])

/-- Body of `for next in adjList[current]`: `inDegree[next]--`, and `queue.push_back(next)`
when it reached 0. The state is `(inDegree, queue)`. -/
def relaxStep [DecidableEq α] (st : (α → Int) × List α) (next : α) : (α → Int) × List α :=
  let d := Function.update st.1 next (st.1 next - 1)
  if d next = 0 then (d, st.2 ++ [next]) else (d, st.2)

/-- The loop over `adjList[current]`. -/
def relaxNeighbours [DecidableEq α] (nexts : List α) (inDegree : α → Int) (queue : List α) :
    (α → Int) × List α :=
  nexts.foldl relaxStep (inDegree, queue)

/-- The `while (!queue.empty())` loop of `topologicalSort`; `queue.back()` is the last element
of the list. `none` when the fuel ends before the queue is empty. -/
def kahnLoop [DecidableEq α] (adjList : α → List α) :
    Nat → List α → (α → Int) → List α → Option (List α)
  | 0, queue, _, result => if queue = [] then some result else none
  | fuel + 1, queue, inDegree, result =>
    match queue.getLast? with
    | none => some result
    | some current =>
      let st := relaxNeighbours (adjList current) inDegree queue.dropLast
      kahnLoop adjList fuel st.2 st.1 (result ++ [current])

/-- `SchedulingModule::topologicalSort`. The work list is seeded by iterating `inDegree` in
key order; every pass of the while loop emits one course, so `|courseIDs|` passes are enough. -/
def topologicalSort [DecidableEq α] (dm : DataManager α) (courseIDs : List α) :
    Option (List α) :=
  let g := buildGraph dm courseIDs
  kahnLoop g.2 courseIDs.length (courseIDs.filter (fun c => decide (g.1 c = 0))) g.1 []

/-- Prerequisite edge inside the set: `p` is a prerequisite of the catalog course `c`, and both
lie in `S`. -/
def EdgeIn [DecidableEq α] (dm : DataManager α) (S : List α) (p c : α) : Prop :=
  c ∈ S ∧ p ∈ S ∧ ∃ course, dm.getCourse c = some course ∧ p ∈ course.prerequisites

/-- In `order`, an occurrence of `p` comes before an occurrence of `c`. -/
def Before (order : List α) (p c : α) : Prop :=
  ∃ l1 l2 l3, order = l1 ++ p :: l2 ++ c :: l3

/-- Prerequisites of `c` that lie in `S` (the in-edges of `c` inside `S`). -/
def predsIn [DecidableEq α] (dm : DataManager α) (S : List α) (c : α) : List α :=
  match dm.getCourse c with
  | none => []
  | some course => course.prerequisites.filter (fun p => decide (p ∈ S))

/-- Loop invariant of the while loop of `topologicalSort`. -/
structure KahnInv [DecidableEq α] (dm : DataManager α) (S : List α) (queue : List α)
    (d : α → Int) (result : List α) : Prop where
  nodup : (result ++ queue).Nodup
  sub : ∀ x, x ∈ result ∨ x ∈ queue → x ∈ S
  deg : ∀ c ∈ S, d c = (((predsIn dm S c).filter (fun p => decide (p ∉ result))).length : Int)
  zero : ∀ c ∈ S, d c = 0 ↔ (c ∈ result ∨ c ∈ queue)
  before : ∀ c ∈ result, ∀ p ∈ predsIn dm S c, Before result p c

/-- Catalog of four courses forming a diamond: D requires B and C, which both require A. -/
def diamondCatalog : DataManager String :=
  ⟨[⟨"A", []⟩, ⟨"B", ["A"]⟩, ⟨"C", ["A"]⟩, ⟨"D", ["B", "C"]⟩]⟩

/-! ## CourseScheduling.h: enumeration of valid sequences -/

/-- The `eligible` vector of `generateSequencesRecursive`: the remaining courses, in order,
that exist and whose prerequisites are all completed. -/
def eligibleCourses [DecidableEq α] (dm : DataManager α) (remaining completed : List α) :
    List α :=
  remaining.filter (fun courseID =>
    match dm.getCourse courseID with
    | none => false
    | some course => course.prerequisites.all (fun prereq => decide (prereq ∈ completed)))

/-- `SchedulingModule::generateSequencesRecursive`, returning the new value of the reference
parameter `allSequences`. `none` when the fuel ends. -/
def generateSequencesRecursive [DecidableEq α] (dm : DataManager α) :
    Nat → List α → List α → List α → List (List α) → Int → Option (List (List α))
  | 0, _, _, _, _, _ => none
  | fuel + 1, remaining, completed, currentSequence, allSequences, maxDepth =>
    if remaining = [] ∨ maxDepth = 0 then
      if currentSequence ≠ [] then some (allSequences ++ [currentSequence])
      else some allSequences
    else
      (eligibleCourses dm remaining completed).foldlM
        (fun all courseID =>
          generateSequencesRecursive dm fuel (remaining.erase courseID)
            (completed.insert courseID) (currentSequence ++ [courseID]) all (maxDepth - 1))
        allSequences

/-- `SchedulingModule::generateValidSequences`. Every level of the recursion removes one
course from `remaining`, so `|courseIDs| + 1` levels are enough. -/
def generateValidSequences [DecidableEq α] (dm : DataManager α) (courseIDs : List α)
    (maxLength : Int) : Option (List (List α)) :=
  generateSequencesRecursive dm (courseIDs.length + 1) courseIDs [] [] [] maxLength

/-! ## AutomatedProofVerification.h: cycle detection -/

/-- The loop `for prereq in c->getPrerequisites(): if (hasCycle(prereq)) return true;` with the
recursive call abstracted as `walk`; the captured set `visited` is threaded through. -/
def hasCycleLoop (walk : α → List α → Option (Bool × List α)) :
    List α → List α → Option (Bool × List α)
  | [], visited => some (false, visited)
  | prereq :: rest, visited =>
    match walk prereq visited with
    | none => none
    | some (true, visited1) => some (true, visited1)
    | some (false, visited1) => hasCycleLoop walk rest visited1

/-- The `hasCycle` lambda of `ProofModule::validateLogicRules`, with the captured set `visited`
as explicit state: the result is the returned flag and the set afterwards. `none` when the fuel
ends. -/
def hasCycle [DecidableEq α] (dm : DataManager α) : Nat → α → List α → Option (Bool × List α)
  | 0, _, _ => none
  | fuel + 1, cid, visited =>
    if cid ∈ visited then some (true, visited)
    else
      match dm.getCourse cid with
      | none => some (false, visited.insert cid)
      | some c =>
        match hasCycleLoop (hasCycle dm fuel) c.prerequisites (visited.insert cid) with
        | none => none
        | some (true, visited1) => some (true, visited1)
        | some (false, visited1) => some (false, visited1.erase cid)

/-- The call `hasCycle(course.getID())` of `validateLogicRules`, on a fresh `visited` set. The
walk never nests deeper than the number of courses plus one. -/
def hasCycleFrom [DecidableEq α] (dm : DataManager α) (cid : α) : Option Bool :=
  (hasCycle dm (dm.courses.length + 1) cid []).map (fun r => r.1)

/-- Prerequisite edge of the catalog: `p` is a prerequisite of the catalog course `c`. -/
def Requires [DecidableEq α] (dm : DataManager α) (c p : α) : Prop :=
  p ∈ dm.prereqsOf c

/-- A directed prerequisite cycle is reachable from `c`: some course reachable from `c` along
prerequisite edges (possibly `c` itself) lies on a cycle. -/
def CycleReachable [DecidableEq α] (dm : DataManager α) (c : α) : Prop :=
  ∃ v, Relation.ReflTransGen (Requires dm) c v ∧ Relation.TransGen (Requires dm) v v

/-- Contract of a cycle walk on an existing course: on `false` the visited set is restored
and nothing reachable is visited or lies on a cycle; on `true` something reachable is visited
or lies on a cycle. -/
def WalkSound [DecidableEq α] (dm : DataManager α)
    (walk : α → List α → Option (Bool × List α)) : Prop :=
  ∀ cid V r V1, (dm.getCourse cid).isSome → walk cid V = some (r, V1) →
    (r = false → V1 = V ∧ ∀ v, Relation.ReflTransGen (Requires dm) cid v →
        v ∉ V ∧ ¬ Relation.TransGen (Requires dm) v v) ∧
    (r = true → ∃ v, Relation.ReflTransGen (Requires dm) cid v ∧
        (v ∈ V ∨ Relation.TransGen (Requires dm) v v))

/-- Catalog with the 2-cycle A requires B, B requires A. -/
def twoCycleCatalog : DataManager String :=
  ⟨[⟨"A", ["B"]⟩, ⟨"B", ["A"]⟩]⟩

/-- Catalog with the single edge A requires B. -/
def chainCatalog : DataManager String :=
  ⟨[⟨"A", ["B"]⟩, ⟨"B", []⟩]⟩

/-- Catalog with the diamond A requires B and C, which both require D. -/
def diamondDownCatalog : DataManager String :=
  ⟨[⟨"A", ["B", "C"]⟩, ⟨"B", ["D"]⟩, ⟨"C", ["D"]⟩, ⟨"D", []⟩]⟩

/-- The extensions that the search of `generateSequencesRecursive` can append to the current
sequence from the state `(remaining, completed, maxDepth)` before it reaches a terminal state
(remaining empty or depth exhausted). -/
def ValidExt [DecidableEq α] (dm : DataManager α) : List α → List α → List α → Int → Prop
  | [], remaining, _, maxDepth => remaining = [] ∨ maxDepth = 0
  | c :: ext, remaining, completed, maxDepth =>
    ¬ (remaining = [] ∨ maxDepth = 0) ∧ c ∈ eligibleCourses dm remaining completed ∧
      ValidExt dm ext (remaining.erase c) (completed.insert c) (maxDepth - 1)

/-- Every course of the sequence is preceded by all of its prerequisites. -/
def PrereqsFirst [DecidableEq α] (dm : DataManager α) (seq : List α) : Prop :=
  ∀ l1 c l2, seq = l1 ++ c :: l2 → ∀ p ∈ dm.prereqsOf c, p ∈ l1

/-- Catalog of the enumeration scenario: B and C each require A. -/
def abcCatalog : DataManager String :=
  ⟨[⟨"A", []⟩, ⟨"B", ["A"]⟩, ⟨"C", ["A"]⟩]⟩

/-! ## Relation.h: relations as sets of pairs -/

/-- The `pair<string, string>` of Relation.h. -/
structure Pair (α : Type) where
  first : α
  second : α
deriving DecidableEq

/-- The key on which `std::pair` is compared: first components, then second components. -/
def Pair.key (p : Pair α) : Lex (α × α) := toLex (p.first, p.second)

/-- The ordering `operator<` of `std::pair`: lexicographic. -/
instance Pair.instLinearOrder [LinearOrder α] : LinearOrder (Pair α) :=
  LinearOrder.lift' Pair.key (by
    intro p q h
    cases p
    cases q
    simpa [Pair.key] using h)

/-- `RelationsModule::isReflexive`. -/
def isReflexive [DecidableEq α] (R : List (Pair α)) (domain : List α) : Bool :=
  domain.all (fun elem => decide ((⟨elem, elem⟩ : Pair α) ∈ R))

/-- `RelationsModule::isSymmetric`. -/
def isSymmetric [DecidableEq α] (R : List (Pair α)) : Bool :=
  R.all (fun p => decide ((⟨p.second, p.first⟩ : Pair α) ∈ R))

/-- `RelationsModule::isTransitive`. -/
def isTransitive [DecidableEq α] (R : List (Pair α)) : Bool :=
  R.all (fun p1 => R.all (fun p2 =>
    if p1.second = p2.first then decide ((⟨p1.first, p2.second⟩ : Pair α) ∈ R) else true))

/-- `RelationsModule::isEquivalenceRelation`. -/
def isEquivalenceRelation [DecidableEq α] (R : List (Pair α)) (domain : List α) : Bool :=
  isReflexive R domain && isSymmetric R && isTransitive R

/-- `RelationsModule::composeRelations`. -/
def composeRelations [LinearOrder α] (R1 R2 : List (Pair α)) : List (Pair α) :=
  R1.foldl (fun result p1 =>
    R2.foldl (fun result p2 =>
      if p1.second = p2.first then setInsert ⟨p1.first, p2.second⟩ result else result)
      result) []

/-- `RelationsModule::isPartialOrder`. -/
def isPartialOrder [DecidableEq α] (R : List (Pair α)) (domain : List α) : Bool :=
  if !isReflexive R domain then false
  else if R.any (fun p =>
      decide (p.first ≠ p.second) && decide ((⟨p.second, p.first⟩ : Pair α) ∈ R)) then false
  else if !isTransitive R then false
  else true

/-- The `prerequisiteRelation` member after `RelationsModule::buildRelations`: the pairs
(course, prerequisite) over all courses of the catalog. -/
def prerequisiteRelation [LinearOrder α] (dm : DataManager α) : List (Pair α) :=
  dm.courses.foldl (fun rel course =>
    course.prerequisites.foldl (fun rel prereq => setInsert ⟨course.courseID, prereq⟩ rel) rel)
    []

/-- Innermost body of the closure loop of `detectIndirectConflicts`; the state is
`(newPairs, changed)`, and `T` is the relation `transitiveClosure` the pass iterates. -/
def closureStep [LinearOrder α] (T : List (Pair α)) (p1 : Pair α)
    (st : List (Pair α) × Bool) (p2 : Pair α) : List (Pair α) × Bool :=
  if p1.second = p2.first then
    if (⟨p1.first, p2.second⟩ : Pair α) ∉ T then (setInsert ⟨p1.first, p2.second⟩ st.1, true)
    else st
  else st

/-- One pass of the closure loop: `newPairs` starts as a copy of `transitiveClosure` and
`changed` as false; the result is the new `transitiveClosure` and `changed`. -/
def closurePass [LinearOrder α] (T : List (Pair α)) : List (Pair α) × Bool :=
  T.foldl (fun st p1 => T.foldl (closureStep T p1) st) (T, false)

/-- The constant `MAX_ITER` of `detectIndirectConflicts`. -/
def MAX_ITER : Nat := 100

/-- The loop `while (changed && iterations < MAX_ITER)`, recursing on the passes left
(`MAX_ITER - iterations`). The result is `(transitiveClosure, changed)` at loop exit. -/
def closureLoop [LinearOrder α] : Nat → List (Pair α) → Bool → List (Pair α) × Bool
  | 0, T, changed => (T, changed)
  | n + 1, T, changed =>
    if changed then closureLoop n (closurePass T).1 (closurePass T).2 else (T, changed)

/-- The transitive-closure computation of `detectIndirectConflicts` on a relation: the final
value of `transitiveClosure`, and the final value of `changed` (false when the loop stopped
because a full pass added no new pair). -/
def transitiveClosureLoop [LinearOrder α] (R : List (Pair α)) : List (Pair α) × Bool :=
  closureLoop MAX_ITER R true

/-- The relation computed by the closure loop. -/
def transitiveClosure [LinearOrder α] (R : List (Pair α)) : List (Pair α) :=
  (transitiveClosureLoop R).1

/-! ## LogicInference.h: the rule engine -/

/-- The `LogicRule` struct; atoms are compared by equality only. -/
structure LogicRule (α : Type) where
  id : String
  antecedent : α
  consequent : α
  type : String

/-- The state of `LogicEngine` that inference uses: the rule list and the fact base. -/
structure LogicEngine (α : Type) where
  rules : List (LogicRule α)
  facts : List α

/-- `LogicEngine::addCourseRule`. -/
def LogicEngine.addCourseRule (e : LogicEngine String) (courseID prerequisite : String) :
    LogicEngine String :=
  { e with rules := e.rules ++ [⟨"CR_" ++ courseID ++ "_" ++ prerequisite,
      "enrolled(" ++ courseID ++ ")", "must_complete(" ++ prerequisite ++ ")",
      "prerequisite"⟩] }

/-- `LogicEngine::addFact`. -/
def LogicEngine.addFact [LinearOrder α] (e : LogicEngine α) (fact : α) : LogicEngine α :=
  { e with facts := setInsert fact e.facts }

/-- Body of the rule loop of `runInference`; the state is `(facts, derived, changed)`. -/
def inferStep [LinearOrder α] (st : List α × List α × Bool) (rule : LogicRule α) :
    List α × List α × Bool :=
  if rule.antecedent ∈ st.1 ∧ rule.consequent ∉ st.1 ∧ rule.consequent ∉ st.2.1 then
    (setInsert rule.consequent st.1, setInsert rule.consequent st.2.1, true)
  else st

/-- One pass over the rule list, starting with `changed = false`. -/
def inferPass [LinearOrder α] (rules : List (LogicRule α)) (facts derived : List α) :
    List α × List α × Bool :=
  rules.foldl inferStep (facts, derived, false)

/-- The loop `while (changed && iteration < 100)`, recursing on the passes left. -/
def inferLoop [LinearOrder α] (rules : List (LogicRule α)) :
    Nat → List α → List α → Bool → List α × List α × Bool
  | 0, facts, derived, changed => (facts, derived, changed)
  | n + 1, facts, derived, changed =>
    if changed then
      inferLoop rules n (inferPass rules facts derived).1 (inferPass rules facts derived).2.1
        (inferPass rules facts derived).2.2
    else (facts, derived, changed)

/-- Outcome of `LogicEngine::runInference`: the engine afterwards, the returned set `derived`,
and the final value of the local `changed` (false when the loop stopped because a pass fired
no rule). -/
structure InferenceRun (α : Type) where
  engine : LogicEngine α
  derived : List α
  changed : Bool

/-- `LogicEngine::runInference`. -/
def LogicEngine.runInference [LinearOrder α] (e : LogicEngine α) : InferenceRun α :=
  let r := inferLoop e.rules 100 e.facts [] true
  ⟨{ e with facts := r.1 }, r.2.1, r.2.2⟩

/-- A fact base is closed under the rules: the antecedent in it brings the consequent. -/
def RulesClosed (rules : List (LogicRule α)) (F : α → Prop) : Prop :=
  ∀ r ∈ rules, F r.antecedent → F r.consequent

/-- Invariant of the inference loop, relative to the initial fact base `F0`: the fact base
only grows, stays inside every closed superset of `F0`, and `derived` holds exactly the facts
added so far, each once, all of them consequents of rules. -/
structure InferInv (rules : List (LogicRule α)) (F0 F D : List α) : Prop where
  grows : ∀ x ∈ F0, x ∈ F
  least : ∀ G : α → Prop, (∀ x ∈ F0, G x) → RulesClosed rules G → ∀ x ∈ F, G x
  added : ∀ x, x ∈ D ↔ x ∈ F ∧ x ∉ F0
  nodup : D.Nodup
  conseq : ∀ x ∈ D, x ∈ rules.map (fun r => r.consequent)

/-- The engine of the forward-chaining scenario: the rule built by
`addCourseRule("CS102", "CS101")` and the fact `enrolled(CS102)`. -/
def cs102Engine : LogicEngine String :=
  ((⟨[], []⟩ : LogicEngine String).addCourseRule "CS102" "CS101").addFact "enrolled(CS102)"

/-- An engine over numbered atoms: the rules 1 → 2 and 2 → 3 and the fact 1. -/
def smallEngine : LogicEngine Nat :=
  ⟨[⟨"R1", 1, 2, "general"⟩, ⟨"R2", 2, 3, "general"⟩], [1]⟩

/-- The relation is transitive: with (a,b) and (b,c) it contains (a,c). -/
def TransitiveRel (R : List (Pair α)) : Prop :=
  ∀ a b c, (⟨a, b⟩ : Pair α) ∈ R → (⟨b, c⟩ : Pair α) ∈ R → (⟨a, c⟩ : Pair α) ∈ R

/-- The relation contains no two pairs (a,b) and (b,a) with a different from b. -/
def AntisymmetricRel (R : List (Pair α)) : Prop :=
  ∀ a b, (⟨a, b⟩ : Pair α) ∈ R → (⟨b, a⟩ : Pair α) ∈ R → a = b

/-- The relation contains (x,x) for every x of the domain. -/
def ReflexiveOn (R : List (Pair α)) (domain : List α) : Prop :=
  ∀ x ∈ domain, (⟨x, x⟩ : Pair α) ∈ R

/-- The relation united with the reflexive pairs of the domain, as an ordered set. -/
def withReflexivePairs [LinearOrder α] (R : List (Pair α)) (domain : List α) :
    List (Pair α) :=
  domain.foldl (fun rel x => setInsert ⟨x, x⟩ rel) R

/-- The key set of the course map: the domain `courses` that `RelationsModule::demonstrate`
hands to `isPartialOrder`. -/
def DataManager.courseIDs (dm : DataManager α) : List α :=
  dm.courses.map (fun c => c.courseID)

/-- A diamond over numbered courses: 4 requires 2 and 3, which both require 1. -/
def numberedCatalog : DataManager Nat :=
  ⟨[⟨1, []⟩, ⟨2, [1]⟩, ⟨3, [1]⟩, ⟨4, [2, 3]⟩]⟩

/-! ## Core.h: students -/

/-- Student of Core.h, reduced to what the engine reads: the identifier, the enrolled set, the
completed set and the credit total. -/
structure Student (α : Type) where
  studentID : α
  enrolledCourses : List α
  completedCourses : List α
  currentCredits : Int

/-- `DataManager::getStudent` on the student map (`map<string, Student>`, keyed by
`Student::getID`), which is passed on its own as the list of its values in key order. -/
def getStudent [DecidableEq α] (students : List (Student α)) (id : α) : Option (Student α) :=
  students.find? (fun s => decide (s.studentID = id))

/-! ## Iterators of the sets that the getters of Student return by value -/

/-- An iterator of a `std::set`: the set object it belongs to, and its position in that
object (`none` for the past-the-end iterator). -/
structure SetIterator where
  container : Nat
  position : Option Nat
  deriving DecidableEq

/-- The iterator `s.find(k)` of the set object numbered `container`. -/
def setFind [DecidableEq α] (container : Nat) (s : List α) (k : α) : SetIterator :=
  ⟨container, if k ∈ s then some (s.indexOf k) else none⟩

/-- The iterator `s.end()` of the set object numbered `container`. -/
def setEnd (container : Nat) : SetIterator :=
  ⟨container, none⟩

/-- The test `student->getX().find(k) != student->getX().end()`. `Student::getEnrolledCourses`
and `Student::getCompletedCourses` return the set by value, so the two calls yield two
temporary copies (the objects 0 and 1), and the iterator found in the first is compared with
the end of the second. -/
def findInCopyNeEnd [DecidableEq α] (s : List α) (k : α) : Bool :=
  decide (setFind 0 s k ≠ setEnd 1)

/-- The test `student->getX().find(k) == student->getX().end()` on the same getters: again
the iterator of one temporary copy against the end of another. -/
def findInCopyEqEnd [DecidableEq α] (s : List α) (k : α) : Bool :=
  decide (setFind 0 s k = setEnd 1)

/-! ## CourseScheduling.h: eligibility -/

/-- The loop over the prerequisites in `checkEligibility`: `eligible` is cleared when the test
`getCompletedCourses().find(prereq) == getCompletedCourses().end()` holds. -/
def missingPrerequisiteScan [DecidableEq α] (completed : List α) (prerequisites : List α)
    (eligible : Bool) : Bool :=
  prerequisites.foldl (fun eligible prereq =>
    if findInCopyEqEnd completed prereq then false else eligible) eligible

/-- `SchedulingModule::checkEligibility`. The tests for "already enrolled" and "already
completed" compare `find` on one copy of the set with `end()` of another. The source
initialises `eligible = true`, and puts the prerequisite loop in the `else` branch of
`if (eligible)`. -/
def checkEligibility [DecidableEq α] (dm : DataManager α) (students : List (Student α))
    (studentID courseID : α) : Bool :=
  match getStudent students studentID, dm.getCourse courseID with
  | some student, some course =>
    if findInCopyNeEnd student.enrolledCourses courseID then false
    else if findInCopyNeEnd student.completedCourses courseID then false
    else
      let eligible := true
      if course.prerequisites = [] then eligible
      else if eligible then eligible
      else missingPrerequisiteScan student.completedCourses course.prerequisites eligible
  | _, _ => false

/-- `Student::enrollCourse`. -/
def Student.enrollCourse [LinearOrder α] (s : Student α) (courseID : α) (credits : Int) :
    Student α :=
  { s with enrolledCourses := setInsert courseID s.enrolledCourses,
           currentCredits := s.currentCredits + credits }

/-- Case 6 of `UnidiscSystem::courseSchedulingMenu` (enrol with prerequisite check): the
student afterwards when the enrolment goes through, `none` when it is refused. The credit
value is the one the menu reads from the course. -/
def enrollWithPrerequisiteCheck [LinearOrder α] (dm : DataManager α)
    (students : List (Student α)) (studentID courseID : α) (credits : Int) :
    Option (Student α) :=
  match getStudent students studentID, dm.getCourse courseID with
  | some student, some _ =>
    if checkEligibility dm students studentID courseID then
      some (student.enrollCourse courseID credits)
    else none
  | _, _ => none

/-! ## AutomatedProofVerification.h: proofs and sequence checks -/

/-- The loop of `verifyConsistency` with the set `completed` as state. -/
def verifyConsistencyLoop [DecidableEq α] (dm : DataManager α) : List α → List α → Bool
  | [], _ => true
  | courseID :: rest, completed =>
    match dm.getCourse courseID with
    | none => false
    | some course =>
      if course.prerequisites.all (fun prereq => decide (prereq ∈ completed)) then
        verifyConsistencyLoop dm rest (completed.insert courseID)
      else false

/-- `ProofModule::verifyConsistency`. -/
def verifyConsistency [DecidableEq α] (dm : DataManager α) (courseSequence : List α) : Bool :=
  verifyConsistencyLoop dm courseSequence []

/-- `ProofModule::generatePrerequisiteProof`. -/
def generatePrerequisiteProof [DecidableEq α] (dm : DataManager α)
    (students : List (Student α)) (studentID courseID : α) : Bool :=
  match getStudent students studentID, dm.getCourse courseID with
  | some student, some course =>
    if course.prerequisites = [] then true
    else
      course.prerequisites.foldl (fun allSatisfied prereq =>
        if prereq ∉ student.completedCourses then false else allSatisfied) true
  | _, _ => false

/-! ## Induction.h -/

/-- `InductionModule::verifyBaseCase`. -/
def verifyBaseCase [DecidableEq α] (dm : DataManager α) (courseID : α) : Bool :=
  match dm.getCourse courseID with
  | none => false
  | some course => if course.prerequisites = [] then true else false

/-- `InductionModule::verifyInductiveStep`. The local `completed` is the outcome of the test
`getCompletedCourses().find(prereq) != getCompletedCourses().end()`. -/
def verifyInductiveStep [DecidableEq α] (dm : DataManager α) (students : List (Student α))
    (studentID courseID : α) : Bool :=
  match getStudent students studentID, dm.getCourse courseID with
  | some student, some course =>
    if course.prerequisites = [] then true
    else
      course.prerequisites.foldl (fun allCompleted prereq =>
        let completed := findInCopyNeEnd student.completedCourses prereq
        if !completed then false else allCompleted) true
  | _, _ => false

/-- The loop `for prereq in course->getPrerequisites()` of `getAllPrerequisitesRecursive`, with
the recursive call abstracted as `walk`; the state is `(allPrereqs, visited)`. -/
def collectPrerequisitesLoop [LinearOrder α]
    (walk : α → List α × List α → Option (List α × List α)) :
    List α → List α × List α → Option (List α × List α)
  | [], st => some st
  | prereq :: rest, st =>
    match walk prereq (setInsert prereq st.1, st.2) with
    | none => none
    | some st1 => collectPrerequisitesLoop walk rest st1

/-- `InductionModule::getAllPrerequisitesRecursive`, returning the new values of the reference
parameters `(allPrereqs, visited)`. `none` when the fuel ends. -/
def getAllPrerequisitesRecursive [LinearOrder α] (dm : DataManager α) :
    Nat → α → List α × List α → Option (List α × List α)
  | 0, _, _ => none
  | fuel + 1, courseID, st =>
    if courseID ∈ st.2 then some st
    else
      match dm.getCourse courseID with
      | none => some (st.1, st.2.insert courseID)
      | some course =>
        collectPrerequisitesLoop (getAllPrerequisitesRecursive dm fuel) course.prerequisites
          (st.1, st.2.insert courseID)

/-- `InductionModule::validateIndirectPrerequisites`. The recursion never nests deeper than
the number of courses plus one. -/
def validateIndirectPrerequisites [LinearOrder α] (dm : DataManager α) (courseID : α) :
    Option (List α) :=
  (getAllPrerequisitesRecursive dm (dm.courses.length + 1) courseID ([], [])).map
    (fun st => st.1)

/-- `InductionModule::verifyStrongInduction`. The local `completed` is the outcome of the test
`getCompletedCourses().find(prereq) != getCompletedCourses().end()`. -/
def verifyStrongInduction [LinearOrder α] (dm : DataManager α) (students : List (Student α))
    (studentID courseID : α) : Option Bool :=
  match getStudent students studentID with
  | none => some false
  | some student =>
    match validateIndirectPrerequisites dm courseID with
    | none => none
    | some allPrereqs =>
      let allSatisfied := allPrereqs.foldl (fun allSatisfied prereq =>
        let completed := findInCopyNeEnd student.completedCourses prereq
        if !completed then false else allSatisfied) true
      if allSatisfied || decide (allPrereqs = []) then some true else some false

/-! ## Test data and scenarios -/

/-- The courses of `UnitTestingModule::setupTestData`. -/
def testCatalog : DataManager String :=
  ⟨[⟨"CS101", []⟩, ⟨"CS102", ["CS101"]⟩, ⟨"CS201", ["CS102"]⟩, ⟨"MATH101", []⟩,
    ⟨"MATH102", ["MATH101"]⟩]⟩

/-- The students of `UnitTestingModule::setupTestData`. -/
def testStudents : List (Student String) :=
  [⟨"S101", ["CS102"], ["CS101"], 0⟩, ⟨"S102", ["CS101", "MATH101"], [], 7⟩,
   ⟨"S103", ["CS201"], ["CS101", "CS102"], -3⟩]

/-- A catalog that refers to a course it does not hold: A requires B and X, B requires X, and
X is absent. -/
def missingPrereqCatalog : DataManager String :=
  ⟨[⟨"A", ["B", "X"]⟩, ⟨"B", ["X"]⟩]⟩

/-- The relation is symmetric: with (a,b) it contains (b,a). -/
def SymmetricRel (R : List (Pair α)) : Prop :=
  ∀ a b, (⟨a, b⟩ : Pair α) ∈ R → (⟨b, a⟩ : Pair α) ∈ R

/-! ## Rule chains over numbered atoms -/

/-- The rule i -> i + 1 over numbered atoms. -/
def chainRule (i : Nat) : LogicRule Nat := ⟨"chain", i, i + 1, "general"⟩

/-- The rules 0 -> 1, 1 -> 2, ..., n-1 -> n in this order. -/
def forwardChainRules (n : Nat) : List (LogicRule Nat) := (List.range n).map chainRule

/-- The same rules in the opposite order: n-1 -> n first, 0 -> 1 last. -/
def reverseChainRules (n : Nat) : List (LogicRule Nat) :=
  (List.range n).reverse.map chainRule

/-- The chain of 101 rules in reverse order, with the fact 0. -/
def reverseChainEngine : LogicEngine Nat := ⟨reverseChainRules 101, [0]⟩

/-- The chain of 100 rules in forward order, with the fact 0. -/
def forwardChainEngine : LogicEngine Nat := ⟨forwardChainRules 100, [0]⟩

/-- State of a chain run that has derived the atoms 1..k from the fact 0. -/
def ChainUpTo (k : Nat) (F D : List Nat) : Prop :=
  (∀ x, x ∈ F ↔ x ≤ k) ∧ (∀ x, x ∈ D ↔ 1 ≤ x ∧ x ≤ k) ∧ D.Sorted (· < ·)

/-- A new engine with one rule, after `addFact(fact)`. -/
def singleRuleEngine [LinearOrder α] (rule : LogicRule α) (fact : α) : LogicEngine α :=
  (⟨[rule], []⟩ : LogicEngine α).addFact fact

/-- The CS102 rule with a fact that differs from its antecedent by spaces around the
argument. -/
def spacedFactEngine : LogicEngine String :=
  ((⟨[], []⟩ : LogicEngine String).addCourseRule "CS102" "CS101").addFact "enrolled( CS102 )"

/-! ## Core.h: the transition operations of Student -/

/-- `Student::completeCourse`. -/
def Student.completeCourse [LinearOrder α] (s : Student α) (courseID : α) (credits : Int) :
    Student α :=
  { s with enrolledCourses := s.enrolledCourses.erase courseID,
           completedCourses := setInsert courseID s.completedCourses,
           currentCredits := s.currentCredits - credits }

/-- `Student::dropCourse`. -/
def Student.dropCourse [LinearOrder α] (s : Student α) (courseID : α) (credits : Int) :
    Student α :=
  { s with enrolledCourses := s.enrolledCourses.erase courseID,
           currentCredits := s.currentCredits - credits }

/-- The constructor `Student(id, name)`: nothing enrolled, nothing completed, no credits. -/
def Student.new (id : α) : Student α := ⟨id, [], [], 0⟩

/-- A call of one of the three transition operations, with its arguments. -/
inductive StudentOp (α : Type) where
  | enroll (courseID : α) (credits : Int)
  | complete (courseID : α) (credits : Int)
  | drop (courseID : α) (credits : Int)

/-- The student after one call. -/
def Student.step [LinearOrder α] (s : Student α) : StudentOp α → Student α
  | .enroll c k => s.enrollCourse c k
  | .complete c k => s.completeCourse c k
  | .drop c k => s.dropCourse c k

/-- The student after a finite sequence of calls. -/
def Student.run [LinearOrder α] (s : Student α) (ops : List (StudentOp α)) : Student α :=
  ops.foldl Student.step s

/-- The sequence never enrols a course that is in the completed set at that moment. -/
def NoEnrolAfterComplete [LinearOrder α] : Student α → List (StudentOp α) → Prop
  | _, [] => True
  | s, .enroll c k :: rest =>
    c ∉ s.completedCourses ∧ NoEnrolAfterComplete (s.enrollCourse c k) rest
  | s, op :: rest => NoEnrolAfterComplete (s.step op) rest

/-- Every call of the sequence passes the course its own credit value. -/
def FixedCredits (credit : α → Int) (ops : List (StudentOp α)) : Prop :=
  ∀ op ∈ ops, match op with
    | .enroll c k => k = credit c
    | .complete c k => k = credit c
    | .drop c k => k = credit c

/-- The sum of the credits of the courses in the enrolled set. -/
def enrolledCreditSum (credit : α → Int) (s : Student α) : Int :=
  (s.enrolledCourses.map credit).sum

/-- The credit values of the test courses: MATH101 and MATH102 have 4 credits, the others 3. -/
def testCredits (c : String) : Int :=
  if c = "MATH101" ∨ c = "MATH102" then 4 else 3

/-! ## LogicInference.h: faculty rules -/

/-- `LogicEngine::addFacultyRule`. -/
def LogicEngine.addFacultyRule (e : LogicEngine String) (facultyID courseID roomID : String) :
    LogicEngine String :=
  { e with rules := e.rules ++ [⟨"FR_" ++ facultyID ++ "_" ++ courseID,
      "teaches(" ++ facultyID ++ ", " ++ courseID ++ ")",
      "must_use_room(" ++ courseID ++ ", " ++ roomID ++ ")", "faculty"⟩] }

/-- The engine of `UnitTestingModule::testLogicModule` for student S and courses C and P,
without the faculty rule. -/
def enrolmentFactEngine (S C P : String) : LogicEngine String :=
  ((⟨[], []⟩ : LogicEngine String).addCourseRule C P).addFact
    ("student_enrolled(" ++ S ++ ", " ++ C ++ ")")

/-- The engine of `UnitTestingModule::testLogicModule` for student S and courses C and P,
with a faculty rule added in between as the test does. -/
def enrolmentFactEngineWithFaculty (S C P F C2 R : String) : LogicEngine String :=
  (((⟨[], []⟩ : LogicEngine String).addCourseRule C P).addFacultyRule F C2 R).addFact
    ("student_enrolled(" ++ S ++ ", " ++ C ++ ")")

/-- The chain of 101 rules in forward order, with the fact 0. -/
def forwardChainEngine101 : LogicEngine Nat := ⟨forwardChainRules 101, [0]⟩

/-! ## Chains of pairs, and the reading of the closure in `detectIndirectConflicts` -/

/-- The list `ps` is a chain of consecutive pairs of `R` leading from `a` to `c`: every pair
is in `R`, the first pair starts at `a`, each pair starts where the one before ends, and
the last pair ends at `c`. -/
def IsChain (R : List (Pair α)) : List (Pair α) → α → α → Prop
  | [], a, c => a = c
  | p :: ps, a, c => p ∈ R ∧ p.first = a ∧ IsChain R ps p.second c

/-- The relation `T` holds exactly the pairs joined by a chain of 1 to `m` pairs of `R`. -/
def CoversChains (R T : List (Pair α)) (m : Nat) : Prop :=
  ∀ a c, (⟨a, c⟩ : Pair α) ∈ T ↔ ∃ ps, IsChain R ps a c ∧ 1 ≤ ps.length ∧ ps.length ≤ m

/-- The set `allPrereqs` that `detectIndirectConflicts` reads off the closure for one
enrolled course: the second components of the pairs whose first component is the course. -/
def allPrereqsIn [LinearOrder α] (T : List (Pair α)) (enrolledCourse : α) : List α :=
  T.foldl (fun allPrereqs p =>
    if p.first = enrolledCourse then setInsert p.second allPrereqs else allPrereqs) []

/-! ## Specification of the prerequisite walk -/

/-- What a walk of `getAllPrerequisitesRecursive` from the courses `roots` does to the state
`(allPrereqs, visited)`: both sets only grow, the roots are visited, the IDs of `extra`
(inserted by the caller's loop) are collected, every collected ID is a prerequisite of a
newly visited course, every newly visited course is reachable from a root, every
prerequisite of a newly visited course is collected and visited, and `allPrereqs` stays in
ascending order. -/
structure WalkSpec [LinearOrder α] (dm : DataManager α) (roots extra : List α)
    (st st1 : List α × List α) : Prop where
  subV : ∀ x ∈ st.2, x ∈ st1.2
  subA : ∀ x ∈ st.1, x ∈ st1.1
  roots_visited : ∀ r ∈ roots, r ∈ st1.2
  extra_in : ∀ p ∈ extra, p ∈ st1.1
  sound : ∀ p ∈ st1.1, p ∈ st.1 ∨ p ∈ extra ∨ ∃ v, v ∈ st1.2 ∧ v ∉ st.2 ∧ Requires dm v p
  reach : ∀ v ∈ st1.2, v ∈ st.2 ∨ ∃ r ∈ roots, Relation.ReflTransGen (Requires dm) r v
  closed : ∀ v ∈ st1.2, v ∉ st.2 → ∀ p, Requires dm v p → p ∈ st1.1 ∧ p ∈ st1.2
  sorted : st.1.Sorted (· < ·) → st1.1.Sorted (· < ·)

/-- A 2-cycle over numbered courses: 1 requires 2 and 2 requires 1; 3 requires 1. -/
def numberedCycleCatalog : DataManager Nat :=
  ⟨[⟨1, [2]⟩, ⟨2, [1]⟩, ⟨3, [1]⟩]⟩

/-! ## The work list of `topologicalSort` -/

/-- The dependents of `cur` inside `S` that become eligible when `cur` is emitted after the
courses of `emitted`: `cur` is one of their prerequisites inside `S` and all the others were
emitted before. They are listed in the order of `adjList[cur]`, which is the order in which
the loop over `adjList[cur]` pushes them on the work list. -/
def madeEligibleBy [DecidableEq α] (dm : DataManager α) (S emitted : List α) (cur : α) :
    List α :=
  S.filter (fun c => decide (cur ∈ predsIn dm S c ∧
    ∀ p ∈ predsIn dm S c, p = cur ∨ p ∈ emitted))

/-! ## Induction.h: the level-by-level proof of `verifyPrerequisiteChain` -/

/-- The loop over the prerequisites inside the lambda `computeLevel`; the state is
`(maxLevel, courseLevel)`, and `walk` is the recursive call. -/
def computeLevelLoop (walk : α → (α → Option Int) → Option (Int × (α → Option Int))) :
    List α → Int → (α → Option Int) → Option (Int × (α → Option Int))
  | [], maxLevel, courseLevel => some (maxLevel, courseLevel)
  | prereq :: rest, maxLevel, courseLevel =>
    match walk prereq courseLevel with
    | none => none
    | some (level, courseLevel1) =>
      computeLevelLoop walk rest (max maxLevel (level + 1)) courseLevel1

/-- The lambda `computeLevel` of `verifyPrerequisiteChain`, returning the level and the new
value of the captured map `courseLevel`. The level of a course is stored only after the
calls for its prerequisites have returned. `none` when the fuel ends. -/
def computeLevel [DecidableEq α] (dm : DataManager α) :
    Nat → α → (α → Option Int) → Option (Int × (α → Option Int))
  | 0, _, _ => none
  | fuel + 1, cid, courseLevel =>
    match courseLevel cid with
    | some level => some (level, courseLevel)
    | none =>
      match dm.getCourse cid with
      | none => some (0, Function.update courseLevel cid (some 0))
      | some c =>
        if c.prerequisites = [] then some (0, Function.update courseLevel cid (some 0))
        else
          match computeLevelLoop (computeLevel dm fuel) c.prerequisites 0 courseLevel with
          | none => none
          | some (maxLevel, courseLevel1) =>
            some (maxLevel, Function.update courseLevel1 cid (some maxLevel))

/-- The loop `for prereq in allPrereqs: levelMap[computeLevel(prereq)].insert(prereq)`; the
state is `(levelMap, courseLevel)`. -/
def buildLevelMap [LinearOrder α]
    (walk : α → (α → Option Int) → Option (Int × (α → Option Int))) :
    List α → (Int → List α) × (α → Option Int) → Option ((Int → List α) × (α → Option Int))
  | [], st => some st
  | prereq :: rest, st =>
    match walk prereq st.2 with
    | none => none
    | some (level, courseLevel1) =>
      buildLevelMap walk rest
        (Function.update st.1 level (setInsert prereq (st.1 level)), courseLevel1)

/-- The base-case loop over `levelMap[0]`: false at the first course for which the local
`completed`, the outcome of the test
`getCompletedCourses().find(prereq) != getCompletedCourses().end()`, is false. -/
def baseCaseScan [DecidableEq α] (completedCourses : List α) : List α → Bool
  | [] => true
  | prereq :: rest =>
    let completed := findInCopyNeEnd completedCourses prereq
    if !completed then false else baseCaseScan completedCourses rest

/-- The loop over `levelMap[k + 1]` in an inductive step: a course missing from the catalog
is skipped, and the scan is false at the first course for which the local `completed`, the
outcome of the test `getCompletedCourses().find(prereq) != getCompletedCourses().end()`, is
false (`canTake` is only printed). -/
def levelScan [DecidableEq α] (dm : DataManager α) (completedCourses : List α) :
    List α → Bool
  | [] => true
  | prereq :: rest =>
    match dm.getCourse prereq with
    | none => levelScan dm completedCourses rest
    | some _ =>
      let completed := findInCopyNeEnd completedCourses prereq
      if !completed then false else levelScan dm completedCourses rest

/-- The loop `for (int k = 0; k < targetLevel; k++)` over the values of `k` still to come. -/
def inductiveSteps [DecidableEq α] (dm : DataManager α) (completedCourses : List α)
    (levelMap : Int → List α) : List Nat → Bool
  | [] => true
  | k :: ks =>
    if levelMap ((k : Int) + 1) = [] then inductiveSteps dm completedCourses levelMap ks
    else if levelScan dm completedCourses (levelMap ((k : Int) + 1)) then
      inductiveSteps dm completedCourses levelMap ks
    else false

/-- `InductionModule::verifyPrerequisiteChain`. The recursion of `computeLevel` has no bound
of its own, so its fuel is a parameter; `none` when the fuel ends. -/
def verifyPrerequisiteChain [LinearOrder α] (dm : DataManager α) (students : List (Student α))
    (fuel : Nat) (studentID courseID : α) : Option Bool :=
  match getStudent students studentID, dm.getCourse courseID with
  | some student, some _ =>
    match validateIndirectPrerequisites dm courseID with
    | none => none
    | some allPrereqs =>
      if allPrereqs = [] then some true
      else
        match buildLevelMap (computeLevel dm fuel) allPrereqs (fun _ => [], fun _ => none) with
        | none => none
        | some (levelMap, courseLevel) =>
          match computeLevel dm fuel courseID courseLevel with
          | none => none
          | some (targetLevel, _) =>
            if baseCaseScan student.completedCourses (levelMap 0) then
              some (inductiveSteps dm student.completedCourses levelMap
                (List.range targetLevel.toNat))
            else some false
  | _, _ => some false

/-- Invariant of the map `courseLevel` on a catalog without cycles: levels are not negative,
a course with a positive level is in the catalog, and every prerequisite of a course with a
level has a level that is smaller by at least one. -/
structure LevelInv [DecidableEq α] (dm : DataManager α) (courseLevel : α → Option Int) :
    Prop where
  nonneg : ∀ x l, courseLevel x = some l → 0 ≤ l
  pos : ∀ x l, courseLevel x = some l → 1 ≤ l → (dm.getCourse x).isSome
  step : ∀ x l, courseLevel x = some l → ∀ p, Requires dm x p →
    ∃ lp, courseLevel p = some lp ∧ lp + 1 ≤ l

/-- What a call `computeLevel(x)` does to the map `courseLevel` on a catalog without cycles:
the level returned is stored for `x`, the invariant is kept, no entry changes, and new
entries are courses reachable from `x`. -/
structure LevelSpec [DecidableEq α] (dm : DataManager α) (x : α) (M : α → Option Int)
    (l : Int) (M1 : α → Option Int) : Prop where
  stored : M1 x = some l
  inv : LevelInv dm M1
  mono : ∀ y ly, M y = some ly → M1 y = some ly
  grow : ∀ y, M1 y ≠ none → M y ≠ none ∨ Relation.ReflTransGen (Requires dm) x y

/-- Two students over numbered courses: 101 completed the courses 1, 2 and 3 and is enrolled
in 4; 102 completed course 1 only. -/
def numberedStudents : List (Student Nat) :=
  [⟨101, [4], [1, 2, 3], 3⟩, ⟨102, [], [1], 0⟩]

/-! # Theorems -/

section SetInsert
variable {β : Type} [LinearOrder β]

theorem mem_setInsert (x y : β) (s : List β) : y ∈ setInsert x s ↔ y = x ∨ y ∈ s := by
  unfold setInsert
  split
  · constructor
    · exact Or.inr
    · rintro (rfl | h)
      · assumption
      · exact h
  · exact List.mem_orderedInsert _

theorem setInsert_nil (x : β) : setInsert x [] = [x] := by
  simp [setInsert]

theorem setInsert_of_mem (x : β) (s : List β) (h : x ∈ s) : setInsert x s = s := by
  simp [setInsert, h]

theorem length_setInsert_of_not_mem (x : β) (s : List β) (h : x ∉ s) :
    (setInsert x s).length = s.length + 1 := by
  simp [setInsert, h, List.orderedInsert_length]

theorem nodup_setInsert (x : β) (s : List β) (hs : s.Nodup) : (setInsert x s).Nodup := by
  unfold setInsert
  split
  · exact hs
  · rename_i h
    rw [(List.perm_orderedInsert _ x s).nodup_iff]
    exact List.nodup_cons.2 ⟨h, hs⟩

theorem sorted_setInsert (x : β) (s : List β) (hs : s.Sorted (· < ·)) :
    (setInsert x s).Sorted (· < ·) := by
  have hnd := nodup_setInsert x s hs.nodup
  unfold setInsert at hnd ⊢
  split
  · exact hs
  · rename_i h
    simp only [h, if_false] at hnd
    exact (hs.le_of_lt.orderedInsert x s).lt_of_le hnd

/-- Two strictly ascending lists with the same elements are equal. -/
theorem eq_of_sorted_of_mem_iff (s t : List β) (hs : s.Sorted (· < ·)) (ht : t.Sorted (· < ·))
    (h : ∀ x, x ∈ s ↔ x ∈ t) : s = t :=
  List.eq_of_perm_of_sorted ((List.perm_ext_iff_of_nodup hs.nodup ht.nodup).2 h) hs ht

end SetInsert



theorem exists_no_pred_of_acyclic (E : α → α → Prop)
    (hacyc : ∀ c, ¬ Relation.TransGen E c c) (T : List α) (hT : T ≠ []) :
    ∃ m ∈ T, ∀ p ∈ T, ¬ E p m := by
  classical
  let β := {x // x ∈ T}
  let r : β → β → Prop := fun a b => E a.1 b.1
  have hlift : ∀ a b : β, Relation.TransGen r a b → Relation.TransGen E a.1 b.1 := by
    intro a b h
    exact Relation.TransGen.lift (fun x : β => x.1) (fun _ _ h => h) h
  haveI : IsTrans β (Relation.TransGen r) := ⟨fun _ _ _ h1 h2 => h1.trans h2⟩
  haveI : IsIrrefl β (Relation.TransGen r) := ⟨fun a h => hacyc a.1 (hlift a a h)⟩
  haveI : Finite β := (List.finite_toSet T).to_subtype
  have wf : WellFounded (Relation.TransGen r) := Finite.wellFounded_of_trans_of_irrefl _
  obtain ⟨x, hx⟩ := List.exists_mem_of_ne_nil T hT
  obtain ⟨m, -, hm⟩ := wf.has_min Set.univ ⟨⟨x, hx⟩, Set.mem_univ _⟩
  refine ⟨m.1, m.2, fun p hp hE => ?_⟩
  exact hm ⟨p, hp⟩ (Set.mem_univ _) (Relation.TransGen.single hE)

theorem Before.append_right {order : List α} {p c : α} (h : Before order p c) (l : List α) :
    Before (order ++ l) p c := by
  obtain ⟨l1, l2, l3, rfl⟩ := h
  exact ⟨l1, l2, l3 ++ l, by simp⟩

theorem Before.snoc {order : List α} {p : α} (h : p ∈ order) (c : α) :
    Before (order ++ [c]) p c := by
  obtain ⟨l1, l2, rfl⟩ := List.append_of_mem h
  exact ⟨l1, l2, [], by simp⟩


section Kahn
variable [DecidableEq α]

theorem addEdge_foldl_fst (S : List α) (c : α) (P : List α) (g : (α → Int) × (α → List α)) :
    (P.foldl (addEdge S c) g).1
      = Function.update g.1 c (g.1 c + ((P.filter (fun p => decide (p ∈ S))).length : Int)) := by
  induction P generalizing g with
  | nil => simp
  | cons q P ih =>
    rw [List.foldl_cons, ih]
    by_cases hq : q ∈ S
    · simp [addEdge, hq]
      ring_nf
    · simp [addEdge, hq]

theorem addEdge_foldl_snd (S : List α) (c : α) (P : List α) (hP : P.Nodup)
    (g : (α → Int) × (α → List α)) (p : α) :
    (P.foldl (addEdge S c) g).2 p
      = g.2 p ++ (if p ∈ P ∧ p ∈ S then [c] else []) := by
  induction P generalizing g with
  | nil => simp
  | cons q P ih =>
    rw [List.nodup_cons] at hP
    rw [List.foldl_cons, ih hP.2]
    by_cases hq : q ∈ S
    · by_cases hpq : p = q
      · subst hpq
        simp [addEdge, hq, hP.1]
      · have : ¬ q = p := fun h => hpq h.symm
        simp [addEdge, hq, hpq, Function.update_noteq hpq]
    · by_cases hpq : p = q
      · subst hpq
        simp [addEdge, hq, hP.1]
      · simp [addEdge, hq, hpq]

theorem addCourseEdges_foldl (dm : DataManager α) (S : List α)
    (hP : ∀ c course, dm.getCourse c = some course → course.prerequisites.Nodup)
    (L : List α) (hL : L.Nodup) (g : (α → Int) × (α → List α)) :
    (∀ x, (L.foldl (addCourseEdges dm S) g).1 x
        = g.1 x + (if x ∈ L then ((predsIn dm S x).length : Int) else 0)) ∧
    (∀ p, (L.foldl (addCourseEdges dm S) g).2 p
        = g.2 p ++ L.filter (fun c => decide (p ∈ predsIn dm S c))) := by
  induction L generalizing g with
  | nil => simp
  | cons c L ih =>
    rw [List.nodup_cons] at hL
    obtain ⟨ih1, ih2⟩ := ih hL.2 (addCourseEdges dm S g c)
    rw [List.foldl_cons]
    constructor
    · intro x
      rw [ih1]
      cases hc : dm.getCourse c with
      | none =>
        by_cases hx : x = c
        · subst hx; simp [addCourseEdges, predsIn, hc, hL.1]
        · simp [addCourseEdges, hc, hx]
      | some course =>
        simp only [addCourseEdges, hc, addEdge_foldl_fst]
        by_cases hx : x = c
        · subst hx; simp [predsIn, hc, hL.1]
        · simp [hx, Function.update_noteq hx]
    · intro p
      rw [ih2]
      cases hc : dm.getCourse c with
      | none => simp [addCourseEdges, predsIn, hc]
      | some course =>
        simp only [addCourseEdges, hc, addEdge_foldl_snd _ _ _ (hP c course hc)]
        by_cases hp : p ∈ course.prerequisites ∧ p ∈ S
        · simp [predsIn, hc, hp, List.filter_cons]
        · simp [predsIn, hc, hp, List.filter_cons]

theorem buildGraph_fst (dm : DataManager α) (S : List α) (hS : S.Nodup)
    (hP : ∀ c course, dm.getCourse c = some course → course.prerequisites.Nodup) (x : α) :
    (buildGraph dm S).1 x = if x ∈ S then ((predsIn dm S x).length : Int) else 0 := by
  have := (addCourseEdges_foldl dm S hP S hS (fun _ => 0, fun _ => [])).1 x
  simpa [buildGraph] using this

theorem buildGraph_snd (dm : DataManager α) (S : List α) (hS : S.Nodup)
    (hP : ∀ c course, dm.getCourse c = some course → course.prerequisites.Nodup) (p : α) :
    (buildGraph dm S).2 p = S.filter (fun c => decide (p ∈ predsIn dm S c)) := by
  have := (addCourseEdges_foldl dm S hP S hS (fun _ => 0, fun _ => [])).2 p
  simpa [buildGraph] using this

theorem relaxNeighbours_eq (L : List α) (hL : L.Nodup) (d : α → Int) (q : List α) :
    (∀ x, (relaxNeighbours L d q).1 x = if x ∈ L then d x - 1 else d x) ∧
    (relaxNeighbours L d q).2 = q ++ L.filter (fun x => decide (d x = 1)) := by
  induction L generalizing d q with
  | nil => simp [relaxNeighbours]
  | cons n L ih =>
    rw [List.nodup_cons] at hL
    have hstep : relaxNeighbours (n :: L) d q
        = relaxNeighbours L (relaxStep (d, q) n).1 (relaxStep (d, q) n).2 := by
      simp [relaxNeighbours]
    obtain ⟨ih1, ih2⟩ := ih hL.2 (relaxStep (d, q) n).1 (relaxStep (d, q) n).2
    have h1 : (relaxStep (d, q) n).1 = Function.update d n (d n - 1) := by
      simp only [relaxStep]; split <;> rfl
    have h2 : (relaxStep (d, q) n).2 = if d n = 1 then q ++ [n] else q := by
      simp only [relaxStep, Function.update_same]
      by_cases h : d n = 1
      · simp [h]
      · have : ¬ d n - 1 = 0 := fun h0 => h (by omega)
        simp [h, this]
    rw [hstep]
    constructor
    · intro x
      rw [ih1, h1]
      by_cases hx : x = n
      · subst hx; simp [hL.1]
      · simp [hx, Function.update_noteq hx]
    · rw [ih2, h1, h2]
      have hf : L.filter (fun x => decide (Function.update d n (d n - 1) x = 1))
          = L.filter (fun x => decide (d x = 1)) := by
        apply List.filter_congr
        intro x hx
        have : x ≠ n := fun h => hL.1 (h ▸ hx)
        simp [Function.update_noteq this]
      rw [hf]
      by_cases h : d n = 1
      · simp [h, List.filter_cons]
      · simp [h, List.filter_cons]


theorem predsIn_nodup (dm : DataManager α) (S : List α)
    (hP : ∀ c course, dm.getCourse c = some course → course.prerequisites.Nodup) (c : α) :
    (predsIn dm S c).Nodup := by
  unfold predsIn
  cases hc : dm.getCourse c with
  | none => simp
  | some course => exact (hP c course hc).filter _

theorem predsIn_sub (dm : DataManager α) (S : List α) (c p : α) (h : p ∈ predsIn dm S c) :
    p ∈ S := by
  unfold predsIn at h
  cases hc : dm.getCourse c with
  | none => simp [hc] at h
  | some course => simp [hc] at h; exact h.2

theorem filter_notin_snoc (P result : List α) (cur : α) (hP : P.Nodup) (hcur : cur ∉ result) :
    ((P.filter (fun p => decide (p ∉ result ++ [cur]))).length : Int)
      = ((P.filter (fun p => decide (p ∉ result))).length : Int) - (if cur ∈ P then 1 else 0) := by
  induction P with
  | nil => simp
  | cons a P ih =>
    rw [List.nodup_cons] at hP
    have ih := ih hP.2
    by_cases ha : a = cur
    · subst ha
      have h1 : a ∉ P := hP.1
      simp [List.filter_cons, hcur, h1] at ih ⊢
      omega
    · have hne : ¬ cur = a := fun h => ha h.symm
      by_cases har : a ∈ result
      · simp [List.filter_cons, har, ha, hne] at ih ⊢
        exact ih
      · by_cases hc : cur ∈ P
        · simp [List.filter_cons, har, ha, hne, hc] at ih ⊢
          omega
        · simp [List.filter_cons, har, ha, hne, hc] at ih ⊢
          omega

theorem KahnInv.step (dm : DataManager α) (S : List α) (hS : S.Nodup)
    (hP : ∀ c course, dm.getCourse c = some course → course.prerequisites.Nodup)
    (q : List α) (cur : α) (d : α → Int) (result : List α)
    (h : KahnInv dm S (q ++ [cur]) d result) :
    KahnInv dm S
      (relaxNeighbours (S.filter (fun c => decide (cur ∈ predsIn dm S c))) d q).2
      (relaxNeighbours (S.filter (fun c => decide (cur ∈ predsIn dm S c))) d q).1
      (result ++ [cur]) := by
  set L := S.filter (fun c => decide (cur ∈ predsIn dm S c)) with hLdef
  have hLnd : L.Nodup := hS.filter _
  obtain ⟨r1, r2⟩ := relaxNeighbours_eq L hLnd d q
  have hnd := h.nodup
  have hcurS : cur ∈ S := h.sub cur (Or.inr (by simp))
  have hcur_res : cur ∉ result := by
    intro hc
    have := List.disjoint_of_nodup_append hnd hc
    exact this (by simp)
  have hcur_q : cur ∉ q := by
    have h2 : (q ++ [cur]).Nodup := (List.nodup_append.mp hnd).2.1
    intro hc
    have := List.disjoint_of_nodup_append h2 hc
    exact this (by simp)
  have hmemL : ∀ c, c ∈ L ↔ c ∈ S ∧ cur ∈ predsIn dm S c := by
    intro c; simp [hLdef]
  -- members of L have positive in-degree and are neither emitted nor queued
  have hLfresh : ∀ c ∈ L, c ∉ result ∧ c ∉ q ∧ c ≠ cur := by
    intro c hc
    obtain ⟨hcS, hcp⟩ := (hmemL c).1 hc
    have hpos : d c ≠ 0 := by
      rw [h.deg c hcS]
      have : cur ∈ (predsIn dm S c).filter (fun p => decide (p ∉ result)) := by
        simp [hcp, hcur_res]
      intro h0
      have hl : ((predsIn dm S c).filter (fun p => decide (p ∉ result))).length = 0 := by
        exact_mod_cast h0
      rw [List.length_eq_zero] at hl
      rw [hl] at this
      simp at this
    have hn := mt (h.zero c hcS).2 hpos
    simp only [List.mem_append, List.mem_singleton, not_or] at hn
    exact ⟨hn.1, hn.2.1, hn.2.2⟩
  have hdeg : ∀ c ∈ S, (relaxNeighbours L d q).1 c
      = (((predsIn dm S c).filter (fun p => decide (p ∉ result ++ [cur]))).length : Int) := by
    intro c hcS
    rw [r1, filter_notin_snoc _ _ _ (predsIn_nodup dm S hP c) hcur_res, ← h.deg c hcS]
    by_cases hc : cur ∈ predsIn dm S c
    · have : c ∈ L := (hmemL c).2 ⟨hcS, hc⟩
      simp [this, hc]
    · have : c ∉ L := fun hl => hc ((hmemL c).1 hl).2
      simp [this, hc]
  refine ⟨?_, ?_, hdeg, ?_, ?_⟩
  · -- nodup
    rw [r2]
    have hperm : (result ++ [cur] ++ (q ++ L.filter (fun x => decide (d x = 1)))).Perm
        ((result ++ (q ++ [cur])) ++ L.filter (fun x => decide (d x = 1))) := by
      simp only [List.append_assoc]
      apply List.Perm.append_left
      rw [← List.append_assoc, ← List.append_assoc]
      apply List.Perm.append_right
      simpa using (List.perm_append_comm : ([cur] ++ q).Perm (q ++ [cur]))
    rw [hperm.nodup_iff, List.nodup_append]
    refine ⟨hnd, hLnd.filter _, ?_⟩
    intro x hx1 hx2
    have hxL : x ∈ L := (List.mem_filter.1 hx2).1
    obtain ⟨a, b, c⟩ := hLfresh x hxL
    simp only [List.mem_append, List.mem_singleton] at hx1
    rcases hx1 with hx | hx | hx
    · exact a hx
    · exact b hx
    · exact c hx
  · -- sub
    intro x hx
    rw [r2] at hx
    simp only [List.mem_append, List.mem_singleton, List.mem_filter] at hx
    rcases hx with (hx | hx) | hx | hx
    · exact h.sub x (Or.inl hx)
    · subst hx; exact hcurS
    · exact h.sub x (Or.inr (by simp [hx]))
    · exact ((hmemL x).1 hx.1).1
  · -- zero
    intro c hcS
    rw [r1, r2]
    by_cases hcL : c ∈ L
    · obtain ⟨a, b, e⟩ := hLfresh c hcL
      simp only [hcL, if_true, List.mem_append, List.mem_singleton, List.mem_filter,
        decide_eq_true_eq, a, b, e, false_or, true_and]
      omega
    · have := h.zero c hcS
      simp only [hcL, if_false, List.mem_append, List.mem_singleton, List.mem_filter,
        false_and, or_false]
      rw [this]
      simp only [List.mem_append, List.mem_singleton]
      tauto
  · -- before
    intro c hc p hp
    simp only [List.mem_append, List.mem_singleton] at hc
    rcases hc with hc | hc
    · exact (h.before c hc p hp).append_right _
    · subst hc
      have hz : d c = 0 := (h.zero c hcurS).2 (Or.inr (by simp))
      rw [h.deg c hcurS] at hz
      have hl : ((predsIn dm S c).filter (fun p => decide (p ∉ result))).length = 0 := by
        exact_mod_cast hz
      rw [List.length_eq_zero] at hl
      have hpr : p ∈ result := by
        by_contra hn
        have : p ∈ (predsIn dm S c).filter (fun p => decide (p ∉ result)) := by
          simp [hp, hn]
        rw [hl] at this
        simp at this
      exact Before.snoc hpr c


theorem kahnLoop_spec (dm : DataManager α) (S : List α) (hS : S.Nodup)
    (hP : ∀ c course, dm.getCourse c = some course → course.prerequisites.Nodup)
    (adj : α → List α)
    (hadj : ∀ p, adj p = S.filter (fun c => decide (p ∈ predsIn dm S c)))
    (fuel : Nat) (queue : List α) (d : α → Int) (result : List α)
    (h : KahnInv dm S queue d result) (hfuel : S.length ≤ fuel + result.length) :
    ∃ r d', kahnLoop adj fuel queue d result = some r ∧ KahnInv dm S [] d' r := by
  induction fuel generalizing queue d result with
  | zero =>
    have hsub : (result ++ queue) ⊆ S := fun x hx => h.sub x (List.mem_append.1 hx)
    have hlen := (h.nodup.subperm hsub).length_le
    have hq : queue = [] := by
      apply List.eq_nil_of_length_eq_zero
      simp only [List.length_append] at hlen
      omega
    subst hq
    exact ⟨result, d, by simp [kahnLoop], h⟩
  | succ fuel ih =>
    rcases List.eq_nil_or_concat queue with hq | ⟨q, cur, hq⟩
    · subst hq
      exact ⟨result, d, by simp [kahnLoop], h⟩
    · rw [List.concat_eq_append] at hq
      subst hq
      have hstep := KahnInv.step dm S hS hP q cur d result h
      obtain ⟨r, d', hr, hinv⟩ := ih _ _ _ hstep (by simp only [List.length_append, List.length_singleton]; omega)
      refine ⟨r, d', ?_, hinv⟩
      have h1 : (q ++ [cur]).getLast? = some cur := by simp
      have h2 : (q ++ [cur]).dropLast = q := by simp
      simp only [kahnLoop, h1, h2, hadj]
      exact hr

theorem KahnInv.complete (dm : DataManager α) (S : List α)
    (hacyc : ∀ c, ¬ Relation.TransGen (EdgeIn dm S) c c)
    (d : α → Int) (r : List α) (h : KahnInv dm S [] d r) : ∀ c ∈ S, c ∈ r := by
  by_contra hne
  push_neg at hne
  obtain ⟨c, hcS, hcr⟩ := hne
  have hT : S.filter (fun x => decide (x ∉ r)) ≠ [] := by
    intro h0
    have : c ∈ S.filter (fun x => decide (x ∉ r)) := by simp [hcS, hcr]
    rw [h0] at this
    simp at this
  obtain ⟨m, hm, hmin⟩ := exists_no_pred_of_acyclic (EdgeIn dm S) hacyc _ hT
  simp only [List.mem_filter, decide_eq_true_eq] at hm
  have hd : d m ≠ 0 := fun h0 => by
    have := (h.zero m hm.1).1 h0
    simp at this
    exact hm.2 this
  rw [h.deg m hm.1] at hd
  have hl : (predsIn dm S m).filter (fun p => decide (p ∉ r)) ≠ [] := by
    intro h0
    rw [h0] at hd
    simp at hd
  obtain ⟨p, hp⟩ := List.exists_mem_of_ne_nil _ hl
  simp only [List.mem_filter, decide_eq_true_eq] at hp
  have hpS := predsIn_sub dm S m p hp.1
  apply hmin p (by simp [hpS, hp.2])
  refine ⟨hm.1, hpS, ?_⟩
  unfold predsIn at hp
  cases hc : dm.getCourse m with
  | none => simp [hc] at hp
  | some course =>
    simp [hc] at hp
    exact ⟨course, rfl, hp.1.1⟩

theorem getCourse_mem (dm : DataManager α) (c : α) (course : Course α)
    (h : dm.getCourse c = some course) : course ∈ dm.courses ∧ course.courseID = c := by
  unfold DataManager.getCourse at h
  refine ⟨List.mem_of_find?_eq_some h, ?_⟩
  have := List.find?_some h
  simpa using this


end Kahn

/-- C1: on a duplicate-free set S whose prerequisite edges inside S form no directed cycle,
topologicalSort returns an ordering in which every prerequisite p in S of a course c in S
appears before c. -/
theorem topologicalSort_prerequisites_first [DecidableEq α] (dm : DataManager α) (S : List α)
    (hS : S.Nodup) (hP : ∀ course ∈ dm.courses, course.prerequisites.Nodup)
    (hacyc : ∀ c, ¬ Relation.TransGen (EdgeIn dm S) c c) :
    ∃ order, topologicalSort dm S = some order ∧
      ∀ c ∈ S, ∀ course, dm.getCourse c = some course →
        ∀ p ∈ course.prerequisites, p ∈ S → Before order p c := by
  have hP' : ∀ c course, dm.getCourse c = some course → course.prerequisites.Nodup :=
    fun c course h => hP course (getCourse_mem dm c course h).1
  have hinit : KahnInv dm S (S.filter (fun c => decide ((buildGraph dm S).1 c = 0)))
      (buildGraph dm S).1 [] := by
    refine ⟨?_, ?_, ?_, ?_, ?_⟩
    · simpa using hS.filter _
    · intro x hx
      simp only [List.not_mem_nil, false_or, List.mem_filter] at hx
      exact hx.1
    · intro c hc
      simp [buildGraph_fst dm S hS hP', hc]
    · intro c hc
      simp [hc]
    · intro c hc
      simp at hc
  obtain ⟨r, d', hr, hinv⟩ := kahnLoop_spec dm S hS hP' (buildGraph dm S).2
    (buildGraph_snd dm S hS hP') S.length _ _ [] hinit (by simp)
  refine ⟨r, hr, ?_⟩
  intro c hc course hcourse p hp hpS
  have hcr := KahnInv.complete dm S hacyc d' r hinv c hc
  apply hinv.before c hcr p
  simp [predsIn, hcourse, hp, hpS]


/-- A rank that strictly grows along every prerequisite edge rules out prerequisite cycles. -/
theorem acyclic_of_rank (E : α → α → Prop) (rank : α → Nat)
    (h : ∀ p c, E p c → rank p < rank c) : ∀ c, ¬ Relation.TransGen E c c := by
  have key : ∀ a b, Relation.TransGen E a b → rank a < rank b := by
    intro a b hab
    induction hab with
    | single h1 => exact h _ _ h1
    | tail _ h2 ih => exact lt_trans ih (h _ _ h2)
  intro c hc
  exact lt_irrefl _ (key c c hc)

theorem edgeIn_diamond_rank (p c : String)
    (h : EdgeIn diamondCatalog ["A", "B", "C", "D"] p c) :
    List.indexOf p ["A", "B", "C", "D"] < List.indexOf c ["A", "B", "C", "D"] := by
  obtain ⟨hc, -, course, hcourse, hp⟩ := h
  have hall : ∀ c ∈ ["A", "B", "C", "D"], ∀ p ∈ diamondCatalog.prereqsOf c,
      List.indexOf p ["A", "B", "C", "D"] < List.indexOf c ["A", "B", "C", "D"] := by
    decide
  apply hall c hc p
  simp [DataManager.prereqsOf, hcourse, hp]

/-- Witness for C1: the diamond catalog, sorted as a whole. -/
theorem topologicalSort_prerequisites_first_witness :
    ∃ order, topologicalSort diamondCatalog ["A", "B", "C", "D"] = some order ∧
      ∀ c ∈ ["A", "B", "C", "D"], ∀ course, diamondCatalog.getCourse c = some course →
        ∀ p ∈ course.prerequisites, p ∈ ["A", "B", "C", "D"] → Before order p c :=
  topologicalSort_prerequisites_first diamondCatalog ["A", "B", "C", "D"] (by decide)
    (by decide)
    (acyclic_of_rank _ (fun x => List.indexOf x ["A", "B", "C", "D"]) edgeIn_diamond_rank)

section CycleWalk
variable [DecidableEq α]

theorem requires_iff (dm : DataManager α) (c p : α) :
    Requires dm c p ↔ ∃ course, dm.getCourse c = some course ∧ p ∈ course.prerequisites := by
  unfold Requires DataManager.prereqsOf
  cases h : dm.getCourse c with
  | none => simp
  | some course => simp

theorem hasCycleLoop_sound (dm : DataManager α) (walk : α → List α → Option (Bool × List α))
    (hw : WalkSound dm walk) (ps : List α) (hps : ∀ p ∈ ps, (dm.getCourse p).isSome)
    (W : List α) (r : Bool) (W1 : List α) (h : hasCycleLoop walk ps W = some (r, W1)) :
    (r = false → W1 = W ∧ ∀ p ∈ ps, ∀ v, Relation.ReflTransGen (Requires dm) p v →
        v ∉ W ∧ ¬ Relation.TransGen (Requires dm) v v) ∧
    (r = true → ∃ p ∈ ps, ∃ v, Relation.ReflTransGen (Requires dm) p v ∧
        (v ∈ W ∨ Relation.TransGen (Requires dm) v v)) := by
  induction ps generalizing W with
  | nil =>
    simp only [hasCycleLoop, Option.some.injEq, Prod.mk.injEq] at h
    obtain ⟨rfl, rfl⟩ := h
    simp
  | cons p ps ih =>
    have hp : (dm.getCourse p).isSome := hps p (by simp)
    have hps' : ∀ q ∈ ps, (dm.getCourse q).isSome := fun q hq => hps q (by simp [hq])
    rw [hasCycleLoop] at h
    cases hwp : walk p W with
    | none => simp [hwp] at h
    | some res =>
      obtain ⟨b, Wp⟩ := res
      obtain ⟨hwf, hwt⟩ := hw p W b Wp hp hwp
      cases b with
      | true =>
        simp only [hwp, Option.some.injEq, Prod.mk.injEq] at h
        obtain ⟨rfl, rfl⟩ := h
        refine ⟨by simp, fun _ => ?_⟩
        obtain ⟨v, hv, hv2⟩ := hwt rfl
        exact ⟨p, by simp, v, hv, hv2⟩
      | false =>
        simp only [hwp] at h
        obtain ⟨hWp, hreach⟩ := hwf rfl
        subst hWp
        obtain ⟨ihf, iht⟩ := ih hps' _ h
        constructor
        · intro hr
          obtain ⟨e, hrest⟩ := ihf hr
          refine ⟨e, ?_⟩
          intro q hq v hv
          rcases List.mem_cons.1 hq with rfl | hq
          · exact hreach v hv
          · exact hrest q hq v hv
        · intro hr
          obtain ⟨q, hq, v, hv, hv2⟩ := iht hr
          exact ⟨q, by simp [hq], v, hv, hv2⟩

theorem hasCycle_sound (dm : DataManager α)
    (hex : ∀ course ∈ dm.courses, ∀ p ∈ course.prerequisites, (dm.getCourse p).isSome)
    (fuel : Nat) : WalkSound dm (hasCycle dm fuel) := by
  induction fuel with
  | zero =>
    intro cid V r V1 _ h
    simp [hasCycle] at h
  | succ fuel ih =>
    intro cid V r V1 hcid h
    rw [hasCycle] at h
    by_cases hmem : cid ∈ V
    · simp only [hmem, if_true, Option.some.injEq, Prod.mk.injEq] at h
      obtain ⟨rfl, rfl⟩ := h
      exact ⟨by simp, fun _ => ⟨cid, Relation.ReflTransGen.refl, Or.inl hmem⟩⟩
    · simp only [hmem, if_false] at h
      cases hc : dm.getCourse cid with
      | none => simp [hc] at hcid
      | some c =>
        simp only [hc] at h
        have hps : ∀ p ∈ c.prerequisites, (dm.getCourse p).isSome :=
          hex c (List.mem_of_find?_eq_some hc)
        have hins : V.insert cid = cid :: V := List.insert_of_not_mem hmem
        cases hl : hasCycleLoop (hasCycle dm fuel) c.prerequisites (V.insert cid) with
        | none => simp [hl] at h
        | some res =>
          obtain ⟨b, W1⟩ := res
          obtain ⟨hlf, hlt⟩ := hasCycleLoop_sound dm _ ih c.prerequisites hps _ b W1 hl
          cases b with
          | true =>
            simp only [hl, Option.some.injEq, Prod.mk.injEq] at h
            obtain ⟨rfl, rfl⟩ := h
            refine ⟨by simp, fun _ => ?_⟩
            obtain ⟨p, hp, v, hv, hv2⟩ := hlt rfl
            have hE : Requires dm cid p := (requires_iff dm cid p).2 ⟨c, hc, hp⟩
            rw [hins] at hv2
            rcases hv2 with hv2 | hv2
            · rcases List.mem_cons.1 hv2 with rfl | hv2
              · exact ⟨v, Relation.ReflTransGen.refl,
                  Or.inr (Relation.TransGen.head'_iff.2 ⟨p, hE, hv⟩)⟩
              · exact ⟨v, Relation.ReflTransGen.head hE hv, Or.inl hv2⟩
            · exact ⟨v, Relation.ReflTransGen.head hE hv, Or.inr hv2⟩
          | false =>
            simp only [hl, Option.some.injEq, Prod.mk.injEq] at h
            obtain ⟨rfl, rfl⟩ := h
            obtain ⟨hW, hreach⟩ := hlf rfl
            refine ⟨fun _ => ⟨?_, ?_⟩, by simp⟩
            · rw [hW, hins]; simp
            · intro v hv
              rcases Relation.ReflTransGen.cases_head hv with rfl | ⟨p, hE, hpv⟩
              · refine ⟨hmem, fun hcyc => ?_⟩
                obtain ⟨p, hE, hpc⟩ := Relation.TransGen.head'_iff.1 hcyc
                obtain ⟨c', hc', hp⟩ := (requires_iff dm cid p).1 hE
                rw [hc] at hc'
                cases hc'
                have := (hreach p hp cid hpc).1
                rw [hins] at this
                simp at this
              · obtain ⟨c', hc', hp⟩ := (requires_iff dm cid p).1 hE
                rw [hc] at hc'
                cases hc'
                have := hreach p hp v hpv
                rw [hins] at this
                exact ⟨fun hvV => this.1 (by simp [hvV]), this.2⟩

theorem hasCycleLoop_total (dm : DataManager α) (walk : α → List α → Option (Bool × List α))
    (hw : WalkSound dm walk) (W : List α) (htot : ∀ p, (walk p W).isSome)
    (ps : List α) (hps : ∀ p ∈ ps, (dm.getCourse p).isSome) :
    (hasCycleLoop walk ps W).isSome := by
  induction ps with
  | nil => simp [hasCycleLoop]
  | cons p ps ih =>
    have hp : (dm.getCourse p).isSome := hps p (by simp)
    have hps' : ∀ q ∈ ps, (dm.getCourse q).isSome := fun q hq => hps q (by simp [hq])
    rw [hasCycleLoop]
    cases hwp : walk p W with
    | none =>
      have := htot p
      simp [hwp] at this
    | some res =>
      obtain ⟨b, Wp⟩ := res
      cases b with
      | true => simp
      | false =>
        obtain ⟨hWp, -⟩ := (hw p W false Wp hp hwp).1 rfl
        subst hWp
        simpa using ih hps'

theorem visited_length_le (dm : DataManager α) (V : List α) (hV : V.Nodup)
    (hVex : ∀ x ∈ V, (dm.getCourse x).isSome) : V.length ≤ dm.courses.length := by
  have hsub : V ⊆ dm.courses.map (fun c => c.courseID) := by
    intro x hx
    have := hVex x hx
    rw [Option.isSome_iff_exists] at this
    obtain ⟨course, hc⟩ := this
    obtain ⟨h1, h2⟩ := getCourse_mem dm x course hc
    exact List.mem_map.2 ⟨course, h1, h2⟩
  simpa using (hV.subperm hsub).length_le

theorem hasCycle_total (dm : DataManager α)
    (hex : ∀ course ∈ dm.courses, ∀ p ∈ course.prerequisites, (dm.getCourse p).isSome)
    (fuel : Nat) (cid : α) (V : List α) (hV : V.Nodup)
    (hVex : ∀ x ∈ V, (dm.getCourse x).isSome)
    (hfuel : dm.courses.length + 1 ≤ fuel + V.length) :
    (hasCycle dm fuel cid V).isSome := by
  induction fuel generalizing cid V with
  | zero =>
    have := visited_length_le dm V hV hVex
    omega
  | succ fuel ih =>
    rw [hasCycle]
    by_cases hmem : cid ∈ V
    · simp [hmem]
    · simp only [hmem, if_false]
      cases hc : dm.getCourse cid with
      | none => simp
      | some c =>
        have hps : ∀ p ∈ c.prerequisites, (dm.getCourse p).isSome :=
          hex c (List.mem_of_find?_eq_some hc)
        have hins : V.insert cid = cid :: V := List.insert_of_not_mem hmem
        have hloop : (hasCycleLoop (hasCycle dm fuel) c.prerequisites (V.insert cid)).isSome := by
          apply hasCycleLoop_total dm _ (hasCycle_sound dm hex fuel) _ _ _ hps
          intro p
          apply ih
          · rw [hins]; exact List.nodup_cons.2 ⟨hmem, hV⟩
          · intro x hx
            rw [hins] at hx
            rcases List.mem_cons.1 hx with rfl | hx
            · simp [hc]
            · exact hVex x hx
          · rw [hins]; simp only [List.length_cons]; omega
        rw [Option.isSome_iff_exists] at hloop
        obtain ⟨⟨b, W1⟩, hl⟩ := hloop
        simp only [hl]
        cases b <;> simp

end CycleWalk

/-- C2: in a catalog where every referenced prerequisite exists as a course, the cycle walk
started on a fresh visited set returns, and it returns true exactly when a directed
prerequisite cycle is reachable from the course; a 2-cycle gives true, a single edge gives
false and a diamond gives false. -/
theorem hasCycle_iff_cycle_reachable [DecidableEq α] (dm : DataManager α)
    (hex : ∀ course ∈ dm.courses, ∀ p ∈ course.prerequisites, (dm.getCourse p).isSome)
    (c : α) :
    (∃ b, hasCycleFrom dm c = some b ∧ (b = true ↔ CycleReachable dm c)) ∧
    hasCycleFrom twoCycleCatalog "A" = some true ∧
    hasCycleFrom chainCatalog "A" = some false ∧
    hasCycleFrom diamondDownCatalog "A" = some false := by
  refine ⟨?_, by decide, by decide, by decide⟩
  cases hc : dm.getCourse c with
  | none =>
    refine ⟨false, by simp [hasCycleFrom, hasCycle, hc], ?_⟩
    simp only [Bool.false_eq_true, false_iff]
    rintro ⟨v, hv, hcyc⟩
    have hno : ∀ p, ¬ Requires dm c p := by
      intro p hp
      obtain ⟨course, h1, -⟩ := (requires_iff dm c p).1 hp
      rw [hc] at h1
      cases h1
    rcases Relation.ReflTransGen.cases_head hv with rfl | ⟨p, hE, -⟩
    · obtain ⟨p, hE, -⟩ := Relation.TransGen.head'_iff.1 hcyc
      exact hno p hE
    · exact hno p hE
  | some course =>
    have htot := hasCycle_total dm hex (dm.courses.length + 1) c [] List.nodup_nil
      (by simp) (by simp)
    rw [Option.isSome_iff_exists] at htot
    obtain ⟨⟨b, V1⟩, hres⟩ := htot
    obtain ⟨hf, ht⟩ := hasCycle_sound dm hex _ c [] b V1 (by simp [hc]) hres
    refine ⟨b, by simp [hasCycleFrom, hres], ?_⟩
    cases b with
    | true =>
      simp only [true_iff]
      obtain ⟨v, hv, hv2⟩ := ht rfl
      rcases hv2 with hv2 | hv2
      · simp at hv2
      · exact ⟨v, hv, hv2⟩
    | false =>
      simp only [Bool.false_eq_true, false_iff]
      rintro ⟨v, hv, hcyc⟩
      exact ((hf rfl).2 v hv).2 hcyc

/-- Witness for C2: the diamond catalog refers only to existing courses. -/
theorem hasCycle_iff_cycle_reachable_witness :
    (∀ course ∈ diamondDownCatalog.courses, ∀ p ∈ course.prerequisites,
        (diamondDownCatalog.getCourse p).isSome) ∧
    ∃ b, hasCycleFrom diamondDownCatalog "A" = some b ∧
      (b = true ↔ CycleReachable diamondDownCatalog "A") :=
  ⟨by decide, (hasCycle_iff_cycle_reachable diamondDownCatalog (by decide) "A").1⟩


theorem foldlM_generate (f : List (List α) → α → Option (List (List α)))
    (P : α → List α → Prop) (L : List α)
    (hf : ∀ c ∈ L, ∀ all, ∃ R, f all c = some (all ++ R) ∧ R.Nodup ∧ ∀ s, s ∈ R ↔ P c s)
    (hdisj : ∀ c1 c2 s, P c1 s → P c2 s → c1 = c2) (hL : L.Nodup) (all : List (List α)) :
    ∃ R, L.foldlM f all = some (all ++ R) ∧ R.Nodup ∧ ∀ s, s ∈ R ↔ ∃ c ∈ L, P c s := by
  induction L generalizing all with
  | nil => exact ⟨[], by simp⟩
  | cons c L ih =>
    rw [List.nodup_cons] at hL
    obtain ⟨R1, h1, hn1, hm1⟩ := hf c (by simp) all
    obtain ⟨R2, h2, hn2, hm2⟩ := ih (fun x hx => hf x (by simp [hx])) hL.2 (all ++ R1)
    refine ⟨R1 ++ R2, ?_, ?_, ?_⟩
    · simp [List.foldlM_cons, h1, h2]
    · rw [List.nodup_append]
      refine ⟨hn1, hn2, ?_⟩
      intro s hs1 hs2
      obtain ⟨x, hx, hPx⟩ := (hm2 s).1 hs2
      have := hdisj c x s ((hm1 s).1 hs1) hPx
      subst this
      exact hL.1 hx
    · intro s
      simp only [List.mem_append, hm1, hm2, List.mem_cons, exists_eq_or_imp]

section Enumeration
variable [DecidableEq α]

theorem mem_eligibleCourses (dm : DataManager α) (rem comp : List α) (c : α) :
    c ∈ eligibleCourses dm rem comp ↔
      c ∈ rem ∧ (dm.getCourse c).isSome ∧ ∀ p ∈ dm.prereqsOf c, p ∈ comp := by
  unfold eligibleCourses DataManager.prereqsOf
  cases h : dm.getCourse c with
  | none => simp [h]
  | some course => simp [h]

theorem generateSequencesRecursive_spec (dm : DataManager α) (fuel : Nat)
    (rem comp cur : List α) (all : List (List α)) (d : Int)
    (hrem : rem.Nodup) (hfuel : rem.length < fuel) :
    ∃ R, generateSequencesRecursive dm fuel rem comp cur all d = some (all ++ R) ∧ R.Nodup ∧
      ∀ s, s ∈ R ↔ ∃ ext, s = cur ++ ext ∧ s ≠ [] ∧ ValidExt dm ext rem comp d := by
  induction fuel generalizing rem comp cur all d with
  | zero => omega
  | succ fuel ih =>
    rw [generateSequencesRecursive]
    by_cases hterm : rem = [] ∨ d = 0
    · simp only [hterm, if_true]
      by_cases hcur : cur = []
      · refine ⟨[], by simp [hcur], by simp, ?_⟩
        intro s
        simp only [List.not_mem_nil, false_iff, not_exists, not_and]
        intro ext hs hne
        cases ext with
        | nil => simp [hs, hcur] at hne
        | cons c ext => simp [ValidExt, hterm]
      · refine ⟨[cur], by simp [hcur], by simp, ?_⟩
        intro s
        simp only [List.mem_singleton]
        constructor
        · rintro rfl
          exact ⟨[], by simp, hcur, by simpa [ValidExt] using hterm⟩
        · rintro ⟨ext, hs, -, hv⟩
          cases ext with
          | nil => simpa using hs
          | cons c ext => simp [ValidExt, hterm] at hv
    · simp only [hterm, if_false]
      have hLnd : (eligibleCourses dm rem comp).Nodup := hrem.filter _
      obtain ⟨R, hR, hn, hm⟩ := foldlM_generate
        (fun all courseID => generateSequencesRecursive dm fuel (rem.erase courseID)
          (comp.insert courseID) (cur ++ [courseID]) all (d - 1))
        (fun c s => ∃ ext, s = (cur ++ [c]) ++ ext ∧ s ≠ [] ∧
          ValidExt dm ext (rem.erase c) (comp.insert c) (d - 1))
        (eligibleCourses dm rem comp)
        (by
          intro c hc all
          have hcrem : c ∈ rem := ((mem_eligibleCourses dm rem comp c).1 hc).1
          apply ih
          · exact hrem.erase c
          · rw [List.length_erase_of_mem hcrem]
            have : 0 < rem.length := List.length_pos_of_mem hcrem
            omega)
        (by
          rintro c1 c2 s ⟨e1, h1, -, -⟩ ⟨e2, h2, -, -⟩
          rw [h1, List.append_assoc, List.append_assoc] at h2
          have := List.append_cancel_left h2
          simp only [List.singleton_append, List.cons.injEq] at this
          exact this.1)
        hLnd all
      refine ⟨R, hR, hn, ?_⟩
      intro s
      rw [hm]
      constructor
      · rintro ⟨c, hc, ext, hs, hne, hv⟩
        exact ⟨c :: ext, by simp [hs], hne, hterm, hc, hv⟩
      · rintro ⟨ext, hs, hne, hv⟩
        cases ext with
        | nil => exact absurd hv hterm
        | cons c ext =>
          obtain ⟨-, hc, hv⟩ := hv
          exact ⟨c, hc, ext, by simp [hs], hne, hv⟩

theorem validExt_iff (dm : DataManager α) (ext rem comp : List α) (d : Int)
    (hrem : rem.Nodup) (hex : ∀ c ∈ rem, (dm.getCourse c).isSome) (hd : 0 ≤ d) :
    ValidExt dm ext rem comp d ↔
      ext.Nodup ∧ (∀ x ∈ ext, x ∈ rem) ∧ (ext.length : Int) = min (rem.length : Int) d ∧
        ∀ l1 c l2, ext = l1 ++ c :: l2 → ∀ p ∈ dm.prereqsOf c, p ∈ comp ∨ p ∈ l1 := by
  induction ext generalizing rem comp d with
  | nil =>
    simp only [ValidExt, List.nodup_nil, List.not_mem_nil, false_implies, implies_true,
      List.length_nil, Nat.cast_zero, true_and]
    constructor
    · rintro (h | h)
      · subst h
        refine ⟨?_, fun l1 c l2 h => by simp at h⟩
        simp [hd]
      · subst h
        refine ⟨?_, fun l1 c l2 h => by simp at h⟩
        simp
    · rintro ⟨h, -⟩
      rcases le_total (rem.length : Int) d with h1 | h1
      · rw [min_eq_left h1] at h
        left
        apply List.eq_nil_of_length_eq_zero
        exact_mod_cast h.symm
      · rw [min_eq_right h1] at h
        exact Or.inr h.symm
  | cons c ext ih =>
    simp only [ValidExt, mem_eligibleCourses]
    constructor
    · rintro ⟨hterm, ⟨hcrem, -, hpre⟩, hv⟩
      push_neg at hterm
      have hd1 : 0 ≤ d - 1 := by omega
      have hex1 : ∀ x ∈ rem.erase c, (dm.getCourse x).isSome :=
        fun x hx => hex x (List.mem_of_mem_erase hx)
      obtain ⟨h1, h2, h3, h4⟩ := (ih (rem.erase c) (comp.insert c) (d - 1) (hrem.erase c)
        hex1 hd1).1 hv
      have hlen : (rem.erase c).length = rem.length - 1 := List.length_erase_of_mem hcrem
      have hpos : 0 < rem.length := List.length_pos_of_mem hcrem
      refine ⟨?_, ?_, ?_, ?_⟩
      · rw [List.nodup_cons]
        refine ⟨fun hc => ?_, h1⟩
        have := h2 c hc
        rw [hrem.mem_erase_iff] at this
        exact this.1 rfl
      · intro x hx
        rcases List.mem_cons.1 hx with rfl | hx
        · exact hcrem
        · exact List.mem_of_mem_erase (h2 x hx)
      · rw [hlen] at h3
        simp only [List.length_cons, Nat.cast_add, Nat.cast_one]
        rcases le_total ((rem.length - 1 : Nat) : Int) (d - 1) with h5 | h5
        · rw [min_eq_left h5] at h3
          rw [min_eq_left (by omega)]
          omega
        · rw [min_eq_right h5] at h3
          rw [min_eq_right (by omega)]
          omega
      · intro l1 x l2 hdec p hp
        cases l1 with
        | nil =>
          simp only [List.nil_append, List.cons.injEq] at hdec
          obtain ⟨rfl, -⟩ := hdec
          exact Or.inl (hpre p hp)
        | cons y l1 =>
          simp only [List.cons_append, List.cons.injEq] at hdec
          obtain ⟨rfl, hdec⟩ := hdec
          rcases h4 l1 x l2 hdec p hp with h | h
          · rcases List.mem_insert_iff.1 h with rfl | h
            · exact Or.inr (by simp)
            · exact Or.inl h
          · exact Or.inr (by simp [h])
    · rintro ⟨h1, h2, h3, h4⟩
      rw [List.nodup_cons] at h1
      have hcrem : c ∈ rem := h2 c (by simp)
      have hlen : (rem.erase c).length = rem.length - 1 := List.length_erase_of_mem hcrem
      have hpos : 0 < rem.length := List.length_pos_of_mem hcrem
      simp only [List.length_cons, Nat.cast_add, Nat.cast_one] at h3
      have hd1 : 1 ≤ d := by
        rcases le_total (rem.length : Int) d with h5 | h5
        · omega
        · rw [min_eq_right h5] at h3
          omega
      have hex1 : ∀ x ∈ rem.erase c, (dm.getCourse x).isSome :=
        fun x hx => hex x (List.mem_of_mem_erase hx)
      refine ⟨?_, ⟨hcrem, hex c hcrem, ?_⟩, ?_⟩
      · push_neg
        exact ⟨List.ne_nil_of_mem hcrem, by omega⟩
      · intro p hp
        rcases h4 [] c ext rfl p hp with h | h
        · exact h
        · simp at h
      · apply (ih (rem.erase c) (comp.insert c) (d - 1) (hrem.erase c) hex1 (by omega)).2
        refine ⟨h1.2, ?_, ?_, ?_⟩
        · intro x hx
          rw [hrem.mem_erase_iff]
          exact ⟨fun hxc => h1.1 (hxc ▸ hx), h2 x (by simp [hx])⟩
        · rw [hlen]
          rcases le_total (rem.length : Int) d with h5 | h5
          · rw [min_eq_left h5] at h3
            rw [min_eq_left (by omega)]
            omega
          · rw [min_eq_right h5] at h3
            rw [min_eq_right (by omega)]
            omega
        · intro l1 x l2 hdec p hp
          rcases h4 (c :: l1) x l2 (by simp [hdec]) p hp with h | h
          · exact Or.inl (List.mem_insert_iff.2 (Or.inr h))
          · rcases List.mem_cons.1 h with rfl | h
            · exact Or.inl (List.mem_insert_iff.2 (Or.inl rfl))
            · exact Or.inr h

theorem exists_validExt (dm : DataManager α) (S : List α)
    (hacyc : ∀ c, ¬ Relation.TransGen (EdgeIn dm S) c c)
    (n : Nat) (rem comp : List α) (d : Int) (hn : rem.length = n)
    (hsub : ∀ c ∈ rem, c ∈ S) (hex : ∀ c ∈ rem, (dm.getCourse c).isSome)
    (hclosed : ∀ c ∈ rem, ∀ p ∈ dm.prereqsOf c, p ∈ comp ∨ p ∈ rem) :
    ∃ ext, ValidExt dm ext rem comp d := by
  induction n generalizing rem comp d with
  | zero =>
    exact ⟨[], Or.inl (List.eq_nil_of_length_eq_zero hn)⟩
  | succ n ih =>
    by_cases hd : d = 0
    · exact ⟨[], Or.inr hd⟩
    · have hne : rem ≠ [] := by
        intro h
        simp [h] at hn
      obtain ⟨m, hm, hmin⟩ := exists_no_pred_of_acyclic (EdgeIn dm S) hacyc rem hne
      have helig : m ∈ eligibleCourses dm rem comp := by
        rw [mem_eligibleCourses]
        refine ⟨hm, hex m hm, ?_⟩
        intro p hp
        rcases hclosed m hm p hp with h | h
        · exact h
        · exfalso
          apply hmin p h
          refine ⟨hsub m hm, hsub p h, ?_⟩
          exact (requires_iff dm m p).1 hp
      obtain ⟨ext, hext⟩ := ih (rem.erase m) (comp.insert m) (d - 1)
        (by rw [List.length_erase_of_mem hm, hn]; rfl)
        (fun c hc => hsub c (List.mem_of_mem_erase hc))
        (fun c hc => hex c (List.mem_of_mem_erase hc))
        (by
          intro c hc p hp
          rcases hclosed c (List.mem_of_mem_erase hc) p hp with h | h
          · exact Or.inl (List.mem_insert_iff.2 (Or.inr h))
          · by_cases hpm : p = m
            · exact Or.inl (List.mem_insert_iff.2 (Or.inl hpm))
            · exact Or.inr ((List.mem_erase_of_ne hpm).2 h))
      refine ⟨m :: ext, ?_, helig, hext⟩
      push_neg
      exact ⟨hne, hd⟩

end Enumeration

/-- C3: for a non-empty duplicate-free set S of existing courses whose prerequisites all lie
in S and form no cycle, and maxLength at least 1, generateValidSequences returns, each exactly
once, precisely the duplicate-free sequences over S of length min(|S|, maxLength) in which
every course is preceded by all of its prerequisites (and there is at least one); for
S = {A, B, C} with B and C each requiring A and maxLength 10 the result is [A,B,C], [A,C,B]. -/
theorem generateValidSequences_exact [DecidableEq α] (dm : DataManager α) (S : List α)
    (maxLength : Int) (hne : S ≠ []) (hS : S.Nodup)
    (hex : ∀ c ∈ S, (dm.getCourse c).isSome)
    (hclosed : ∀ c ∈ S, ∀ p ∈ dm.prereqsOf c, p ∈ S)
    (hacyc : ∀ c, ¬ Relation.TransGen (EdgeIn dm S) c c) (hmax : 1 ≤ maxLength) :
    (∃ result, generateValidSequences dm S maxLength = some result ∧ result.Nodup ∧
      result ≠ [] ∧
      ∀ seq, seq ∈ result ↔
        (seq.Nodup ∧ (∀ x ∈ seq, x ∈ S) ∧
          (seq.length : Int) = min (S.length : Int) maxLength ∧ PrereqsFirst dm seq)) ∧
    generateValidSequences abcCatalog ["A", "B", "C"] 10
      = some [["A", "B", "C"], ["A", "C", "B"]] := by
  refine ⟨?_, by decide⟩
  obtain ⟨R, hR, hnd, hm⟩ := generateSequencesRecursive_spec dm (S.length + 1) S [] [] []
    maxLength hS (by omega)
  have hd : (0 : Int) ≤ maxLength := by omega
  have hpos : 0 < S.length := List.length_pos.2 hne
  have hchar : ∀ seq, seq ∈ R ↔
      (seq.Nodup ∧ (∀ x ∈ seq, x ∈ S) ∧
        (seq.length : Int) = min (S.length : Int) maxLength ∧ PrereqsFirst dm seq) := by
    intro seq
    rw [hm]
    constructor
    · rintro ⟨ext, hs, -, hv⟩
      have hs2 : ext = seq := by simpa using hs.symm
      subst hs2
      obtain ⟨h1, h2, h3, h4⟩ := (validExt_iff dm ext S [] maxLength hS hex hd).1 hv
      refine ⟨h1, h2, h3, ?_⟩
      intro l1 c l2 hdec p hp
      rcases h4 l1 c l2 hdec p hp with h | h
      · simp at h
      · exact h
    · rintro ⟨h1, h2, h3, h4⟩
      refine ⟨seq, by simp, ?_, ?_⟩
      · intro h0
        subst h0
        simp only [List.length_nil, Nat.cast_zero] at h3
        rcases le_total (S.length : Int) maxLength with h5 | h5
        · rw [min_eq_left h5] at h3; omega
        · rw [min_eq_right h5] at h3; omega
      · apply (validExt_iff dm seq S [] maxLength hS hex hd).2
        exact ⟨h1, h2, h3, fun l1 c l2 hdec p hp => Or.inr (h4 l1 c l2 hdec p hp)⟩
  refine ⟨R, by simpa [generateValidSequences] using hR, hnd, ?_, hchar⟩
  obtain ⟨ext, hext⟩ := exists_validExt dm S hacyc S.length S [] maxLength rfl
    (fun c hc => hc) hex (fun c hc p hp => Or.inr (hclosed c hc p hp))
  have hmem : ext ∈ R := by
    rw [hm]
    refine ⟨ext, by simp, ?_, hext⟩
    intro h0
    subst h0
    rcases hext with h | h
    · exact hne h
    · omega
  exact List.ne_nil_of_mem hmem

theorem edgeIn_abc_rank (p c : String) (h : EdgeIn abcCatalog ["A", "B", "C"] p c) :
    List.indexOf p ["A", "B", "C"] < List.indexOf c ["A", "B", "C"] := by
  obtain ⟨hc, -, course, hcourse, hp⟩ := h
  have hall : ∀ c ∈ ["A", "B", "C"], ∀ p ∈ abcCatalog.prereqsOf c,
      List.indexOf p ["A", "B", "C"] < List.indexOf c ["A", "B", "C"] := by
    decide
  apply hall c hc p
  simp [DataManager.prereqsOf, hcourse, hp]

/-- Witness for C3: the enumeration scenario of the specification. -/
theorem generateValidSequences_exact_witness :
    ∃ result, generateValidSequences abcCatalog ["A", "B", "C"] 10 = some result ∧
      result.Nodup ∧ result ≠ [] ∧
      ∀ seq, seq ∈ result ↔
        (seq.Nodup ∧ (∀ x ∈ seq, x ∈ ["A", "B", "C"]) ∧
          (seq.length : Int) = min ((["A", "B", "C"] : List String).length : Int) 10 ∧
          PrereqsFirst abcCatalog seq) :=
  (generateValidSequences_exact abcCatalog ["A", "B", "C"] 10 (by decide) (by decide)
    (by decide) (by decide)
    (acyclic_of_rank _ (fun x => List.indexOf x ["A", "B", "C"]) edgeIn_abc_rank)
    (by decide)).1

section Inference
variable [LinearOrder α]

theorem inferStep_inv (rules : List (LogicRule α)) (F0 : List α)
    (st : List α × List α × Bool) (rule : LogicRule α) (hr : rule ∈ rules)
    (h : InferInv rules F0 st.1 st.2.1) :
    InferInv rules F0 (inferStep st rule).1 (inferStep st rule).2.1 := by
  unfold inferStep
  split
  · rename_i hf
    obtain ⟨ha, hc, hd⟩ := hf
    refine ⟨?_, ?_, ?_, ?_, ?_⟩
    · intro x hx
      exact (mem_setInsert _ _ _).2 (Or.inr (h.grows x hx))
    · intro G hG0 hGc x hx
      rcases (mem_setInsert _ _ _).1 hx with rfl | hx
      · exact hGc rule hr (h.least G hG0 hGc _ ha)
      · exact h.least G hG0 hGc x hx
    · intro x
      simp only [mem_setInsert, h.added]
      constructor
      · rintro (rfl | ⟨h1, h2⟩)
        · exact ⟨Or.inl rfl, fun h0 => hc (h.grows _ h0)⟩
        · exact ⟨Or.inr h1, h2⟩
      · rintro ⟨rfl | h1, h2⟩
        · exact Or.inl rfl
        · exact Or.inr ⟨h1, h2⟩
    · exact nodup_setInsert _ _ h.nodup
    · intro x hx
      rcases (mem_setInsert _ _ _).1 hx with rfl | hx
      · exact List.mem_map.2 ⟨rule, hr, rfl⟩
      · exact h.conseq x hx
  · exact h

theorem inferFold_inv (rules : List (LogicRule α)) (F0 : List α) (rs : List (LogicRule α))
    (hrs : ∀ r ∈ rs, r ∈ rules) (st : List α × List α × Bool)
    (h : InferInv rules F0 st.1 st.2.1) :
    InferInv rules F0 (rs.foldl inferStep st).1 (rs.foldl inferStep st).2.1 := by
  induction rs generalizing st with
  | nil => exact h
  | cons r rs ih =>
    rw [List.foldl_cons]
    exact ih (fun x hx => hrs x (by simp [hx])) _
      (inferStep_inv rules F0 st r (hrs r (by simp)) h)

theorem inferStep_changed_false (st : List α × List α × Bool) (rule : LogicRule α)
    (h : (inferStep st rule).2.2 = false) :
    inferStep st rule = st ∧
      ¬ (rule.antecedent ∈ st.1 ∧ rule.consequent ∉ st.1 ∧ rule.consequent ∉ st.2.1) := by
  unfold inferStep at h ⊢
  split
  · rename_i hf
    simp [hf] at h
  · rename_i hf
    exact ⟨rfl, hf⟩

theorem inferFold_changed_false (rs : List (LogicRule α)) (st : List α × List α × Bool)
    (h : (rs.foldl inferStep st).2.2 = false) :
    rs.foldl inferStep st = st ∧
      ∀ r ∈ rs, ¬ (r.antecedent ∈ st.1 ∧ r.consequent ∉ st.1 ∧ r.consequent ∉ st.2.1) := by
  induction rs generalizing st with
  | nil => simp
  | cons r rs ih =>
    rw [List.foldl_cons] at h ⊢
    obtain ⟨h1, h2⟩ := ih _ h
    rw [h1] at h
    obtain ⟨h3, h4⟩ := inferStep_changed_false st r h
    rw [h3] at h2
    refine ⟨h1.trans h3, ?_⟩
    intro x hx
    rcases List.mem_cons.1 hx with rfl | hx
    · exact h4
    · exact h2 x hx

theorem inferStep_length (st : List α × List α × Bool) (rule : LogicRule α) :
    st.2.1.length ≤ (inferStep st rule).2.1.length ∧
      ((inferStep st rule).2.2 = true →
        st.2.2 = true ∨ st.2.1.length < (inferStep st rule).2.1.length) := by
  unfold inferStep
  split
  · rename_i hf
    simp [length_setInsert_of_not_mem _ _ hf.2.2]
  · simp

theorem inferFold_length (rs : List (LogicRule α)) (st : List α × List α × Bool) :
    st.2.1.length ≤ (rs.foldl inferStep st).2.1.length ∧
      ((rs.foldl inferStep st).2.2 = true →
        st.2.2 = true ∨ st.2.1.length < (rs.foldl inferStep st).2.1.length) := by
  induction rs generalizing st with
  | nil => simp
  | cons r rs ih =>
    rw [List.foldl_cons]
    obtain ⟨h1, h2⟩ := ih (inferStep st r)
    obtain ⟨h3, h4⟩ := inferStep_length st r
    refine ⟨le_trans h3 h1, fun hc => ?_⟩
    rcases h2 hc with h5 | h5
    · rcases h4 h5 with h6 | h6
      · exact Or.inl h6
      · exact Or.inr (lt_of_lt_of_le h6 h1)
    · exact Or.inr (lt_of_le_of_lt h3 h5)

theorem inferPass_closed (rules : List (LogicRule α)) (F0 F D : List α)
    (h : InferInv rules F0 F D) (hc : (inferPass rules F D).2.2 = false) :
    RulesClosed rules (fun x => x ∈ (inferPass rules F D).1) := by
  unfold inferPass at hc ⊢
  obtain ⟨h1, h2⟩ := inferFold_changed_false rules (F, D, false) hc
  rw [h1]
  intro r hr ha
  by_contra hcons
  apply h2 r hr
  refine ⟨ha, hcons, fun hd => hcons ((h.added _).1 hd).1⟩

theorem inferLoop_inv (rules : List (LogicRule α)) (F0 : List α) (n : Nat) (F D : List α)
    (ch : Bool) (h : InferInv rules F0 F D) :
    InferInv rules F0 (inferLoop rules n F D ch).1 (inferLoop rules n F D ch).2.1 := by
  induction n generalizing F D ch with
  | zero => exact h
  | succ n ih =>
    rw [inferLoop]
    split
    · exact ih _ _ _ (inferFold_inv rules F0 rules (fun _ hr => hr) (F, D, false) h)
    · exact h

theorem inferLoop_closed (rules : List (LogicRule α)) (F0 : List α) (n : Nat) (F D : List α)
    (ch : Bool) (h : InferInv rules F0 F D)
    (hch : ch = false → RulesClosed rules (fun x => x ∈ F))
    (hc : (inferLoop rules n F D ch).2.2 = false) :
    RulesClosed rules (fun x => x ∈ (inferLoop rules n F D ch).1) := by
  induction n generalizing F D ch with
  | zero => exact hch hc
  | succ n ih =>
    rw [inferLoop] at hc ⊢
    cases ch with
    | true =>
      simp only [if_true] at hc ⊢
      exact ih _ _ _ (inferFold_inv rules F0 rules (fun _ hr => hr) (F, D, false) h)
        (inferPass_closed rules F0 F D h) hc
    | false =>
      simp only [Bool.false_eq_true, if_false]
      exact hch rfl

theorem inferLoop_of_unchanged (rules : List (LogicRule α)) (n : Nat) (F D : List α) :
    inferLoop rules n F D false = (F, D, false) := by
  cases n <;> simp [inferLoop]

theorem inferLoop_length (rules : List (LogicRule α)) (n : Nat) (F D : List α)
    (hc : (inferLoop rules n F D true).2.2 = true) :
    D.length + n ≤ (inferLoop rules n F D true).2.1.length := by
  induction n generalizing F D with
  | zero => simp [inferLoop]
  | succ n ih =>
    rw [inferLoop] at hc ⊢
    simp only [if_true] at hc ⊢
    cases hp : (inferPass rules F D).2.2 with
    | false =>
      rw [hp, inferLoop_of_unchanged] at hc
      simp at hc
    | true =>
      rw [hp] at hc
      have h1 := ih _ _ hc
      have h2 := (inferFold_length rules (F, D, false)).2 hp
      simp only [Bool.false_eq_true, false_or] at h2
      unfold inferPass at h1 ⊢
      omega

end Inference

/-- C4: when runInference is not cut off by its 100-pass cap (the last pass fired no rule),
which is the case whenever there are at most 99 rules, the fact base afterwards is the least
superset of the initial fact base closed under every rule, and the returned set is exactly
the facts added; on the rule enrolled(CS102) -> must_complete(CS101) built by addCourseRule
and the fact enrolled(CS102) it returns exactly must_complete(CS101). -/
theorem runInference_least_fixed_point [LinearOrder α] (e : LogicEngine α) :
    (e.runInference.changed = false →
      (∀ x ∈ e.facts, x ∈ e.runInference.engine.facts) ∧
      RulesClosed e.rules (fun x => x ∈ e.runInference.engine.facts) ∧
      (∀ G : α → Prop, (∀ x ∈ e.facts, G x) → RulesClosed e.rules G →
        ∀ x ∈ e.runInference.engine.facts, G x) ∧
      (∀ x, x ∈ e.runInference.derived ↔
        x ∈ e.runInference.engine.facts ∧ x ∉ e.facts)) ∧
    (e.rules.length ≤ 99 → e.runInference.changed = false) ∧
    cs102Engine.runInference.derived = ["must_complete(CS101)"] := by
  have hinit : InferInv e.rules e.facts e.facts [] :=
    ⟨fun _ hx => hx, fun G hG _ x hx => hG x hx, by simp, by simp, by simp⟩
  have hinv := inferLoop_inv e.rules e.facts 100 e.facts [] true hinit
  refine ⟨?_, ?_, ?_⟩
  · intro hc
    have hclosed := inferLoop_closed e.rules e.facts 100 e.facts [] true hinit (by simp) hc
    exact ⟨hinv.grows, hclosed, hinv.least, hinv.added⟩
  · intro hlen
    by_contra hc
    have hc' : (inferLoop e.rules 100 e.facts [] true).2.2 = true := by
      simpa [LogicEngine.runInference] using hc
    have h1 := inferLoop_length e.rules 100 e.facts [] hc'
    have h2 : (inferLoop e.rules 100 e.facts [] true).2.1.length ≤ e.rules.length := by
      have hsub : (inferLoop e.rules 100 e.facts [] true).2.1
          ⊆ e.rules.map (fun r => r.consequent) := fun x hx => hinv.conseq x hx
      simpa using (hinv.nodup.subperm hsub).length_le
    simp only [List.length_nil] at h1
    omega
  · simp [cs102Engine, LogicEngine.runInference, LogicEngine.addCourseRule,
      LogicEngine.addFact, inferLoop, inferPass, inferStep, setInsert]

/-- Witness for C4: two chained rules over numbered atoms; the run stops at a fixed point. -/
theorem runInference_least_fixed_point_witness :
    smallEngine.runInference.changed = false ∧
    (∀ x ∈ smallEngine.facts, x ∈ smallEngine.runInference.engine.facts) ∧
    RulesClosed smallEngine.rules (fun x => x ∈ smallEngine.runInference.engine.facts) ∧
    (∀ G : Nat → Prop, (∀ x ∈ smallEngine.facts, G x) → RulesClosed smallEngine.rules G →
      ∀ x ∈ smallEngine.runInference.engine.facts, G x) ∧
    (∀ x, x ∈ smallEngine.runInference.derived ↔
      x ∈ smallEngine.runInference.engine.facts ∧ x ∉ smallEngine.facts) :=
  ⟨by decide, (runInference_least_fixed_point smallEngine).1 (by decide)⟩

section Closure
variable [LinearOrder α]

theorem closureInner_spec (T : List (Pair α)) (p1 : Pair α) (L2 : List (Pair α))
    (st : List (Pair α) × Bool) :
    (∀ x, x ∈ (L2.foldl (closureStep T p1) st).1 ↔
      x ∈ st.1 ∨ ∃ p2 ∈ L2, p1.second = p2.first ∧
        (⟨p1.first, p2.second⟩ : Pair α) ∉ T ∧ x = ⟨p1.first, p2.second⟩) ∧
    ((L2.foldl (closureStep T p1) st).2 = true ↔
      st.2 = true ∨ ∃ p2 ∈ L2, p1.second = p2.first ∧ (⟨p1.first, p2.second⟩ : Pair α) ∉ T) ∧
    ((L2.foldl (closureStep T p1) st).2 = false → L2.foldl (closureStep T p1) st = st) ∧
    (st.1.Sorted (· < ·) → (L2.foldl (closureStep T p1) st).1.Sorted (· < ·)) := by
  induction L2 generalizing st with
  | nil => simp
  | cons p2 L2 ih =>
    rw [List.foldl_cons]
    obtain ⟨ih1, ih2, ih3, ih4⟩ := ih (closureStep T p1 st p2)
    by_cases hfire : p1.second = p2.first ∧ (⟨p1.first, p2.second⟩ : Pair α) ∉ T
    · have hstep : closureStep T p1 st p2 = (setInsert ⟨p1.first, p2.second⟩ st.1, true) := by
        simp [closureStep, hfire.1, hfire.2]
      rw [hstep] at ih1 ih2 ih3 ih4 ⊢
      refine ⟨?_, ?_, ?_, ?_⟩
      · intro x
        rw [ih1]
        simp only [mem_setInsert, List.mem_cons, exists_eq_or_imp]
        constructor
        · rintro ((rfl | h) | h)
          · exact Or.inr (Or.inl ⟨hfire.1, hfire.2, rfl⟩)
          · exact Or.inl h
          · exact Or.inr (Or.inr h)
        · rintro (h | ⟨-, -, rfl⟩ | h)
          · exact Or.inl (Or.inr h)
          · exact Or.inl (Or.inl rfl)
          · exact Or.inr h
      · rw [ih2]
        simp only [true_or, true_iff]
        exact Or.inr ⟨p2, by simp, hfire.1, hfire.2⟩
      · intro hc
        have := ih2.2 (Or.inl rfl)
        rw [hc] at this
        cases this
      · intro hs
        exact ih4 (sorted_setInsert _ _ hs)
    · have hstep : closureStep T p1 st p2 = st := by
        unfold closureStep
        by_cases h1 : p1.second = p2.first
        · have h2 : ¬ (⟨p1.first, p2.second⟩ : Pair α) ∉ T := fun h => hfire ⟨h1, h⟩
          simp [h1, h2]
        · simp [h1]
      rw [hstep] at ih1 ih2 ih3 ih4 ⊢
      refine ⟨?_, ?_, ih3, ih4⟩
      · intro x
        rw [ih1]
        simp only [List.mem_cons, exists_eq_or_imp]
        constructor
        · rintro (h | h)
          · exact Or.inl h
          · exact Or.inr (Or.inr h)
        · rintro (h | ⟨h1, h2, -⟩ | h)
          · exact Or.inl h
          · exact absurd ⟨h1, h2⟩ hfire
          · exact Or.inr h
      · rw [ih2]
        simp only [List.mem_cons, exists_eq_or_imp]
        constructor
        · rintro (h | h)
          · exact Or.inl h
          · exact Or.inr (Or.inr h)
        · rintro (h | h | h)
          · exact Or.inl h
          · exact absurd h hfire
          · exact Or.inr h

theorem closureOuter_spec (T : List (Pair α)) (L1 L2 : List (Pair α))
    (st : List (Pair α) × Bool) :
    (∀ x, x ∈ (L1.foldl (fun st p1 => L2.foldl (closureStep T p1) st) st).1 ↔
      x ∈ st.1 ∨ ∃ p1 ∈ L1, ∃ p2 ∈ L2, p1.second = p2.first ∧
        (⟨p1.first, p2.second⟩ : Pair α) ∉ T ∧ x = ⟨p1.first, p2.second⟩) ∧
    ((L1.foldl (fun st p1 => L2.foldl (closureStep T p1) st) st).2 = true ↔
      st.2 = true ∨ ∃ p1 ∈ L1, ∃ p2 ∈ L2, p1.second = p2.first ∧
        (⟨p1.first, p2.second⟩ : Pair α) ∉ T) ∧
    ((L1.foldl (fun st p1 => L2.foldl (closureStep T p1) st) st).2 = false →
      L1.foldl (fun st p1 => L2.foldl (closureStep T p1) st) st = st) ∧
    (st.1.Sorted (· < ·) →
      (L1.foldl (fun st p1 => L2.foldl (closureStep T p1) st) st).1.Sorted (· < ·)) := by
  induction L1 generalizing st with
  | nil => simp
  | cons p1 L1 ih =>
    rw [List.foldl_cons]
    obtain ⟨ih1, ih2, ih3, ih4⟩ := ih (L2.foldl (closureStep T p1) st)
    obtain ⟨in1, in2, in3, in4⟩ := closureInner_spec T p1 L2 st
    refine ⟨?_, ?_, ?_, fun hs => ih4 (in4 hs)⟩
    · intro x
      rw [ih1, in1]
      simp only [List.mem_cons, exists_eq_or_imp]
      exact or_assoc
    · rw [ih2, in2]
      simp only [List.mem_cons, exists_eq_or_imp]
      exact or_assoc
    · intro hc
      have h1 := ih3 hc
      rw [h1] at hc
      rw [h1, in3 hc]

theorem mem_closurePass (T : List (Pair α)) (x : Pair α) :
    x ∈ (closurePass T).1 ↔
      x ∈ T ∨ ∃ p1 ∈ T, ∃ p2 ∈ T, p1.second = p2.first ∧ x = ⟨p1.first, p2.second⟩ := by
  unfold closurePass
  rw [(closureOuter_spec T T T (T, false)).1]
  constructor
  · rintro (h | ⟨p1, h1, p2, h2, h3, -, h5⟩)
    · exact Or.inl h
    · exact Or.inr ⟨p1, h1, p2, h2, h3, h5⟩
  · rintro (h | ⟨p1, h1, p2, h2, h3, h5⟩)
    · exact Or.inl h
    · by_cases hx : x ∈ T
      · exact Or.inl hx
      · exact Or.inr ⟨p1, h1, p2, h2, h3, h5 ▸ hx, h5⟩

theorem closurePass_changed_false_iff (T : List (Pair α)) :
    (closurePass T).2 = false ↔ TransitiveRel T := by
  unfold closurePass
  rw [← Bool.not_eq_true, (closureOuter_spec T T T (T, false)).2.1]
  simp only [Bool.false_eq_true, false_or, not_exists, not_and, not_not]
  constructor
  · intro h a b c hab hbc
    exact h ⟨a, b⟩ hab ⟨b, c⟩ hbc rfl
  · intro h p1 h1 p2 h2 h3
    obtain ⟨a, b⟩ := p1
    obtain ⟨b', c⟩ := p2
    simp only at h3
    subst h3
    exact h a b c h1 h2

theorem closurePass_of_transitive (T : List (Pair α)) (h : TransitiveRel T) :
    closurePass T = (T, false) := by
  have hc := (closurePass_changed_false_iff T).2 h
  unfold closurePass at hc ⊢
  exact (closureOuter_spec T T T (T, false)).2.2.1 hc

theorem closurePass_sorted (T : List (Pair α)) (h : T.Sorted (· < ·)) :
    (closurePass T).1.Sorted (· < ·) :=
  (closureOuter_spec T T T (T, false)).2.2.2 h

theorem closureLoop_of_unchanged (n : Nat) (T : List (Pair α)) :
    closureLoop n T false = (T, false) := by
  cases n <;> simp [closureLoop]

theorem closureLoop_grows (n : Nat) (T : List (Pair α)) (ch : Bool) (x : Pair α)
    (hx : x ∈ T) : x ∈ (closureLoop n T ch).1 := by
  induction n generalizing T ch with
  | zero => exact hx
  | succ n ih =>
    rw [closureLoop]
    split
    · exact ih _ _ ((mem_closurePass T x).2 (Or.inl hx))
    · exact hx

theorem closurePass_least (T : List (Pair α)) (G : α → α → Prop) (hG : Transitive G)
    (hT : ∀ p ∈ T, G p.first p.second) : ∀ p ∈ (closurePass T).1, G p.first p.second := by
  intro p hp
  rcases (mem_closurePass T p).1 hp with h | ⟨p1, h1, p2, h2, h3, rfl⟩
  · exact hT p h
  · have g1 := hT p1 h1
    have g2 := hT p2 h2
    rw [h3] at g1
    exact hG g1 g2

theorem closureLoop_least (n : Nat) (T : List (Pair α)) (ch : Bool) (G : α → α → Prop)
    (hG : Transitive G) (hT : ∀ p ∈ T, G p.first p.second) :
    ∀ p ∈ (closureLoop n T ch).1, G p.first p.second := by
  induction n generalizing T ch with
  | zero => exact hT
  | succ n ih =>
    rw [closureLoop]
    split
    · exact ih _ _ (closurePass_least T G hG hT)
    · exact hT

theorem closureLoop_transitive (n : Nat) (T : List (Pair α)) (ch : Bool)
    (hch : ch = false → TransitiveRel T) (hc : (closureLoop n T ch).2 = false) :
    TransitiveRel (closureLoop n T ch).1 := by
  induction n generalizing T ch with
  | zero => exact hch hc
  | succ n ih =>
    rw [closureLoop] at hc ⊢
    cases ch with
    | true =>
      simp only [if_true] at hc ⊢
      exact ih _ _ (fun h => by
        have := closurePass_of_transitive T ((closurePass_changed_false_iff T).1 h)
        rw [this]
        exact (closurePass_changed_false_iff T).1 h) hc
    | false =>
      simp only [Bool.false_eq_true, if_false]
      exact hch rfl

theorem transitiveClosure_of_transitive (T : List (Pair α)) (h : TransitiveRel T) :
    transitiveClosure T = T := by
  unfold transitiveClosure transitiveClosureLoop MAX_ITER
  rw [closureLoop]
  simp only [if_true]
  rw [closurePass_of_transitive T h, closureLoop_of_unchanged]

theorem transitive_of_transitiveClosure_eq (T : List (Pair α))
    (h : transitiveClosure T = T) : TransitiveRel T := by
  intro a b c hab hbc
  have h1 : (⟨a, c⟩ : Pair α) ∈ (closurePass T).1 :=
    (mem_closurePass T _).2 (Or.inr ⟨⟨a, b⟩, hab, ⟨b, c⟩, hbc, rfl, rfl⟩)
  have h2 := closureLoop_grows 99 (closurePass T).1 (closurePass T).2 _ h1
  have h3 : transitiveClosure T = (closureLoop 99 (closurePass T).1 (closurePass T).2).1 := by
    unfold transitiveClosure transitiveClosureLoop MAX_ITER
    rw [closureLoop]
    simp
  rw [← h3, h] at h2
  exact h2

end Closure

/-- C5: when the closure loop stops because a full pass added no new pair, its result is the
transitive closure of R: it contains R, it is transitive, and it is contained in every
transitive relation that contains R. -/
theorem transitiveClosure_is_closure [LinearOrder α] (R : List (Pair α))
    (hstop : (transitiveClosureLoop R).2 = false) :
    (∀ p ∈ R, p ∈ transitiveClosure R) ∧
    TransitiveRel (transitiveClosure R) ∧
    ∀ G : α → α → Prop, Transitive G → (∀ a b, (⟨a, b⟩ : Pair α) ∈ R → G a b) →
      ∀ a b, (⟨a, b⟩ : Pair α) ∈ transitiveClosure R → G a b := by
  refine ⟨?_, ?_, ?_⟩
  · intro p hp
    exact closureLoop_grows MAX_ITER R true p hp
  · exact closureLoop_transitive MAX_ITER R true (by simp) hstop
  · intro G hG hR a b hab
    exact closureLoop_least MAX_ITER R true G hG (fun p hp => hR p.first p.second hp) _ hab

/-- Witness for C5: the chain 1 -> 2 -> 3 -> 4, closed after two passes. -/
theorem transitiveClosure_is_closure_witness :
    (transitiveClosureLoop ([⟨1, 2⟩, ⟨2, 3⟩, ⟨3, 4⟩] : List (Pair Nat))).2 = false ∧
    (∀ p ∈ ([⟨1, 2⟩, ⟨2, 3⟩, ⟨3, 4⟩] : List (Pair Nat)),
      p ∈ transitiveClosure ([⟨1, 2⟩, ⟨2, 3⟩, ⟨3, 4⟩] : List (Pair Nat))) ∧
    TransitiveRel (transitiveClosure ([⟨1, 2⟩, ⟨2, 3⟩, ⟨3, 4⟩] : List (Pair Nat))) ∧
    ∀ G : Nat → Nat → Prop, Transitive G →
      (∀ a b, (⟨a, b⟩ : Pair Nat) ∈ ([⟨1, 2⟩, ⟨2, 3⟩, ⟨3, 4⟩] : List (Pair Nat)) → G a b) →
      ∀ a b, (⟨a, b⟩ : Pair Nat) ∈
        transitiveClosure ([⟨1, 2⟩, ⟨2, 3⟩, ⟨3, 4⟩] : List (Pair Nat)) → G a b :=
  ⟨by decide, transitiveClosure_is_closure _ (by decide)⟩

section Compose
variable [LinearOrder α]

theorem composeInner_spec (p1 : Pair α) (L2 : List (Pair α)) (acc : List (Pair α)) :
    (∀ x, x ∈ L2.foldl (fun result p2 =>
        if p1.second = p2.first then setInsert ⟨p1.first, p2.second⟩ result else result) acc ↔
      x ∈ acc ∨ ∃ p2 ∈ L2, p1.second = p2.first ∧ x = ⟨p1.first, p2.second⟩) ∧
    (acc.Sorted (· < ·) → (L2.foldl (fun result p2 =>
        if p1.second = p2.first then setInsert ⟨p1.first, p2.second⟩ result else result)
        acc).Sorted (· < ·)) := by
  induction L2 generalizing acc with
  | nil => simp
  | cons p2 L2 ih =>
    rw [List.foldl_cons]
    by_cases h : p1.second = p2.first
    · simp only [h, if_true]
      obtain ⟨ih1, ih2⟩ := ih (setInsert ⟨p1.first, p2.second⟩ acc)
      simp only [h] at ih1 ih2
      refine ⟨?_, fun hs => ih2 (sorted_setInsert _ _ hs)⟩
      intro x
      rw [ih1]
      simp only [mem_setInsert, List.mem_cons, exists_eq_or_imp, true_and]
      constructor
      · rintro ((h1 | h1) | h1)
        · exact Or.inr (Or.inl h1)
        · exact Or.inl h1
        · exact Or.inr (Or.inr h1)
      · rintro (h1 | h1 | h1)
        · exact Or.inl (Or.inr h1)
        · exact Or.inl (Or.inl h1)
        · exact Or.inr h1
    · simp only [h, if_false]
      obtain ⟨ih1, ih2⟩ := ih acc
      refine ⟨?_, ih2⟩
      intro x
      rw [ih1]
      simp only [List.mem_cons, exists_eq_or_imp, h, false_and, false_or]

theorem composeOuter_spec (L1 L2 : List (Pair α)) (acc : List (Pair α)) :
    (∀ x, x ∈ L1.foldl (fun result p1 => L2.foldl (fun result p2 =>
        if p1.second = p2.first then setInsert ⟨p1.first, p2.second⟩ result else result)
        result) acc ↔
      x ∈ acc ∨ ∃ p1 ∈ L1, ∃ p2 ∈ L2, p1.second = p2.first ∧ x = ⟨p1.first, p2.second⟩) ∧
    (acc.Sorted (· < ·) → (L1.foldl (fun result p1 => L2.foldl (fun result p2 =>
        if p1.second = p2.first then setInsert ⟨p1.first, p2.second⟩ result else result)
        result) acc).Sorted (· < ·)) := by
  induction L1 generalizing acc with
  | nil => simp
  | cons p1 L1 ih =>
    rw [List.foldl_cons]
    obtain ⟨in1, in2⟩ := composeInner_spec p1 L2 acc
    obtain ⟨ih1, ih2⟩ := ih (L2.foldl (fun result p2 =>
        if p1.second = p2.first then setInsert ⟨p1.first, p2.second⟩ result else result) acc)
    refine ⟨?_, fun hs => ih2 (in2 hs)⟩
    intro x
    rw [ih1, in1]
    simp only [List.mem_cons, exists_eq_or_imp]
    exact or_assoc

theorem mem_composeRelations (R1 R2 : List (Pair α)) (a c : α) :
    (⟨a, c⟩ : Pair α) ∈ composeRelations R1 R2 ↔
      ∃ b, (⟨a, b⟩ : Pair α) ∈ R1 ∧ (⟨b, c⟩ : Pair α) ∈ R2 := by
  unfold composeRelations
  rw [(composeOuter_spec R1 R2 []).1]
  simp only [List.not_mem_nil, false_or]
  constructor
  · rintro ⟨⟨a1, b1⟩, h1, ⟨b2, c2⟩, h2, h3, h4⟩
    simp only at h3
    simp only [Pair.mk.injEq] at h4
    obtain ⟨rfl, rfl⟩ := h4
    subst h3
    exact ⟨b1, h1, h2⟩
  · rintro ⟨b, h1, h2⟩
    exact ⟨⟨a, b⟩, h1, ⟨b, c⟩, h2, rfl, rfl⟩

theorem composeRelations_sorted (R1 R2 : List (Pair α)) :
    (composeRelations R1 R2).Sorted (· < ·) :=
  (composeOuter_spec R1 R2 []).2 List.sorted_nil

end Compose

/-- C7: composeRelations(R1, R2) is exactly the set of pairs (a,c) for which some b has (a,b)
in R1 and (b,c) in R2; it is empty when either input is empty. -/
theorem composeRelations_exact [LinearOrder α] (R1 R2 : List (Pair α)) :
    (∀ a c, (⟨a, c⟩ : Pair α) ∈ composeRelations R1 R2 ↔
      ∃ b, (⟨a, b⟩ : Pair α) ∈ R1 ∧ (⟨b, c⟩ : Pair α) ∈ R2) ∧
    (composeRelations R1 R2).Sorted (· < ·) ∧
    composeRelations ([] : List (Pair α)) R2 = [] ∧
    composeRelations R1 ([] : List (Pair α)) = [] := by
  refine ⟨mem_composeRelations R1 R2, composeRelations_sorted R1 R2, ?_, ?_⟩
  · simp [composeRelations]
  · apply List.eq_nil_iff_forall_not_mem.2
    rintro ⟨a, c⟩ h
    obtain ⟨b, -, hb⟩ := (mem_composeRelations R1 [] a c).1 h
    simp at hb

/-- C8: composeRelations is associative. -/
theorem composeRelations_assoc [LinearOrder α] (R1 R2 R3 : List (Pair α)) :
    composeRelations (composeRelations R1 R2) R3
      = composeRelations R1 (composeRelations R2 R3) := by
  apply eq_of_sorted_of_mem_iff _ _ (composeRelations_sorted _ _) (composeRelations_sorted _ _)
  rintro ⟨a, d⟩
  rw [mem_composeRelations, mem_composeRelations]
  constructor
  · rintro ⟨c, hac, hcd⟩
    obtain ⟨b, hab, hbc⟩ := (mem_composeRelations R1 R2 a c).1 hac
    exact ⟨b, hab, (mem_composeRelations R2 R3 b d).2 ⟨c, hbc, hcd⟩⟩
  · rintro ⟨b, hab, hbd⟩
    obtain ⟨c, hbc, hcd⟩ := (mem_composeRelations R2 R3 b d).1 hbd
    exact ⟨c, (mem_composeRelations R1 R2 a c).2 ⟨b, hab, hbc⟩, hcd⟩

section Predicates
variable [DecidableEq α]

theorem isReflexive_iff (R : List (Pair α)) (domain : List α) :
    isReflexive R domain = true ↔ ReflexiveOn R domain := by
  simp [isReflexive, ReflexiveOn]

theorem isTransitive_iff (R : List (Pair α)) : isTransitive R = true ↔ TransitiveRel R := by
  simp only [isTransitive, List.all_eq_true, TransitiveRel]
  constructor
  · intro h a b c hab hbc
    have := h ⟨a, b⟩ hab ⟨b, c⟩ hbc
    simpa using this
  · rintro h ⟨a, b⟩ hab ⟨b', c⟩ hbc
    by_cases hb : b = b'
    · subst hb
      simpa using h a b c hab hbc
    · simp [hb]

theorem isPartialOrder_iff (R : List (Pair α)) (domain : List α) :
    isPartialOrder R domain = true ↔
      ReflexiveOn R domain ∧ AntisymmetricRel R ∧ TransitiveRel R := by
  have hanti : (R.any (fun p =>
      decide (p.first ≠ p.second) && decide ((⟨p.second, p.first⟩ : Pair α) ∈ R))) = false
      ↔ AntisymmetricRel R := by
    rw [← Bool.not_eq_true, List.any_eq_true]
    simp only [Bool.and_eq_true, decide_eq_true_eq, not_exists, not_and, AntisymmetricRel]
    constructor
    · intro h a b hab hba
      by_contra hne
      exact h ⟨a, b⟩ hab hne hba
    · rintro h ⟨a, b⟩ hab hne hba
      exact hne (h a b hab hba)
  rw [← isReflexive_iff, ← isTransitive_iff, ← hanti]
  unfold isPartialOrder
  cases isReflexive R domain <;>
    cases (R.any (fun p =>
      decide (p.first ≠ p.second) && decide ((⟨p.second, p.first⟩ : Pair α) ∈ R))) <;>
    cases isTransitive R <;> simp

end Predicates

/-- C9: isPartialOrder(R, D) is true exactly when (x,x) is in R for every x in D, R contains
no two pairs (a,b) and (b,a) with a different from b, and (a,c) is in R whenever (a,b) and
(b,c) are; a relation with a 2-cycle gives false for every domain, and the identity relation
on D is accepted (the reflexive test relation on A, B, C included). -/
theorem isPartialOrder_exact [DecidableEq α] (R : List (Pair α)) (domain : List α) :
    (isPartialOrder R domain = true ↔
      ReflexiveOn R domain ∧ AntisymmetricRel R ∧ TransitiveRel R) ∧
    (∀ a b, a ≠ b → (⟨a, b⟩ : Pair α) ∈ R → (⟨b, a⟩ : Pair α) ∈ R →
      ∀ D, isPartialOrder R D = false) ∧
    isPartialOrder (domain.map (fun x => (⟨x, x⟩ : Pair α))) domain = true ∧
    isReflexive ([⟨"A", "A"⟩, ⟨"B", "B"⟩, ⟨"C", "C"⟩] : List (Pair String)) ["A", "B", "C"]
      = true ∧
    isPartialOrder ([⟨"A", "A"⟩, ⟨"B", "B"⟩, ⟨"C", "C"⟩] : List (Pair String)) ["A", "B", "C"]
      = true := by
  refine ⟨isPartialOrder_iff R domain, ?_, ?_, by decide, by decide⟩
  · intro a b hne hab hba D
    rw [← Bool.not_eq_true, isPartialOrder_iff]
    rintro ⟨-, hanti, -⟩
    exact hne (hanti a b hab hba)
  · rw [isPartialOrder_iff]
    refine ⟨?_, ?_, ?_⟩
    · intro x hx
      exact List.mem_map.2 ⟨x, hx, rfl⟩
    · intro a b hab _
      obtain ⟨x, -, hx⟩ := List.mem_map.1 hab
      simp only [Pair.mk.injEq] at hx
      rw [← hx.1, ← hx.2]
    · intro a b c hab hbc
      obtain ⟨x, -, hx⟩ := List.mem_map.1 hab
      simp only [Pair.mk.injEq] at hx
      obtain ⟨rfl, rfl⟩ := hx
      exact hbc

section PrerequisiteOrder
variable [LinearOrder α]

theorem prereqFold_mem (c : α) (P : List α) (acc : List (Pair α)) (x : Pair α) :
    x ∈ P.foldl (fun rel prereq => setInsert ⟨c, prereq⟩ rel) acc ↔
      x ∈ acc ∨ ∃ p ∈ P, x = ⟨c, p⟩ := by
  induction P generalizing acc with
  | nil => simp
  | cons q P ih =>
    rw [List.foldl_cons, ih]
    simp only [mem_setInsert, List.mem_cons, exists_eq_or_imp]
    constructor
    · rintro ((h | h) | h)
      · exact Or.inr (Or.inl h)
      · exact Or.inl h
      · exact Or.inr (Or.inr h)
    · rintro (h | h | h)
      · exact Or.inl (Or.inr h)
      · exact Or.inl (Or.inl h)
      · exact Or.inr h

theorem courseFold_mem (L : List (Course α)) (acc : List (Pair α)) (x : Pair α) :
    x ∈ L.foldl (fun rel course =>
        course.prerequisites.foldl (fun rel prereq => setInsert ⟨course.courseID, prereq⟩ rel)
          rel) acc ↔
      x ∈ acc ∨ ∃ course ∈ L, ∃ p ∈ course.prerequisites, x = ⟨course.courseID, p⟩ := by
  induction L generalizing acc with
  | nil => simp
  | cons course L ih =>
    rw [List.foldl_cons, ih, prereqFold_mem]
    simp only [List.mem_cons, exists_eq_or_imp]
    exact or_assoc

theorem mem_prerequisiteRelation (dm : DataManager α) (c p : α) :
    (⟨c, p⟩ : Pair α) ∈ prerequisiteRelation dm ↔
      ∃ course ∈ dm.courses, course.courseID = c ∧ p ∈ course.prerequisites := by
  unfold prerequisiteRelation
  rw [courseFold_mem]
  simp only [List.not_mem_nil, false_or, Pair.mk.injEq]
  constructor
  · rintro ⟨course, hc, q, hq, h1, h2⟩
    exact ⟨course, hc, h1.symm, h2 ▸ hq⟩
  · rintro ⟨course, hc, h1, h2⟩
    exact ⟨course, hc, p, h2, h1.symm, rfl⟩

theorem getCourse_of_mem (dm : DataManager α) (hkeys : dm.courseIDs.Nodup)
    (course : Course α) (h : course ∈ dm.courses) :
    dm.getCourse course.courseID = some course := by
  unfold DataManager.getCourse
  cases hf : dm.courses.find? (fun c => decide (c.courseID = course.courseID)) with
  | none =>
    rw [List.find?_eq_none] at hf
    have := hf course h
    simp at this
  | some c' =>
    have h1 : c' ∈ dm.courses := List.mem_of_find?_eq_some hf
    have h2 : c'.courseID = course.courseID := by simpa using List.find?_some hf
    rw [List.inj_on_of_nodup_map hkeys h1 h h2]

theorem requires_of_mem_prerequisiteRelation (dm : DataManager α) (hkeys : dm.courseIDs.Nodup)
    (c p : α) (h : (⟨c, p⟩ : Pair α) ∈ prerequisiteRelation dm) : Requires dm c p := by
  obtain ⟨course, hc, rfl, hp⟩ := (mem_prerequisiteRelation dm c p).1 h
  exact (requires_iff dm _ p).2 ⟨course, getCourse_of_mem dm hkeys course hc, hp⟩

theorem mem_withReflexivePairs (R : List (Pair α)) (domain : List α) (x : Pair α) :
    x ∈ withReflexivePairs R domain ↔ x ∈ R ∨ ∃ d ∈ domain, x = ⟨d, d⟩ := by
  unfold withReflexivePairs
  induction domain generalizing R with
  | nil => simp
  | cons d domain ih =>
    rw [List.foldl_cons, ih]
    simp only [mem_setInsert, List.mem_cons, exists_eq_or_imp]
    constructor
    · rintro ((h | h) | h)
      · exact Or.inr (Or.inl h)
      · exact Or.inl h
      · exact Or.inr (Or.inr h)
    · rintro (h | h | h)
      · exact Or.inl (Or.inr h)
      · exact Or.inl (Or.inl h)
      · exact Or.inr h

end PrerequisiteOrder

/-- C10: for a catalog whose prerequisite graph is acyclic, with D the set of all course IDs
and P the prerequisite relation built by buildRelations, the closure of P (a fixed point of
the join pass) united with the reflexive pairs of D is accepted by isPartialOrder on D. -/
theorem prerequisite_closure_partial_order [LinearOrder α] (dm : DataManager α)
    (hkeys : dm.courseIDs.Nodup)
    (hacyc : ∀ c, ¬ Relation.TransGen (Requires dm) c c)
    (hfix : (closurePass (transitiveClosure (prerequisiteRelation dm))).2 = false) :
    isPartialOrder
      (withReflexivePairs (transitiveClosure (prerequisiteRelation dm)) dm.courseIDs)
      dm.courseIDs = true := by
  have htrans : TransitiveRel (transitiveClosure (prerequisiteRelation dm)) :=
    (closurePass_changed_false_iff _).1 hfix
  have hreach : ∀ a b, (⟨a, b⟩ : Pair α) ∈ transitiveClosure (prerequisiteRelation dm) →
      Relation.TransGen (Requires dm) a b := by
    intro a b hab
    exact closureLoop_least MAX_ITER (prerequisiteRelation dm) true
      (Relation.TransGen (Requires dm)) (fun _ _ _ h1 h2 => h1.trans h2)
      (fun p hp => Relation.TransGen.single
        (requires_of_mem_prerequisiteRelation dm hkeys p.first p.second hp)) _ hab
  rw [isPartialOrder_iff]
  refine ⟨?_, ?_, ?_⟩
  · intro x hx
    exact (mem_withReflexivePairs _ _ _).2 (Or.inr ⟨x, hx, rfl⟩)
  · intro a b hab hba
    rcases (mem_withReflexivePairs _ _ _).1 hab with h1 | ⟨d, -, hd⟩
    · rcases (mem_withReflexivePairs _ _ _).1 hba with h2 | ⟨d, -, hd⟩
      · exact absurd ((hreach a b h1).trans (hreach b a h2)) (hacyc a)
      · simp only [Pair.mk.injEq] at hd
        rw [hd.1, hd.2]
    · simp only [Pair.mk.injEq] at hd
      rw [hd.1, hd.2]
  · intro a b c hab hbc
    rcases (mem_withReflexivePairs _ _ _).1 hab with h1 | ⟨d, -, hd⟩
    · rcases (mem_withReflexivePairs _ _ _).1 hbc with h2 | ⟨d, -, hd⟩
      · exact (mem_withReflexivePairs _ _ _).2 (Or.inl (htrans a b c h1 h2))
      · simp only [Pair.mk.injEq] at hd
        obtain ⟨rfl, rfl⟩ := hd
        exact hab
    · simp only [Pair.mk.injEq] at hd
      obtain ⟨rfl, rfl⟩ := hd
      exact hbc

theorem requires_numbered_rank (c p : Nat) (h : Requires numberedCatalog c p) :
    4 - c < 4 - p := by
  have hall : ∀ c ∈ [1, 2, 3, 4], ∀ p ∈ numberedCatalog.prereqsOf c, 4 - c < 4 - p := by
    decide
  obtain ⟨course, hcourse, hp⟩ := (requires_iff numberedCatalog c p).1 h
  have hmem := getCourse_mem numberedCatalog c course hcourse
  have hc : c ∈ [1, 2, 3, 4] := by
    have : course.courseID ∈ numberedCatalog.courseIDs := List.mem_map.2 ⟨course, hmem.1, rfl⟩
    rw [hmem.2] at this
    exact this
  exact hall c hc p h

/-- Witness for C10: the numbered diamond catalog. -/
theorem prerequisite_closure_partial_order_witness :
    numberedCatalog.courseIDs.Nodup ∧
    (closurePass (transitiveClosure (prerequisiteRelation numberedCatalog))).2 = false ∧
    isPartialOrder
      (withReflexivePairs (transitiveClosure (prerequisiteRelation numberedCatalog))
        numberedCatalog.courseIDs)
      numberedCatalog.courseIDs = true :=
  ⟨by decide, by decide,
    prerequisite_closure_partial_order numberedCatalog (by decide)
      (acyclic_of_rank _ (fun x => 4 - x) requires_numbered_rank) (by decide)⟩

theorem isSymmetric_iff [DecidableEq α] (R : List (Pair α)) :
    isSymmetric R = true ↔ SymmetricRel R := by
  simp only [isSymmetric, List.all_eq_true, decide_eq_true_eq, SymmetricRel]
  constructor
  · intro h a b hab
    exact h ⟨a, b⟩ hab
  · rintro h ⟨a, b⟩ hab
    exact h a b hab

/-- C11: isEquivalenceRelation(R, D) is true exactly when R is reflexive on D, symmetric and
transitive; isSymmetric and isTransitive on their own decide symmetry and transitivity; the
test relations (A,B),(B,A) and (A,B),(B,C),(A,C) are accepted. -/
theorem isEquivalenceRelation_exact [DecidableEq α] (R : List (Pair α)) (domain : List α) :
    (isEquivalenceRelation R domain = true ↔
      ReflexiveOn R domain ∧ SymmetricRel R ∧ TransitiveRel R) ∧
    (isSymmetric R = true ↔ SymmetricRel R) ∧
    (isTransitive R = true ↔ TransitiveRel R) ∧
    isSymmetric ([⟨"A", "B"⟩, ⟨"B", "A"⟩] : List (Pair String)) = true ∧
    isTransitive ([⟨"A", "B"⟩, ⟨"A", "C"⟩, ⟨"B", "C"⟩] : List (Pair String)) = true := by
  refine ⟨?_, isSymmetric_iff R, isTransitive_iff R, by decide, by decide⟩
  rw [← isReflexive_iff, ← isSymmetric_iff, ← isTransitive_iff]
  simp [isEquivalenceRelation, and_assoc]

section KahnResult
variable [DecidableEq α]

theorem topologicalSort_inv (dm : DataManager α) (S : List α) (hS : S.Nodup)
    (hP : ∀ course ∈ dm.courses, course.prerequisites.Nodup) :
    ∃ r d, topologicalSort dm S = some r ∧ KahnInv dm S [] d r := by
  have hP' : ∀ c course, dm.getCourse c = some course → course.prerequisites.Nodup :=
    fun c course h => hP course (getCourse_mem dm c course h).1
  have hinit : KahnInv dm S (S.filter (fun c => decide ((buildGraph dm S).1 c = 0)))
      (buildGraph dm S).1 [] := by
    refine ⟨?_, ?_, ?_, ?_, ?_⟩
    · simpa using hS.filter _
    · intro x hx
      simp only [List.not_mem_nil, false_or, List.mem_filter] at hx
      exact hx.1
    · intro c hc
      simp [buildGraph_fst dm S hS hP', hc]
    · intro c hc
      simp [hc]
    · intro c hc
      simp at hc
  exact kahnLoop_spec dm S hS hP' (buildGraph dm S).2
    (buildGraph_snd dm S hS hP') S.length _ _ [] hinit (by simp)

theorem Before.index_lt {order : List α} {p c : α} (h : Before order p c)
    (hnd : order.Nodup) : p ∈ order ∧ List.indexOf p order < List.indexOf c order := by
  obtain ⟨l1, l2, l3, rfl⟩ := h
  have h1 : (l1 ++ (p :: l2 ++ c :: l3)).Nodup := by simpa using hnd
  obtain ⟨-, h2, hdisj⟩ := List.nodup_append.1 h1
  have hp1 : p ∉ l1 := fun hp => hdisj hp (by simp)
  have hc1 : c ∉ l1 := fun hc => hdisj hc (by simp)
  have h3 : (p :: (l2 ++ c :: l3)).Nodup := by simpa using h2
  obtain ⟨hp2, h4⟩ := List.nodup_cons.1 h3
  have hcp : p ≠ c := fun h => hp2 (by simp [h])
  obtain ⟨-, -, hdisj2⟩ := List.nodup_append.1 h4
  have hc2 : c ∉ l2 := fun hc => hdisj2 hc (by simp)
  refine ⟨by simp, ?_⟩
  rw [List.append_assoc, List.indexOf_append_of_not_mem hp1, List.indexOf_append_of_not_mem hc1,
    List.cons_append, List.indexOf_cons_self, List.indexOf_cons_ne _ hcp]
  omega

theorem KahnInv.ancestor (dm : DataManager α) (S : List α) (d : α → Int) (r : List α)
    (h : KahnInv dm S [] d r) (a b : α) (hab : Relation.TransGen (EdgeIn dm S) a b)
    (hb : b ∈ r) : a ∈ r ∧ List.indexOf a r < List.indexOf b r := by
  have hnd : r.Nodup := by simpa using h.nodup
  have hedge : ∀ p c, EdgeIn dm S p c → c ∈ r →
      p ∈ r ∧ List.indexOf p r < List.indexOf c r := by
    intro p c hpc hc
    obtain ⟨-, hpS, course, hcourse, hp⟩ := hpc
    apply (h.before c hc p _).index_lt hnd
    simp [predsIn, hcourse, hp, hpS]
  induction hab with
  | single h1 => exact hedge _ _ h1 hb
  | tail _ h2 ih =>
    obtain ⟨h3, h4⟩ := hedge _ _ h2 hb
    obtain ⟨h5, h6⟩ := ih h3
    exact ⟨h5, lt_trans h6 h4⟩

theorem KahnInv.cycle_not_mem (dm : DataManager α) (S : List α) (d : α → Int) (r : List α)
    (h : KahnInv dm S [] d r) (c : α) (hc : Relation.TransGen (EdgeIn dm S) c c) :
    c ∈ S ∧ c ∉ r := by
  refine ⟨?_, fun hcr => lt_irrefl _ (KahnInv.ancestor dm S d r h c c hc hcr).2⟩
  rcases Relation.TransGen.tail'_iff.1 hc with ⟨b, -, hbc⟩
  exact hbc.1

end KahnResult

/-- C12: topologicalSort returns a duplicate-free list of IDs of S; it returns every ID of S
(equivalently, its length is |S|) exactly when the prerequisite edges inside S contain no
directed cycle, and when they contain one the ordering is strictly shorter than |S| (on the
2-cycle A requires B, B requires A it is empty). -/
theorem topologicalSort_complete_iff_acyclic [DecidableEq α] (dm : DataManager α)
    (S : List α) (hS : S.Nodup) (hP : ∀ course ∈ dm.courses, course.prerequisites.Nodup) :
    (∃ order, topologicalSort dm S = some order ∧ order.Nodup ∧ (∀ x ∈ order, x ∈ S) ∧
      ((∀ x ∈ S, x ∈ order) ↔ ∀ c, ¬ Relation.TransGen (EdgeIn dm S) c c) ∧
      (order.length = S.length ↔ ∀ c, ¬ Relation.TransGen (EdgeIn dm S) c c) ∧
      ((∃ c, Relation.TransGen (EdgeIn dm S) c c) → order.length < S.length)) ∧
    topologicalSort twoCycleCatalog ["A", "B"] = some [] := by
  refine ⟨?_, by decide⟩
  obtain ⟨r, d, hr, hinv⟩ := topologicalSort_inv dm S hS hP
  have hnd : r.Nodup := by simpa using hinv.nodup
  have hsub : ∀ x ∈ r, x ∈ S := fun x hx => hinv.sub x (Or.inl hx)
  have hle : r.length ≤ S.length := (hnd.subperm hsub).length_le
  have hall_of_len : r.length = S.length → ∀ x ∈ S, x ∈ r := by
    intro hlen x hx
    exact ((hnd.subperm hsub).perm_of_length_le (le_of_eq hlen.symm)).mem_iff.2 hx
  have hlen_of_all : (∀ x ∈ S, x ∈ r) → r.length = S.length := by
    intro hall
    exact le_antisymm hle (hS.subperm hall).length_le
  have hacyc_of_all : (∀ x ∈ S, x ∈ r) → ∀ c, ¬ Relation.TransGen (EdgeIn dm S) c c := by
    intro hall c hc
    obtain ⟨h1, h2⟩ := KahnInv.cycle_not_mem dm S d r hinv c hc
    exact h2 (hall c h1)
  refine ⟨r, hr, hnd, hsub, ⟨hacyc_of_all, ?_⟩, ⟨?_, ?_⟩, ?_⟩
  · intro hacyc
    exact KahnInv.complete dm S hacyc d r hinv
  · intro hlen
    exact hacyc_of_all (hall_of_len hlen)
  · intro hacyc
    exact hlen_of_all (KahnInv.complete dm S hacyc d r hinv)
  · rintro ⟨c, hc⟩
    rcases Nat.lt_or_ge r.length S.length with h | h
    · exact h
    · exact absurd hc (hacyc_of_all (hall_of_len (le_antisymm hle h)) c)

/-- Witness for C12: the diamond catalog, sorted as a whole. -/
theorem topologicalSort_complete_iff_acyclic_witness :
    ∃ order, topologicalSort diamondCatalog ["A", "B", "C", "D"] = some order ∧
      order.Nodup ∧ (∀ x ∈ order, x ∈ ["A", "B", "C", "D"]) ∧
      ((∀ x ∈ ["A", "B", "C", "D"], x ∈ order) ↔
        ∀ c, ¬ Relation.TransGen (EdgeIn diamondCatalog ["A", "B", "C", "D"]) c c) ∧
      (order.length = ["A", "B", "C", "D"].length ↔
        ∀ c, ¬ Relation.TransGen (EdgeIn diamondCatalog ["A", "B", "C", "D"]) c c) ∧
      ((∃ c, Relation.TransGen (EdgeIn diamondCatalog ["A", "B", "C", "D"]) c c) →
        order.length < ["A", "B", "C", "D"].length) :=
  (topologicalSort_complete_iff_acyclic diamondCatalog ["A", "B", "C", "D"] (by decide)
    (by decide)).1

/-- Counterexample to C19 as stated: X is in the set but not in the catalog, and the ordering
returned holds it (first, as it has no prerequisite edges). -/
theorem topologicalSort_emits_absent_course :
    topologicalSort missingPrereqCatalog ["A", "B", "X"] = some ["X", "B", "A"] ∧
    missingPrereqCatalog.getCourse "X" = none :=
  ⟨by decide, rfl⟩

/-- C19 (amended): every ID in the ordering returned by topologicalSort(S) is an ID of S, and
an ID of S that is absent from the catalog is not left out: it has no prerequisite edges of
its own and is always part of the ordering. -/
theorem topologicalSort_keeps_absent_courses [DecidableEq α] (dm : DataManager α)
    (S : List α) (hS : S.Nodup) (hP : ∀ course ∈ dm.courses, course.prerequisites.Nodup) :
    ∃ order, topologicalSort dm S = some order ∧ (∀ x ∈ order, x ∈ S) ∧
      ∀ x ∈ S, dm.getCourse x = none → x ∈ order := by
  obtain ⟨r, d, hr, hinv⟩ := topologicalSort_inv dm S hS hP
  refine ⟨r, hr, fun x hx => hinv.sub x (Or.inl hx), ?_⟩
  intro x hx hnone
  have hd : d x = 0 := by
    rw [hinv.deg x hx]
    simp [predsIn, hnone]
  simpa using (hinv.zero x hx).1 hd

/-- Witness for the amended C19: the catalog that lacks X, sorted together with X. -/
theorem topologicalSort_keeps_absent_courses_witness :
    ∃ order, topologicalSort missingPrereqCatalog ["A", "B", "X"] = some order ∧
      (∀ x ∈ order, x ∈ ["A", "B", "X"]) ∧
      ∀ x ∈ ["A", "B", "X"], missingPrereqCatalog.getCourse x = none → x ∈ order :=
  topologicalSort_keeps_absent_courses missingPrereqCatalog ["A", "B", "X"] (by decide)
    (by decide)

theorem requires_missingPrereq_rank (c p : String) (h : Requires missingPrereqCatalog c p) :
    List.indexOf c ["A", "B", "X"] < List.indexOf p ["A", "B", "X"] := by
  have hall : ∀ c ∈ ["A", "B"], ∀ p ∈ missingPrereqCatalog.prereqsOf c,
      List.indexOf c ["A", "B", "X"] < List.indexOf p ["A", "B", "X"] := by
    decide
  obtain ⟨course, hcourse, hp⟩ := (requires_iff missingPrereqCatalog c p).1 h
  have hmem := getCourse_mem missingPrereqCatalog c course hcourse
  have hc : c ∈ ["A", "B"] := by
    have : course.courseID ∈ missingPrereqCatalog.courseIDs :=
      List.mem_map.2 ⟨course, hmem.1, rfl⟩
    rw [hmem.2] at this
    exact this
  exact hall c hc p h

/-- C13 fails on the code: with A requiring B and X, B requiring X and X absent, no
prerequisite cycle is reachable from A, yet the walk returns true. The branch of the missing
course X returns false without erasing X from the visited set, so the second path to X finds
it there. -/
theorem hasCycle_reports_cycle_for_missing_course :
    hasCycleFrom missingPrereqCatalog "A" = some true ∧
    ¬ CycleReachable missingPrereqCatalog "A" ∧
    missingPrereqCatalog.getCourse "X" = none ∧
    hasCycle missingPrereqCatalog 1 "X" ["B", "A"] = some (false, ["X", "B", "A"]) := by
  refine ⟨by decide, ?_, rfl, by decide⟩
  rintro ⟨v, -, hv⟩
  exact acyclic_of_rank _ (fun x => List.indexOf x ["A", "B", "X"])
    requires_missingPrereq_rank v hv

theorem findInCopyNeEnd_eq_true [DecidableEq α] (s : List α) (k : α) :
    findInCopyNeEnd s k = true := by
  simp [findInCopyNeEnd, setFind, setEnd]

theorem findInCopyEqEnd_eq_false [DecidableEq α] (s : List α) (k : α) :
    findInCopyEqEnd s k = false := by
  simp [findInCopyEqEnd, setFind, setEnd]

/-- C14 fails on the code: checkEligibility returns false for every student and course, and
the enrolment menu refuses every enrolment, because the test for "already enrolled" compares
an iterator of one copy of the enrolled set with the end of another copy and so always
succeeds. Student S101 of the test data and course MATH101 exist, S101 is neither enrolled
in nor has completed MATH101, and MATH101 has no prerequisites, yet the result is false. -/
theorem checkEligibility_refuses_every_student [LinearOrder α] (dm : DataManager α)
    (students : List (Student α)) (studentID courseID : α) (credits : Int) :
    checkEligibility dm students studentID courseID = false ∧
    enrollWithPrerequisiteCheck dm students studentID courseID credits = none ∧
    (∃ student course, getStudent testStudents "S101" = some student ∧
      testCatalog.getCourse "MATH101" = some course ∧
      "MATH101" ∉ student.enrolledCourses ∧ "MATH101" ∉ student.completedCourses ∧
      course.prerequisites = []) ∧
    checkEligibility testCatalog testStudents "S101" "MATH101" = false := by
  have hall : ∀ (β : Type) [DecidableEq β] (dm : DataManager β) (students : List (Student β))
      (s c : β), checkEligibility dm students s c = false := by
    intro β _ dm students s c
    unfold checkEligibility
    cases getStudent students s with
    | none => simp
    | some student =>
      cases dm.getCourse c with
      | none => simp
      | some course => simp [findInCopyNeEnd_eq_true]
  refine ⟨hall α dm students studentID courseID, ?_, ?_, hall String _ _ _ _⟩
  · unfold enrollWithPrerequisiteCheck
    cases getStudent students studentID with
    | none => simp
    | some student =>
      cases dm.getCourse courseID with
      | none => simp
      | some course =>
        have := hall α dm students studentID courseID
        simp [this]
  · exact ⟨⟨"S101", ["CS102"], ["CS101"], 0⟩, ⟨"MATH101", []⟩, rfl, rfl, by decide, by decide,
      rfl⟩

/-- C18 fails on the code for verifyStrongInduction: for a course ID absent from the catalog,
hasCycle, checkEligibility, verifyBaseCase, verifyInductiveStep and generatePrerequisiteProof
return false for every student ID, but verifyStrongInduction never looks the course up and
returns true for every existing student (student S101 of the test data and course X). -/
theorem verifyStrongInduction_accepts_unknown_course [LinearOrder α] (dm : DataManager α)
    (students : List (Student α)) :
    (∀ s x, dm.getCourse x = none →
      hasCycleFrom dm x = some false ∧ checkEligibility dm students s x = false ∧
      verifyBaseCase dm x = false ∧ verifyInductiveStep dm students s x = false ∧
      generatePrerequisiteProof dm students s x = false) ∧
    (∀ s x, dm.getCourse x = none →
      (verifyStrongInduction dm students s x = some true ↔
        (getStudent students s).isSome)) ∧
    testCatalog.getCourse "X" = none ∧
    verifyStrongInduction testCatalog testStudents "S101" "X" = some true := by
  refine ⟨?_, ?_, rfl, ?_⟩
  · intro s x hx
    refine ⟨by simp [hasCycleFrom, hasCycle, hx], ?_, by simp [verifyBaseCase, hx], ?_, ?_⟩
    · unfold checkEligibility
      cases getStudent students s <;> simp [hx]
    · unfold verifyInductiveStep
      cases getStudent students s <;> simp [hx]
    · unfold generatePrerequisiteProof
      cases getStudent students s <;> simp [hx]
  · intro s x hx
    unfold verifyStrongInduction
    cases getStudent students s with
    | none => simp
    | some student =>
      simp [validateIndirectPrerequisites, getAllPrerequisitesRecursive, hx]
  · simp [verifyStrongInduction, getStudent, testStudents, validateIndirectPrerequisites,
      getAllPrerequisitesRecursive, DataManager.getCourse, testCatalog]

section Rerun
variable [LinearOrder α]

theorem inferFold_of_no_fire (rs : List (LogicRule α)) (st : List α × List α × Bool)
    (h : ∀ r ∈ rs,
      ¬ (r.antecedent ∈ st.1 ∧ r.consequent ∉ st.1 ∧ r.consequent ∉ st.2.1)) :
    rs.foldl inferStep st = st := by
  induction rs with
  | nil => rfl
  | cons r rs ih =>
    rw [List.foldl_cons]
    have hstep : inferStep st r = st := by
      unfold inferStep
      rw [if_neg (h r (by simp))]
    rw [hstep]
    exact ih (fun x hx => h x (by simp [hx]))

theorem inferLoop_of_closed (rules : List (LogicRule α)) (F : List α) (n : Nat)
    (h : RulesClosed rules (fun x => x ∈ F)) :
    inferLoop rules (n + 1) F [] true = (F, [], false) := by
  have hpass : inferPass rules F [] = (F, [], false) := by
    unfold inferPass
    apply inferFold_of_no_fire
    intro r hr hfire
    exact hfire.2.1 (h r hr hfire.1)
  rw [inferLoop]
  simp only [if_true]
  rw [hpass, inferLoop_of_unchanged]

theorem runInference_of_closed (e : LogicEngine α)
    (h : RulesClosed e.rules (fun x => x ∈ e.facts)) :
    e.runInference.derived = [] ∧ e.runInference.engine.facts = e.facts ∧
      e.runInference.changed = false := by
  have hloop : inferLoop e.rules 100 e.facts [] true = (e.facts, [], false) :=
    inferLoop_of_closed e.rules e.facts 99 h
  unfold LogicEngine.runInference
  rw [hloop]
  exact ⟨rfl, rfl, rfl⟩

end Rerun

/-- C15: if a run of runInference ends at a fixed point (no rule can fire on the resulting
fact base), then running runInference again immediately returns the empty set and leaves the
fact base unchanged; re-running the CS102 scenario yields an empty derived set. -/
theorem runInference_again_at_fixed_point [LinearOrder α] (e : LogicEngine α)
    (hfix : RulesClosed e.rules (fun x => x ∈ e.runInference.engine.facts)) :
    (e.runInference.engine.runInference.derived = [] ∧
      e.runInference.engine.runInference.engine.facts = e.runInference.engine.facts ∧
      e.runInference.engine.runInference.changed = false) ∧
    cs102Engine.runInference.engine.runInference.derived = [] := by
  constructor
  · exact runInference_of_closed e.runInference.engine hfix
  · apply (runInference_of_closed cs102Engine.runInference.engine _).1
    have hfacts : cs102Engine.runInference.engine.facts
        = setInsert "must_complete(CS101)" ["enrolled(CS102)"] := by
      simp [cs102Engine, LogicEngine.runInference, LogicEngine.addCourseRule,
        LogicEngine.addFact, inferLoop, inferPass, inferStep, mem_setInsert, setInsert_nil]
    intro r hr _
    have hr' : r.consequent = "must_complete(CS101)" := by
      have : r ∈ cs102Engine.rules := hr
      simp [cs102Engine, LogicEngine.addCourseRule, LogicEngine.addFact] at this
      rw [this]
    show r.consequent ∈ cs102Engine.runInference.engine.facts
    rw [hfacts, hr', mem_setInsert]
    exact Or.inl rfl

/-- Witness for C15: the two chained rules over numbered atoms, whose run ends at a fixed
point. -/
theorem runInference_again_at_fixed_point_witness :
    RulesClosed smallEngine.rules (fun x => x ∈ smallEngine.runInference.engine.facts) ∧
    smallEngine.runInference.engine.runInference.derived = [] ∧
    smallEngine.runInference.engine.runInference.engine.facts
      = smallEngine.runInference.engine.facts ∧
    smallEngine.runInference.engine.runInference.changed = false :=
  ⟨by unfold RulesClosed; decide,
    (runInference_again_at_fixed_point smallEngine (by unfold RulesClosed; decide)).1⟩

section SequenceSound
variable [DecidableEq α]

theorem validExt_sound (dm : DataManager α) (ext rem comp : List α) (d : Int)
    (hrem : rem.Nodup) (h : ValidExt dm ext rem comp d) :
    ext.Nodup ∧ (∀ x ∈ ext, x ∈ rem ∧ (dm.getCourse x).isSome) ∧
      ∀ l1 c l2, ext = l1 ++ c :: l2 → ∀ p ∈ dm.prereqsOf c, p ∈ comp ∨ p ∈ l1 := by
  induction ext generalizing rem comp d with
  | nil =>
    refine ⟨List.nodup_nil, by simp, ?_⟩
    intro l1 c l2 hdec
    simp at hdec
  | cons c ext ih =>
    obtain ⟨-, helig, hv⟩ := h
    obtain ⟨hcrem, hcex, hpre⟩ := (mem_eligibleCourses dm rem comp c).1 helig
    obtain ⟨h1, h2, h3⟩ := ih (rem.erase c) (comp.insert c) (d - 1) (hrem.erase c) hv
    refine ⟨?_, ?_, ?_⟩
    · rw [List.nodup_cons]
      refine ⟨fun hc => ?_, h1⟩
      have := (h2 c hc).1
      rw [hrem.mem_erase_iff] at this
      exact this.1 rfl
    · intro x hx
      rcases List.mem_cons.1 hx with rfl | hx
      · exact ⟨hcrem, hcex⟩
      · exact ⟨List.mem_of_mem_erase (h2 x hx).1, (h2 x hx).2⟩
    · intro l1 x l2 hdec p hp
      cases l1 with
      | nil =>
        simp only [List.nil_append, List.cons.injEq] at hdec
        obtain ⟨rfl, -⟩ := hdec
        exact Or.inl (hpre p hp)
      | cons y l1 =>
        simp only [List.cons_append, List.cons.injEq] at hdec
        obtain ⟨rfl, hdec⟩ := hdec
        rcases h3 l1 x l2 hdec p hp with h | h
        · rcases List.mem_insert_iff.1 h with rfl | h
          · exact Or.inr (by simp)
          · exact Or.inl h
        · exact Or.inr (by simp [h])

theorem verifyConsistencyLoop_of_prereqsFirst (dm : DataManager α) (seq completed : List α)
    (hex : ∀ x ∈ seq, (dm.getCourse x).isSome)
    (hpre : ∀ l1 c l2, seq = l1 ++ c :: l2 → ∀ p ∈ dm.prereqsOf c, p ∈ completed ∨ p ∈ l1) :
    verifyConsistencyLoop dm seq completed = true := by
  induction seq generalizing completed with
  | nil => rfl
  | cons c seq ih =>
    have hc := hex c (by simp)
    rw [Option.isSome_iff_exists] at hc
    obtain ⟨course, hcourse⟩ := hc
    have hall : course.prerequisites.all (fun prereq => decide (prereq ∈ completed))
        = true := by
      rw [List.all_eq_true]
      intro p hp
      have hp' : p ∈ dm.prereqsOf c := by simp [DataManager.prereqsOf, hcourse, hp]
      rcases hpre [] c seq rfl p hp' with h | h
      · simpa using h
      · simp at h
    simp only [verifyConsistencyLoop, hcourse, hall, if_true]
    apply ih
    · intro x hx
      exact hex x (by simp [hx])
    · intro l1 x l2 hdec p hp
      rcases hpre (c :: l1) x l2 (by simp [hdec]) p hp with h | h
      · exact Or.inl (List.mem_insert_iff.2 (Or.inr h))
      · rcases List.mem_cons.1 h with rfl | h
        · exact Or.inl (List.mem_insert_iff.2 (Or.inl rfl))
        · exact Or.inr h

end SequenceSound

/-- C16: for every catalog, duplicate-free set S and maxLength, generateValidSequences
returns, and every sequence it returns contains only IDs of S that exist in the catalog,
contains no ID twice, places every course after all of its catalog prerequisites, and is
accepted by verifyConsistency. -/
theorem generateValidSequences_sound [DecidableEq α] (dm : DataManager α) (S : List α)
    (maxLength : Int) (hS : S.Nodup) :
    ∃ result, generateValidSequences dm S maxLength = some result ∧
      ∀ seq ∈ result,
        (∀ x ∈ seq, x ∈ S ∧ (dm.getCourse x).isSome) ∧ seq.Nodup ∧
        PrereqsFirst dm seq ∧ verifyConsistency dm seq = true := by
  obtain ⟨R, hR, -, hm⟩ := generateSequencesRecursive_spec dm (S.length + 1) S [] [] []
    maxLength hS (by omega)
  refine ⟨R, by simpa [generateValidSequences] using hR, ?_⟩
  intro seq hseq
  obtain ⟨ext, hs, -, hv⟩ := (hm seq).1 hseq
  have hs2 : ext = seq := by simpa using hs.symm
  subst hs2
  obtain ⟨h1, h2, h3⟩ := validExt_sound dm ext S [] maxLength hS hv
  have hpre : PrereqsFirst dm ext := by
    intro l1 c l2 hdec p hp
    rcases h3 l1 c l2 hdec p hp with h | h
    · simp at h
    · exact h
  refine ⟨h2, h1, hpre, ?_⟩
  exact verifyConsistencyLoop_of_prereqsFirst dm ext [] (fun x hx => (h2 x hx).2)
    (fun l1 c l2 hdec p hp => Or.inr (hpre l1 c l2 hdec p hp))

/-- Witness for C16: the diamond catalog, enumerated with depth bound 3. -/
theorem generateValidSequences_sound_witness :
    ∃ result, generateValidSequences diamondCatalog ["A", "B", "C", "D"] 3 = some result ∧
      ∀ seq ∈ result,
        (∀ x ∈ seq, x ∈ ["A", "B", "C", "D"] ∧ (diamondCatalog.getCourse x).isSome) ∧
        seq.Nodup ∧ PrereqsFirst diamondCatalog seq ∧
        verifyConsistency diamondCatalog seq = true :=
  generateValidSequences_sound diamondCatalog ["A", "B", "C", "D"] 3 (by decide)

section ChainRuns

theorem inferLoop_of_no_fire [LinearOrder α] (rules : List (LogicRule α)) (F D : List α)
    (n : Nat)
    (h : ∀ r ∈ rules, ¬ (r.antecedent ∈ F ∧ r.consequent ∉ F ∧ r.consequent ∉ D)) :
    inferLoop rules (n + 1) F D true = (F, D, false) := by
  have hpass : inferPass rules F D = (F, D, false) := by
    unfold inferPass
    exact inferFold_of_no_fire rules (F, D, false) h
  rw [inferLoop]
  simp only [if_true]
  rw [hpass, inferLoop_of_unchanged]

theorem chainUpTo_fire (k : Nat) (F D : List Nat) (ch : Bool) (h : ChainUpTo k F D) :
    inferStep (F, D, ch) (chainRule k) = (setInsert (k + 1) F, setInsert (k + 1) D, true) ∧
      ChainUpTo (k + 1) (setInsert (k + 1) F) (setInsert (k + 1) D) := by
  obtain ⟨hF, hD, hs⟩ := h
  constructor
  · have h1 : k ∈ F := (hF k).2 (le_refl k)
    have h2 : k + 1 ∉ F := fun hm => by have := (hF _).1 hm; omega
    have h3 : k + 1 ∉ D := fun hm => by have := ((hD _).1 hm).2; omega
    simp [inferStep, chainRule, h1, h2, h3]
  · refine ⟨?_, ?_, sorted_setInsert _ _ hs⟩
    · intro x
      rw [mem_setInsert, hF]
      omega
    · intro x
      rw [mem_setInsert, hD]
      omega

theorem chainUpTo_no_fire (k i : Nat) (F D : List Nat) (h : ChainUpTo k F D) (hi : i ≠ k) :
    ¬ ((chainRule i).antecedent ∈ F ∧ (chainRule i).consequent ∉ F ∧
      (chainRule i).consequent ∉ D) := by
  obtain ⟨hF, -, -⟩ := h
  rintro ⟨h1, h2, -⟩
  have h3 : i ≤ k := (hF i).1 h1
  have h4 : ¬ i + 1 ≤ k := fun hle => h2 ((hF (i + 1)).2 hle)
  omega

theorem reverseChainRules_succ (n : Nat) :
    reverseChainRules (n + 1) = chainRule n :: reverseChainRules n := by
  simp [reverseChainRules, List.range_succ]

theorem mem_reverseChainRules (n : Nat) (r : LogicRule Nat) :
    r ∈ reverseChainRules n ↔ ∃ i, i < n ∧ r = chainRule i := by
  simp only [reverseChainRules, List.mem_map, List.mem_reverse, List.mem_range]
  constructor
  · rintro ⟨i, hi, rfl⟩
    exact ⟨i, hi, rfl⟩
  · rintro ⟨i, hi, rfl⟩
    exact ⟨i, hi, rfl⟩

theorem reverseFold_below (k m : Nat) (F D : List Nat) (ch : Bool) (h : ChainUpTo k F D)
    (hm : m ≤ k) : (reverseChainRules m).foldl inferStep (F, D, ch) = (F, D, ch) := by
  apply inferFold_of_no_fire
  intro r hr
  obtain ⟨i, hi, rfl⟩ := (mem_reverseChainRules m r).1 hr
  exact chainUpTo_no_fire k i F D h (by omega)

theorem reverseFold_above (k m : Nat) (F D : List Nat) (h : ChainUpTo k F D) (hm : k < m) :
    ∃ F1 D1, (reverseChainRules m).foldl inferStep (F, D, false) = (F1, D1, true) ∧
      ChainUpTo (k + 1) F1 D1 := by
  induction m with
  | zero => omega
  | succ m ih =>
    rw [reverseChainRules_succ, List.foldl_cons]
    by_cases hmk : m = k
    · subst hmk
      obtain ⟨h1, h2⟩ := chainUpTo_fire m F D false h
      rw [h1]
      exact ⟨_, _, reverseFold_below (m + 1) m _ _ true h2 (by omega), h2⟩
    · have hstep : inferStep (F, D, false) (chainRule m) = (F, D, false) := by
        unfold inferStep
        rw [if_neg (chainUpTo_no_fire k m F D h hmk)]
      rw [hstep]
      exact ih (by omega)

theorem reverseLoop (n m k : Nat) (F D : List Nat) (h : ChainUpTo k F D) (hk : k + m ≤ n) :
    ∃ F1 D1, inferLoop (reverseChainRules n) m F D true = (F1, D1, true) ∧
      ChainUpTo (k + m) F1 D1 := by
  induction m generalizing k F D with
  | zero => exact ⟨F, D, rfl, h⟩
  | succ m ih =>
    obtain ⟨F1, D1, hpass, h1⟩ := reverseFold_above k n F D h (by omega)
    obtain ⟨F2, D2, hloop, h2⟩ := ih (k + 1) F1 D1 h1 (by omega)
    refine ⟨F2, D2, ?_, ?_⟩
    · rw [inferLoop]
      simp only [if_true]
      have hp : inferPass (reverseChainRules n) F D = (F1, D1, true) := hpass
      rw [hp]
      exact hloop
    · rw [show k + (m + 1) = k + 1 + m by omega]
      exact h2

theorem forwardFold (m k : Nat) (F D : List Nat) (ch : Bool) (h : ChainUpTo k F D) :
    ∃ F1 D1 ch1, ((List.range' k m).map chainRule).foldl inferStep (F, D, ch) = (F1, D1, ch1) ∧
      ChainUpTo (k + m) F1 D1 ∧ (0 < m → ch1 = true) := by
  induction m generalizing k F D ch with
  | zero => exact ⟨F, D, ch, rfl, h, fun h0 => absurd h0 (lt_irrefl 0)⟩
  | succ m ih =>
    obtain ⟨h1, h2⟩ := chainUpTo_fire k F D ch h
    obtain ⟨F1, D1, ch1, h3, h4, h5⟩ := ih (k + 1) _ _ true h2
    refine ⟨F1, D1, ch1, ?_, ?_, ?_⟩
    · rw [List.range'_succ, List.map_cons, List.foldl_cons, h1]
      exact h3
    · rw [show k + (m + 1) = k + 1 + m by omega]
      exact h4
    · intro _
      rcases Nat.eq_zero_or_pos m with hm | hm
      · subst hm
        have h6 := h3.symm
        simp only [List.range'_zero, List.map_nil, List.foldl_nil, Prod.mk.injEq] at h6
        exact h6.2.2
      · exact h5 hm

theorem chainUpTo_init : ChainUpTo 0 [0] [] := by
  refine ⟨?_, ?_, List.sorted_nil⟩
  · intro x
    simp
  · intro x
    simp only [List.not_mem_nil, false_iff]
    omega

theorem reverseChainEngine_run :
    ∃ F D, inferLoop (reverseChainRules 101) 100 [0] [] true = (F, D, true) ∧
      ChainUpTo 100 F D := by
  obtain ⟨F, D, h1, h2⟩ := reverseLoop 101 100 0 [0] [] chainUpTo_init (by omega)
  exact ⟨F, D, h1, by simpa using h2⟩

theorem forwardChainEngine_run :
    ∃ F D, inferLoop (forwardChainRules 100) 100 [0] [] true = (F, D, false) ∧
      ChainUpTo 100 F D := by
  obtain ⟨F, D, ch, h1, h2, h3⟩ := forwardFold 100 0 [0] [] false chainUpTo_init
  have hch : ch = true := h3 (by omega)
  subst hch
  have hpass : inferPass (forwardChainRules 100) [0] [] = (F, D, true) := by
    unfold inferPass forwardChainRules
    rw [List.range_eq_range']
    exact h1
  have h100 : ChainUpTo 100 F D := by simpa using h2
  refine ⟨F, D, ?_, h100⟩
  rw [inferLoop]
  simp only [if_true]
  rw [hpass]
  apply inferLoop_of_no_fire (forwardChainRules 100) F D 98
  intro r hr
  simp only [forwardChainRules, List.mem_map, List.mem_range] at hr
  obtain ⟨i, hi, rfl⟩ := hr
  exact chainUpTo_no_fire 100 i F D h100 (by omega)

end ChainRuns

theorem reverseChainEngine_incomplete :
    ∃ r ∈ reverseChainEngine.rules,
      r.antecedent ∈ reverseChainEngine.runInference.engine.facts ∧
      r.consequent ∉ reverseChainEngine.runInference.engine.facts := by
  obtain ⟨F, D, h1, hF, -, -⟩ := reverseChainEngine_run
  have hfacts : reverseChainEngine.runInference.engine.facts = F := by
    simp only [LogicEngine.runInference, reverseChainEngine, h1]
  refine ⟨chainRule 100, (mem_reverseChainRules 101 _).2 ⟨100, by omega, rfl⟩, ?_, ?_⟩
  · rw [hfacts]
    exact (hF 100).2 (le_refl _)
  · rw [hfacts]
    intro h
    have := (hF 101).1 h
    omega

/-- Counterexample to C17 as stated: the chain of 101 rules in reverse order stops at the
100-pass cap while the rule 100 -> 101 can still fire; the chain of 100 rules in forward order
ends at a true fixed point; and both runs return the same set, the atoms 1..100. -/
theorem runInference_cap_not_reported :
    reverseChainEngine.runInference.changed = true ∧
    (∃ r ∈ reverseChainEngine.rules,
      r.antecedent ∈ reverseChainEngine.runInference.engine.facts ∧
      r.consequent ∉ reverseChainEngine.runInference.engine.facts) ∧
    forwardChainEngine.runInference.changed = false ∧
    RulesClosed forwardChainEngine.rules
      (fun x => x ∈ forwardChainEngine.runInference.engine.facts) ∧
    reverseChainEngine.runInference.derived = forwardChainEngine.runInference.derived := by
  obtain ⟨F, D, h1, -, hD, hs⟩ := reverseChainEngine_run
  obtain ⟨F', D', h2, hF', hD', hs'⟩ := forwardChainEngine_run
  have hr : reverseChainEngine.runInference
      = ⟨⟨reverseChainRules 101, F⟩, D, true⟩ := by
    simp only [LogicEngine.runInference, reverseChainEngine, h1]
  have hf : forwardChainEngine.runInference
      = ⟨⟨forwardChainRules 100, F'⟩, D', false⟩ := by
    simp only [LogicEngine.runInference, forwardChainEngine, h2]
  refine ⟨by rw [hr], reverseChainEngine_incomplete, by rw [hf], ?_, ?_⟩
  · rw [hf]
    intro r hr' hant
    simp only [forwardChainEngine, forwardChainRules, List.mem_map, List.mem_range] at hr'
    obtain ⟨i, hi, rfl⟩ := hr'
    exact (hF' _).2 (by simp only [chainRule]; omega)
  · rw [hr, hf]
    exact eq_of_sorted_of_mem_iff D D' hs hs' (fun x => by rw [hD, hD'])

/-- C17 (amended): runInference returns the derived set only. Whenever it stops while some
rule could still fire, its last pass fired a rule (the local flag changed is true at exit),
the returned set has at least 100 elements and there are at least 100 rules; a returned set
of that size carries no mark that tells the capped run from a complete one. -/
theorem runInference_incomplete_is_large [LinearOrder α] (e : LogicEngine α)
    (hinc : ∃ r ∈ e.rules, r.antecedent ∈ e.runInference.engine.facts ∧
      r.consequent ∉ e.runInference.engine.facts) :
    e.runInference.changed = true ∧ 100 ≤ e.runInference.derived.length ∧
      100 ≤ e.rules.length := by
  have hinit : InferInv e.rules e.facts e.facts [] :=
    ⟨fun _ hx => hx, fun G hG _ x hx => hG x hx, by simp, by simp, by simp⟩
  have hinv := inferLoop_inv e.rules e.facts 100 e.facts [] true hinit
  have hc : (inferLoop e.rules 100 e.facts [] true).2.2 = true := by
    by_contra hne
    have hfalse : (inferLoop e.rules 100 e.facts [] true).2.2 = false := by
      simpa using hne
    have hclosed := inferLoop_closed e.rules e.facts 100 e.facts [] true hinit (by simp)
      hfalse
    obtain ⟨r, hr, ha, hcons⟩ := hinc
    exact hcons (hclosed r hr ha)
  have hlen := inferLoop_length e.rules 100 e.facts [] hc
  have hsub : (inferLoop e.rules 100 e.facts [] true).2.1
      ⊆ e.rules.map (fun r => r.consequent) := fun x hx => hinv.conseq x hx
  have hle : (inferLoop e.rules 100 e.facts [] true).2.1.length ≤ e.rules.length := by
    simpa using (hinv.nodup.subperm hsub).length_le
  simp only [List.length_nil, Nat.zero_add] at hlen
  exact ⟨hc, hlen, le_trans hlen hle⟩

/-- Witness for the amended C17: the reverse chain of 101 rules. -/
theorem runInference_incomplete_is_large_witness :
    reverseChainEngine.runInference.changed = true ∧
    100 ≤ reverseChainEngine.runInference.derived.length ∧
    100 ≤ reverseChainEngine.rules.length :=
  runInference_incomplete_is_large reverseChainEngine reverseChainEngine_incomplete

section ExactAtoms
variable [LinearOrder α]

theorem singleRule_run (rule : LogicRule α) (fact : α) :
    (singleRuleEngine rule fact).runInference.derived
      = if fact = rule.antecedent ∧ rule.consequent ≠ fact then [rule.consequent] else [] := by
  have hfacts : (singleRuleEngine rule fact).facts = [fact] := by
    simp [singleRuleEngine, LogicEngine.addFact, setInsert_nil]
  have hrules : (singleRuleEngine rule fact).rules = [rule] := rfl
  unfold LogicEngine.runInference
  rw [hfacts, hrules]
  by_cases hfire : fact = rule.antecedent ∧ rule.consequent ≠ fact
  · rw [if_pos hfire]
    have hpass : inferPass [rule] [fact] []
        = (setInsert rule.consequent [fact], [rule.consequent], true) := by
      simp [inferPass, inferStep, hfire.1.symm, hfire.2, setInsert_nil]
    have hloop : inferLoop [rule] 100 [fact] [] true
        = (setInsert rule.consequent [fact], [rule.consequent], false) := by
      rw [inferLoop]
      simp only [if_true]
      rw [hpass]
      apply inferLoop_of_no_fire [rule] _ _ 98
      intro r hr hf
      have hr' : r = rule := by simpa using hr
      subst hr'
      exact hf.2.1 ((mem_setInsert _ _ _).2 (Or.inl rfl))
    rw [hloop]
  · rw [if_neg hfire]
    have hloop : inferLoop [rule] 100 [fact] [] true = ([fact], [], false) := by
      apply inferLoop_of_no_fire [rule] _ _ 99
      intro r hr hf
      have hr' : r = rule := by simpa using hr
      subst hr'
      apply hfire
      have h1 : r.antecedent = fact := by simpa using hf.1
      have h2 : r.consequent ≠ fact := by simpa using hf.2.1
      exact ⟨h1.symm, h2⟩
    rw [hloop]

end ExactAtoms

/-- Counterexample to C20 as stated: the fact enrolled( CS102 ), which differs from the
antecedent enrolled(CS102) only by spaces around the argument, is stored as it is and does
not fire the rule; runInference returns the empty set. -/
theorem runInference_spaced_fact_not_matched :
    spacedFactEngine.facts = ["enrolled( CS102 )"] ∧
    (∃ r ∈ spacedFactEngine.rules, r.antecedent = "enrolled(CS102)") ∧
    spacedFactEngine.runInference.derived = [] := by
  refine ⟨?_, ?_, ?_⟩
  · simp [spacedFactEngine, LogicEngine.addFact, LogicEngine.addCourseRule, setInsert_nil]
  · simp [spacedFactEngine, LogicEngine.addFact, LogicEngine.addCourseRule]
  · have h := singleRule_run (⟨"CR_CS102_CS101", "enrolled(CS102)", "must_complete(CS101)",
      "prerequisite"⟩ : LogicRule String) "enrolled( CS102 )"
    have he : spacedFactEngine = singleRuleEngine (⟨"CR_CS102_CS101", "enrolled(CS102)",
        "must_complete(CS101)", "prerequisite"⟩ : LogicRule String) "enrolled( CS102 )" := by
      simp [spacedFactEngine, singleRuleEngine, LogicEngine.addCourseRule]
    rw [he, h]
    simp

/-- C20 (amended): atoms are matched by exact string equality, with no normalisation: on a
new engine with one rule, after addFact(fact), runInference fires the rule exactly when the
fact is equal to the antecedent (and the consequent is not that same fact); the returned set
is then the consequent alone, and empty otherwise. -/
theorem runInference_matches_exact_atoms [LinearOrder α] (rule : LogicRule α) (fact : α) :
    ((singleRuleEngine rule fact).runInference.derived = [rule.consequent] ↔
      fact = rule.antecedent ∧ rule.consequent ≠ fact) ∧
    ((singleRuleEngine rule fact).runInference.derived = [] ↔
      ¬ (fact = rule.antecedent ∧ rule.consequent ≠ fact)) := by
  rw [singleRule_run]
  by_cases h : fact = rule.antecedent ∧ rule.consequent ≠ fact
  · simp [h]
  · simp [h]

/-! ## Student transitions: the enrolled and completed sets, and the credit total -/

section StudentOps
variable [LinearOrder α]

theorem Student.run_cons (s : Student α) (op : StudentOp α) (ops : List (StudentOp α)) :
    s.run (op :: ops) = (s.step op).run ops := rfl

theorem Student.run_disjoint (ops : List (StudentOp α)) :
    ∀ s : Student α, s.enrolledCourses.Nodup →
      (∀ c ∈ s.enrolledCourses, c ∉ s.completedCourses) →
      NoEnrolAfterComplete s ops →
      ∀ c ∈ (s.run ops).enrolledCourses, c ∉ (s.run ops).completedCourses := by
  induction ops with
  | nil => intro s _ hd _; exact hd
  | cons op ops ih =>
    intro s hn hd hg
    rw [Student.run_cons]
    cases op with
    | enroll c k =>
      obtain ⟨hc, hg⟩ := hg
      refine ih _ (nodup_setInsert c _ hn) ?_ hg
      intro x hx
      simp only [Student.step, Student.enrollCourse] at hx ⊢
      rcases (mem_setInsert c x _).1 hx with h | h
      · subst h; exact hc
      · exact hd x h
    | complete c k =>
      refine ih _ (hn.erase c) ?_ hg
      intro x hx
      simp only [Student.step, Student.completeCourse] at hx ⊢
      rw [hn.mem_erase_iff] at hx
      rw [mem_setInsert]
      rintro (h | h)
      · exact hx.1 h
      · exact hd x hx.2 h
    | drop c k =>
      refine ih _ (hn.erase c) ?_ hg
      intro x hx
      simp only [Student.step, Student.dropCourse] at hx ⊢
      exact hd x (List.mem_of_mem_erase hx)

end StudentOps

/-- Counterexample to C21 as stated: completing a course and then enrolling in it again
leaves the course in the enrolled set and in the completed set at once. -/
theorem enrollCourse_after_completeCourse_in_both_sets :
    "CS101" ∈ ((Student.new "S101").run
        [.complete "CS101" 3, .enroll "CS101" 3]).enrolledCourses ∧
    "CS101" ∈ ((Student.new "S101").run
        [.complete "CS101" 3, .enroll "CS101" 3]).completedCourses := by
  simp [Student.run, Student.step, Student.new, Student.completeCourse, Student.enrollCourse,
    setInsert_nil]

/-- C21 (amended): starting from a new student, after every finite sequence of enrollCourse,
completeCourse and dropCourse calls in which no enrollCourse names a course that is in the
completed set at the time of the call, no course is both enrolled and completed. -/
theorem enrolled_completed_disjoint_when_guarded [LinearOrder α] (id : α)
    (ops : List (StudentOp α)) (hg : NoEnrolAfterComplete (Student.new id) ops) :
    ∀ c ∈ ((Student.new id).run ops).enrolledCourses,
      c ∉ ((Student.new id).run ops).completedCourses :=
  Student.run_disjoint ops (Student.new id) List.nodup_nil (fun _ h => nomatch h) hg

/-- Witness for the amended C21: complete course 1, enrol in course 2, complete course 2. -/
theorem enrolled_completed_disjoint_when_guarded_witness :
    NoEnrolAfterComplete (Student.new 101) [.complete 1 3, .enroll 2 3, .complete 2 3] ∧
    ∀ c ∈ ((Student.new 101).run
        [.complete 1 3, .enroll 2 3, .complete 2 3]).enrolledCourses,
      c ∉ ((Student.new 101).run
        [.complete 1 3, .enroll 2 3, .complete 2 3]).completedCourses :=
  ⟨by simp [NoEnrolAfterComplete, Student.step, Student.new, Student.completeCourse,
      Student.enrollCourse, setInsert_nil],
   enrolled_completed_disjoint_when_guarded 101 _
    (by simp [NoEnrolAfterComplete, Student.step, Student.new, Student.completeCourse,
      Student.enrollCourse, setInsert_nil])⟩

/-- C22 fails on the code: on the test data's own sequence completeCourse(CS101, 3) then
enrollCourse(CS102, 3), where each course is passed its own credit value, the student ends
enrolled in CS102 alone, whose credits are 3, with a credit total of 0; the third test
student ends with a total of -3. -/
theorem completeCourse_subtracts_credits_never_added :
    FixedCredits testCredits [.complete "CS101" 3, .enroll "CS102" 3] ∧
    ((Student.new "S101").run
        [.complete "CS101" 3, .enroll "CS102" 3]).enrolledCourses = ["CS102"] ∧
    enrolledCreditSum testCredits ((Student.new "S101").run
        [.complete "CS101" 3, .enroll "CS102" 3]) = 3 ∧
    ((Student.new "S101").run
        [.complete "CS101" 3, .enroll "CS102" 3]).currentCredits = 0 ∧
    ((Student.new "S103").run
        [.complete "CS101" 3, .complete "CS102" 3, .enroll "CS201" 3]).currentCredits
      = -3 := by
  refine ⟨?_, ?_, ?_, ?_, ?_⟩
  · simp [FixedCredits, testCredits]
  · simp [Student.run, Student.step, Student.new, Student.completeCourse,
      Student.enrollCourse, setInsert_nil]
  · simp [enrolledCreditSum, testCredits, Student.run, Student.step, Student.new,
      Student.completeCourse, Student.enrollCourse, setInsert_nil]
  · simp [Student.run, Student.step, Student.new, Student.completeCourse,
      Student.enrollCourse]
  · simp [Student.run, Student.step, Student.new, Student.completeCourse,
      Student.enrollCourse]

/-! ## The enrolment fact of the unit test, and the order of the rule list -/

theorem enrolmentFact_ne_enrolled (S C C1 : String) :
    "student_enrolled(" ++ S ++ ", " ++ C ++ ")" ≠ "enrolled(" ++ C1 ++ ")" := by
  intro h
  have := congrArg String.data h
  simp at this

theorem enrolmentFact_ne_teaches (S C F C2 : String) :
    "student_enrolled(" ++ S ++ ", " ++ C ++ ")" ≠ "teaches(" ++ F ++ ", " ++ C2 ++ ")" := by
  intro h
  have := congrArg String.data h
  simp at this

/-- C23 fails on the code: for every student S and courses C and P, the engine holding the
rule of addCourseRule(C, P) and the fact "student_enrolled(S, C)", with or without a faculty
rule, has no rule whose antecedent is that fact, and runInference returns the empty set; so
does the unit test's own case, which asserts a non-empty result. -/
theorem runInference_derives_nothing_from_enrolment_fact (S C P F C2 R : String) :
    (enrolmentFactEngine S C P).runInference.derived = [] ∧
    (enrolmentFactEngineWithFaculty S C P F C2 R).runInference.derived = [] ∧
    (enrolmentFactEngineWithFaculty "S101" "CS102" "CS101" "F101" "CS101"
      "R101").runInference.derived.length = 0 := by
  have h1 : ∀ S C P : String, (enrolmentFactEngine S C P).runInference.derived = [] := by
    intro S C P
    apply (runInference_of_closed _ _).1
    intro r hr hant
    exfalso
    have hf : (enrolmentFactEngine S C P).facts
        = ["student_enrolled(" ++ S ++ ", " ++ C ++ ")"] := by
      simp [enrolmentFactEngine, LogicEngine.addFact, LogicEngine.addCourseRule,
        setInsert_nil]
    have hr2 : r.antecedent = "enrolled(" ++ C ++ ")" := by
      have : r ∈ (enrolmentFactEngine S C P).rules := hr
      simp [enrolmentFactEngine, LogicEngine.addFact, LogicEngine.addCourseRule] at this
      rw [this]
    have hant2 : r.antecedent ∈ (enrolmentFactEngine S C P).facts := hant
    rw [hf, List.mem_singleton, hr2] at hant2
    exact enrolmentFact_ne_enrolled S C C hant2.symm
  have h2 : ∀ S C P F C2 R : String,
      (enrolmentFactEngineWithFaculty S C P F C2 R).runInference.derived = [] := by
    intro S C P F C2 R
    apply (runInference_of_closed _ _).1
    intro r hr hant
    exfalso
    have hf : (enrolmentFactEngineWithFaculty S C P F C2 R).facts
        = ["student_enrolled(" ++ S ++ ", " ++ C ++ ")"] := by
      simp [enrolmentFactEngineWithFaculty, LogicEngine.addFact, LogicEngine.addCourseRule,
        LogicEngine.addFacultyRule, setInsert_nil]
    have hr2 : r.antecedent = "enrolled(" ++ C ++ ")" ∨
        r.antecedent = "teaches(" ++ F ++ ", " ++ C2 ++ ")" := by
      have : r ∈ (enrolmentFactEngineWithFaculty S C P F C2 R).rules := hr
      simp [enrolmentFactEngineWithFaculty, LogicEngine.addFact, LogicEngine.addCourseRule,
        LogicEngine.addFacultyRule] at this
      rcases this with h | h
      · left; rw [h]
      · right; rw [h]
    have hant2 : r.antecedent ∈ (enrolmentFactEngineWithFaculty S C P F C2 R).facts := hant
    rw [hf, List.mem_singleton] at hant2
    rcases hr2 with h | h
    · rw [h] at hant2
      exact enrolmentFact_ne_enrolled S C C hant2.symm
    · rw [h] at hant2
      exact enrolmentFact_ne_teaches S C F C2 hant2.symm
  refine ⟨h1 S C P, h2 S C P F C2 R, ?_⟩
  rw [h2]
  rfl

theorem forwardChainEngine101_run :
    ∃ F D, inferLoop (forwardChainRules 101) 100 [0] [] true = (F, D, false) ∧
      ChainUpTo 101 F D := by
  obtain ⟨F, D, ch, h1, h2, h3⟩ := forwardFold 101 0 [0] [] false chainUpTo_init
  have hch : ch = true := h3 (by omega)
  subst hch
  have hpass : inferPass (forwardChainRules 101) [0] [] = (F, D, true) := by
    unfold inferPass forwardChainRules
    rw [List.range_eq_range']
    exact h1
  have h101 : ChainUpTo 101 F D := by simpa using h2
  refine ⟨F, D, ?_, h101⟩
  rw [inferLoop]
  simp only [if_true]
  rw [hpass]
  apply inferLoop_of_no_fire (forwardChainRules 101) F D 98
  intro r hr
  simp only [forwardChainRules, List.mem_map, List.mem_range] at hr
  obtain ⟨i, hi, rfl⟩ := hr
  exact chainUpTo_no_fire 101 i F D h101 (by omega)

/-- C24: the result of runInference depends on the order of the rule list. The chain of the
101 rules i -> i+1 (i = 0..100) in reverse order is a permutation of the same chain in
forward order and both engines start from the single fact 0; the forward order derives all
of 1..101, the reverse order derives only 1..100, so the two derived sets differ. -/
theorem runInference_depends_on_rule_order :
    reverseChainEngine.rules.Perm forwardChainEngine101.rules ∧
    reverseChainEngine.facts = forwardChainEngine101.facts ∧
    (∀ x, x ∈ forwardChainEngine101.runInference.derived ↔ 1 ≤ x ∧ x ≤ 101) ∧
    (∀ x, x ∈ reverseChainEngine.runInference.derived ↔ 1 ≤ x ∧ x ≤ 100) ∧
    forwardChainEngine101.runInference.derived ≠ reverseChainEngine.runInference.derived := by
  obtain ⟨F, D, h1, -, hD, -⟩ := reverseChainEngine_run
  obtain ⟨F', D', h2, -, hD', -⟩ := forwardChainEngine101_run
  have hr : reverseChainEngine.runInference
      = ⟨⟨reverseChainRules 101, F⟩, D, true⟩ := by
    simp only [LogicEngine.runInference, reverseChainEngine, h1]
  have hf : forwardChainEngine101.runInference
      = ⟨⟨forwardChainRules 101, F'⟩, D', false⟩ := by
    simp only [LogicEngine.runInference, forwardChainEngine101, h2]
  refine ⟨?_, rfl, ?_, ?_, ?_⟩
  · show (reverseChainRules 101).Perm (forwardChainRules 101)
    unfold reverseChainRules forwardChainRules
    exact (List.reverse_perm _).map _
  · rw [hf]; exact hD'
  · rw [hr]; exact hD
  · rw [hr, hf]
    intro h
    have h5 : D' = D := h
    have h3 : (101 : Nat) ∈ D' := (hD' 101).2 ⟨by omega, le_refl _⟩
    have h4 : (101 : Nat) ∈ D := h5 ▸ h3
    have := (hD 101).1 h4
    omega

/-! ## Enumeration over a set that cannot be completed -/

section Stuck
variable [DecidableEq α]

theorem validExt_covers (dm : DataManager α) (ext rem comp : List α) (d : Int)
    (hrem : rem.Nodup) (hd : (rem.length : Int) ≤ d) (h : ValidExt dm ext rem comp d) :
    ∀ x ∈ rem, x ∈ ext := by
  induction ext generalizing rem comp d with
  | nil =>
    have hnil : rem = [] := by
      rcases h with h | h
      · exact h
      · apply List.eq_nil_of_length_eq_zero
        omega
    intro x hx
    rw [hnil] at hx
    exact absurd hx (List.not_mem_nil x)
  | cons c ext ih =>
    obtain ⟨-, helig, hv⟩ := h
    have hcrem : c ∈ rem := ((mem_eligibleCourses dm rem comp c).1 helig).1
    have hlen : ((rem.erase c).length : Int) ≤ d - 1 := by
      rw [List.length_erase_of_mem hcrem]
      have : 0 < rem.length := List.length_pos_of_mem hcrem
      omega
    intro x hx
    by_cases hxc : x = c
    · rw [hxc]; exact List.mem_cons_self _ _
    · exact List.mem_cons_of_mem _
        (ih (rem.erase c) (comp.insert c) (d - 1) (hrem.erase c) hlen hv x
          ((List.mem_erase_of_ne hxc).2 hx))

theorem prereqsFirst_edge_index (dm : DataManager α) (S seq : List α) (hnd : seq.Nodup)
    (hpre : PrereqsFirst dm seq) (hall : ∀ x ∈ S, x ∈ seq) (p c : α)
    (h : EdgeIn dm S p c) : List.indexOf p seq < List.indexOf c seq := by
  obtain ⟨hc, -, course, hcourse, hp⟩ := h
  obtain ⟨l1, l2, hdec⟩ := List.append_of_mem (hall c hc)
  have hp1 : p ∈ l1 := hpre l1 c l2 hdec p (by simp [DataManager.prereqsOf, hcourse, hp])
  have hc1 : c ∉ l1 := by
    intro hc1
    rw [hdec] at hnd
    exact (List.nodup_append.1 hnd).2.2 hc1 (List.mem_cons_self _ _)
  rw [hdec, List.indexOf_append_of_mem hp1, List.indexOf_append_of_not_mem hc1,
    List.indexOf_cons_self]
  have := List.indexOf_lt_length.2 hp1
  omega

end Stuck

/-- C26: if S contains a course with a prerequisite outside S, an ID missing from the
catalog, or a prerequisite cycle, then for every maxLength that is at least |S| the
enumeration generateValidSequences(S, maxLength) returns the empty list, while
topologicalSort(S) still returns an ordering, which holds every ID of S when the
prerequisite edges inside S have no cycle; for S = {CS102} in the test catalog, where CS102
requires CS101, the enumeration is empty and the ordering is [CS102]. -/
theorem generateValidSequences_empty_when_stuck [DecidableEq α] (dm : DataManager α)
    (S : List α) (maxLength : Int) (hS : S.Nodup)
    (hP : ∀ course ∈ dm.courses, course.prerequisites.Nodup)
    (hbad : (∃ c ∈ S, ∃ p ∈ dm.prereqsOf c, p ∉ S) ∨ (∃ c ∈ S, dm.getCourse c = none) ∨
      (∃ c, Relation.TransGen (EdgeIn dm S) c c))
    (hmax : (S.length : Int) ≤ maxLength) :
    generateValidSequences dm S maxLength = some [] ∧
    (∃ order, topologicalSort dm S = some order ∧
      ((∀ c, ¬ Relation.TransGen (EdgeIn dm S) c c) → ∀ x ∈ S, x ∈ order)) ∧
    generateValidSequences testCatalog ["CS102"] 1 = some [] ∧
    topologicalSort testCatalog ["CS102"] = some ["CS102"] := by
  refine ⟨?_, ?_, by decide, by decide⟩
  · obtain ⟨R, hR, -, hm⟩ := generateSequencesRecursive_spec dm (S.length + 1) S [] [] []
      maxLength hS (by omega)
    have hnil : R = [] := by
      apply List.eq_nil_iff_forall_not_mem.2
      intro seq hseq
      obtain ⟨ext, hs, -, hv⟩ := (hm seq).1 hseq
      have hs2 : ext = seq := by simpa using hs.symm
      subst hs2
      obtain ⟨h1, h2, h3⟩ := validExt_sound dm ext S [] maxLength hS hv
      have hcov := validExt_covers dm ext S [] maxLength hS hmax hv
      have hpre : PrereqsFirst dm ext := by
        intro l1 c l2 hdec p hp
        rcases h3 l1 c l2 hdec p hp with h | h
        · simp at h
        · exact h
      rcases hbad with ⟨c, hc, p, hp, hpS⟩ | ⟨c, hc, hnone⟩ | ⟨c, hcyc⟩
      · obtain ⟨l1, l2, hdec⟩ := List.append_of_mem (hcov c hc)
        have hp1 : p ∈ l1 := hpre l1 c l2 hdec p hp
        exact hpS (h2 p (by rw [hdec]; exact List.mem_append_left _ hp1)).1
      · have := (h2 c (hcov c hc)).2
        rw [hnone] at this
        exact absurd this (by simp)
      · exact acyclic_of_rank (EdgeIn dm S) (fun x => List.indexOf x ext)
          (prereqsFirst_edge_index dm S ext h1 hpre hcov) c hcyc
    rw [hnil] at hR
    simpa [generateValidSequences] using hR
  · obtain ⟨r, d, hr, hinv⟩ := topologicalSort_inv dm S hS hP
    refine ⟨r, hr, ?_⟩
    intro hacyc x hx
    exact KahnInv.complete dm S hacyc d r hinv x hx

/-- Witness for C26: the test catalog and S = {CS102}, whose prerequisite CS101 is outside
S, with maxLength 1. -/
theorem generateValidSequences_empty_when_stuck_witness :
    generateValidSequences testCatalog ["CS102"] 1 = some [] ∧
    (∃ order, topologicalSort testCatalog ["CS102"] = some order ∧
      ((∀ c, ¬ Relation.TransGen (EdgeIn testCatalog ["CS102"]) c c) →
        ∀ x ∈ ["CS102"], x ∈ order)) :=
  ⟨(generateValidSequences_empty_when_stuck testCatalog ["CS102"] 1 (by decide) (by decide)
      (Or.inl ⟨"CS102", by decide, "CS101", by decide, by decide⟩) (by decide)).1,
   (generateValidSequences_empty_when_stuck testCatalog ["CS102"] 1 (by decide) (by decide)
      (Or.inl ⟨"CS102", by decide, "CS101", by decide, by decide⟩) (by decide)).2.1⟩

/-! ## The closure loop doubles the chain length covered -/

theorem IsChain.append {R : List (Pair α)} {ps qs : List (Pair α)} {a b c : α}
    (h1 : IsChain R ps a b) (h2 : IsChain R qs b c) : IsChain R (ps ++ qs) a c := by
  induction ps generalizing a with
  | nil =>
    have hab : a = b := h1
    subst hab
    exact h2
  | cons p ps ih =>
    obtain ⟨hp, hf, hrest⟩ := h1
    exact ⟨hp, hf, ih hrest⟩

theorem IsChain.split {R : List (Pair α)} (ps qs : List (Pair α)) {a c : α}
    (h : IsChain R (ps ++ qs) a c) : ∃ b, IsChain R ps a b ∧ IsChain R qs b c := by
  induction ps generalizing a with
  | nil => exact ⟨a, rfl, h⟩
  | cons p ps ih =>
    obtain ⟨hp, hf, hrest⟩ := h
    obtain ⟨b, h1, h2⟩ := ih hrest
    exact ⟨b, ⟨hp, hf, h1⟩, h2⟩

theorem IsChain.mem_of_transitive {R T : List (Pair α)} (hT : TransitiveRel T)
    (hsub : ∀ p ∈ R, p ∈ T) {ps : List (Pair α)} {a c : α} (h : IsChain R ps a c)
    (hne : ps ≠ []) : (⟨a, c⟩ : Pair α) ∈ T := by
  induction ps generalizing a with
  | nil => exact absurd rfl hne
  | cons p ps ih =>
    obtain ⟨hp, hf, hrest⟩ := h
    have hpT : (⟨a, p.second⟩ : Pair α) ∈ T := by
      have := hsub p hp
      rw [← hf]
      exact this
    cases ps with
    | nil =>
      have : p.second = c := hrest
      rw [← this]
      exact hpT
    | cons q qs => exact hT a p.second c hpT (ih hrest (by simp))

theorem IsChain.suffix_from {R : List (Pair α)} {ps : List (Pair α)} {a c x : α}
    (h : IsChain R ps a c) (hx : x ∈ ps.map Pair.first) :
    ∃ qs, qs ≠ [] ∧ IsChain R qs x c ∧ qs <:+ ps := by
  induction ps generalizing a with
  | nil => simp at hx
  | cons p ps ih =>
    obtain ⟨hp, hf, hrest⟩ := h
    simp only [List.map_cons, List.mem_cons] at hx
    rcases hx with hx | hx
    · exact ⟨p :: ps, by simp, ⟨hp, hx.symm, hrest⟩, List.suffix_refl _⟩
    · obtain ⟨qs, h1, h2, h3⟩ := ih hrest hx
      exact ⟨qs, h1, h2, h3.trans (List.suffix_cons p ps)⟩

theorem IsChain.exists_nodup {R : List (Pair α)} {ps : List (Pair α)} {a c : α}
    (h : IsChain R ps a c) (hne : ps ≠ []) :
    ∃ qs, qs ≠ [] ∧ IsChain R qs a c ∧ (qs.map Pair.first).Nodup := by
  induction ps generalizing a with
  | nil => exact absurd rfl hne
  | cons p ps ih =>
    obtain ⟨hp, hf, hrest⟩ := h
    cases hps : ps with
    | nil =>
      subst hps
      exact ⟨[p], by simp, ⟨hp, hf, hrest⟩, by simp⟩
    | cons q qs0 =>
      obtain ⟨qs, h1, h2, h3⟩ := ih hrest (by simp [hps])
      by_cases ha : a ∈ qs.map Pair.first
      · obtain ⟨rs, g1, g2, g3⟩ := h2.suffix_from ha
        refine ⟨rs, g1, g2, ?_⟩
        exact h3.sublist ((g3.sublist).map Pair.first)
      · refine ⟨p :: qs, by simp, ⟨hp, hf, h2⟩, ?_⟩
        simp only [List.map_cons, List.nodup_cons]
        exact ⟨by rw [hf]; exact ha, h3⟩

theorem IsChain.sources_mem {R : List (Pair α)} {ps : List (Pair α)} {a c : α}
    (h : IsChain R ps a c) : ∀ x ∈ ps.map Pair.first, x ∈ R.map Pair.first := by
  induction ps generalizing a with
  | nil => simp
  | cons p ps ih =>
    obtain ⟨hp, -, hrest⟩ := h
    intro x hx
    simp only [List.map_cons, List.mem_cons] at hx
    rcases hx with rfl | hx
    · exact List.mem_map_of_mem _ hp
    · exact ih hrest x hx

/-- Any two identifiers joined by a non-empty chain are joined by one of at most |R| pairs. -/
theorem IsChain.exists_short [DecidableEq α] {R : List (Pair α)} {ps : List (Pair α)}
    {a c : α} (h : IsChain R ps a c) (hne : ps ≠ []) :
    ∃ qs, IsChain R qs a c ∧ 1 ≤ qs.length ∧ qs.length ≤ R.length := by
  obtain ⟨qs, h1, h2, h3⟩ := h.exists_nodup hne
  refine ⟨qs, h2, List.length_pos.2 h1, ?_⟩
  have := (h3.subperm h2.sources_mem).length_le
  simpa using this

theorem coversChains_base (R : List (Pair α)) : CoversChains R R 1 := by
  intro a c
  constructor
  · intro h
    exact ⟨[⟨a, c⟩], ⟨h, rfl, rfl⟩, by simp, by simp⟩
  · rintro ⟨ps, h, h1, h2⟩
    match ps, h, h1, h2 with
    | [p], h, _, _ =>
      obtain ⟨hp, hf, hs⟩ := h
      have hs2 : p.second = c := hs
      have : p = ⟨a, c⟩ := by
        cases p
        simp_all
      rw [← this]
      exact hp
    | _ :: _ :: _, _, _, h2 => simp at h2

theorem coversChains_of_transitive (R T : List (Pair α)) (m k : Nat) (hmk : m ≤ k)
    (h : CoversChains R T m) (hm : 1 ≤ m) (hT : TransitiveRel T) : CoversChains R T k := by
  intro a c
  constructor
  · intro hac
    obtain ⟨ps, g1, g2, g3⟩ := (h a c).1 hac
    exact ⟨ps, g1, g2, by omega⟩
  · rintro ⟨ps, g1, g2, -⟩
    have hsub : ∀ p ∈ R, p ∈ T := by
      intro p hp
      have := (h p.first p.second).2 ⟨[p], ⟨hp, rfl, rfl⟩, by simp, by simpa using hm⟩
      exact this
    exact g1.mem_of_transitive hT hsub (by
      intro h0
      rw [h0] at g2
      simp at g2)

theorem transitive_of_coversChains [DecidableEq α] (R T : List (Pair α)) (m : Nat)
    (h : CoversChains R T m) (hR : R.length ≤ m) : TransitiveRel T := by
  intro a b c hab hbc
  obtain ⟨ps, g1, g2, -⟩ := (h a b).1 hab
  obtain ⟨qs, k1, -, -⟩ := (h b c).1 hbc
  obtain ⟨rs, r1, r2, r3⟩ := (g1.append k1).exists_short (by
    intro h0
    have h1 : (ps ++ qs).length = 0 := by rw [h0]; rfl
    rw [List.length_append] at h1
    omega)
  exact (h a c).2 ⟨rs, r1, r2, by omega⟩

section Doubling
variable [LinearOrder α]

theorem coversChains_pass (R T : List (Pair α)) (m : Nat) (h : CoversChains R T m) :
    CoversChains R (closurePass T).1 (2 * m) := by
  intro a c
  rw [mem_closurePass]
  constructor
  · rintro (hT | ⟨p1, h1, p2, h2, h3, h4⟩)
    · obtain ⟨ps, g1, g2, g3⟩ := (h a c).1 hT
      exact ⟨ps, g1, g2, by omega⟩
    · obtain ⟨ps, g1, g2, g3⟩ := (h p1.first p1.second).1 h1
      obtain ⟨qs, k1, k2, k3⟩ := (h p2.first p2.second).1 h2
      have ha : a = p1.first := congrArg Pair.first h4
      have hc : c = p2.second := congrArg Pair.second h4
      rw [ha, hc]
      rw [h3] at g1
      exact ⟨ps ++ qs, g1.append k1, by rw [List.length_append]; omega,
        by rw [List.length_append]; omega⟩
  · rintro ⟨ps, g1, g2, g3⟩
    by_cases hm : ps.length ≤ m
    · exact Or.inl ((h a c).2 ⟨ps, g1, g2, hm⟩)
    · right
      have hsplit : ps = ps.take m ++ ps.drop m := (List.take_append_drop m ps).symm
      rw [hsplit] at g1
      obtain ⟨b, k1, k2⟩ := IsChain.split _ _ g1
      have hl1 : (ps.take m).length = m := by rw [List.length_take]; omega
      have hl2 : (ps.drop m).length = ps.length - m := List.length_drop m ps
      have hab : (⟨a, b⟩ : Pair α) ∈ T := (h a b).2 ⟨_, k1, by omega, by omega⟩
      have hbc : (⟨b, c⟩ : Pair α) ∈ T := (h b c).2 ⟨_, k2, by omega, by omega⟩
      exact ⟨⟨a, b⟩, hab, ⟨b, c⟩, hbc, rfl, rfl⟩

theorem closureLoop_covers (R : List (Pair α)) (n : Nat) (T : List (Pair α)) (ch : Bool)
    (m : Nat) (hm : 1 ≤ m) (h : CoversChains R T m) (hch : ch = false → TransitiveRel T) :
    CoversChains R (closureLoop n T ch).1 (m * 2 ^ n) := by
  induction n generalizing T ch m with
  | zero => simpa [closureLoop] using h
  | succ n ih =>
    rw [closureLoop]
    cases ch with
    | false =>
      simp only [Bool.false_eq_true, if_false]
      exact coversChains_of_transitive R T m _ (Nat.le_mul_of_pos_right m (by positivity)) h hm
        (hch rfl)
    | true =>
      simp only [if_true]
      have := ih (closurePass T).1 (closurePass T).2 (2 * m) (by omega)
        (coversChains_pass R T m h) (fun hc => by
          have ht := (closurePass_changed_false_iff T).1 hc
          rw [closurePass_of_transitive T ht]
          exact ht)
      rw [show m * 2 ^ (n + 1) = 2 * m * 2 ^ n by ring]
      exact this

theorem closureLoop_succ_end (n : Nat) (T : List (Pair α)) (ch : Bool) :
    closureLoop (n + 1) T ch
      = if (closureLoop n T ch).2 = true then closurePass (closureLoop n T ch).1
        else closureLoop n T ch := by
  induction n generalizing T ch with
  | zero =>
    cases ch <;> simp [closureLoop]
  | succ n ih =>
    rw [closureLoop]
    cases ch with
    | false => simp [closureLoop]
    | true =>
      simp only [if_true]
      rw [ih]
      conv_rhs => rw [closureLoop]
      simp

end Doubling

theorem closureLoop_stable [LinearOrder α] (R : List (Pair α)) (m j : Nat)
    (ht : TransitiveRel (closureLoop m R true).1) :
    (closureLoop (m + j) R true).1 = (closureLoop m R true).1 := by
  induction j with
  | zero => rfl
  | succ j ih =>
    rw [← Nat.add_assoc, closureLoop_succ_end]
    split
    · rw [ih, closurePass_of_transitive _ ht]
    · exact ih

/-- C30: each pass of the closure loop doubles the chain length covered. For every finite
relation R and every k, the relation accumulated after k passes (or at the earlier fixed
point) is exactly the set of pairs joined by a chain of at least 1 and at most 2^k
consecutive pairs of R. Hence the 100-pass cap is not what stops the loop for a relation
with fewer than 2^100 pairs: the relation returned is transitive and is the one the loop
returns with any larger cap; and for a relation of at most 2^99 pairs, which covers every
relation a std::set can hold (its size is a size_t), the loop ends with changed = false,
on a pass that added no pair. -/
theorem closureLoop_doubles_chain_length [LinearOrder α] (R : List (Pair α)) :
    (∀ k a c, (⟨a, c⟩ : Pair α) ∈ (closureLoop k R true).1 ↔
      ∃ ps, IsChain R ps a c ∧ 1 ≤ ps.length ∧ ps.length ≤ 2 ^ k) ∧
    (R.length < 2 ^ 100 →
      TransitiveRel (transitiveClosure R) ∧
      ∀ n, 100 ≤ n → (closureLoop n R true).1 = transitiveClosure R) ∧
    (R.length ≤ 2 ^ 99 → (transitiveClosureLoop R).2 = false) := by
  have hcov : ∀ k, CoversChains R (closureLoop k R true).1 (2 ^ k) := by
    intro k
    have := closureLoop_covers R k R true 1 (le_refl 1) (coversChains_base R) (by simp)
    rwa [one_mul] at this
  refine ⟨fun k a c => hcov k a c, ?_, ?_⟩
  · intro hR
    have ht : TransitiveRel (closureLoop 100 R true).1 :=
      transitive_of_coversChains R _ _ (hcov 100) (le_of_lt hR)
    refine ⟨ht, ?_⟩
    intro n hn
    obtain ⟨j, rfl⟩ : ∃ j, n = 100 + j := ⟨n - 100, by omega⟩
    exact closureLoop_stable R 100 j ht
  · intro hR
    have ht : TransitiveRel (closureLoop 99 R true).1 :=
      transitive_of_coversChains R _ _ (hcov 99) hR
    show (closureLoop (99 + 1) R true).2 = false
    rw [closureLoop_succ_end]
    split
    · rw [closurePass_of_transitive _ ht]
    · rename_i hne
      simpa using hne

/-- Witness for C30: the chain 1 -> 2 -> 3 -> 4 of three pairs. -/
theorem closureLoop_doubles_chain_length_witness :
    ([⟨1, 2⟩, ⟨2, 3⟩, ⟨3, 4⟩] : List (Pair Nat)).length < 2 ^ 100 ∧
    (TransitiveRel (transitiveClosure ([⟨1, 2⟩, ⟨2, 3⟩, ⟨3, 4⟩] : List (Pair Nat))) ∧
      ∀ n, 100 ≤ n → (closureLoop n ([⟨1, 2⟩, ⟨2, 3⟩, ⟨3, 4⟩] : List (Pair Nat)) true).1
        = transitiveClosure ([⟨1, 2⟩, ⟨2, 3⟩, ⟨3, 4⟩] : List (Pair Nat))) ∧
    (transitiveClosureLoop ([⟨1, 2⟩, ⟨2, 3⟩, ⟨3, 4⟩] : List (Pair Nat))).2 = false :=
  ⟨by norm_num,
   (closureLoop_doubles_chain_length ([⟨1, 2⟩, ⟨2, 3⟩, ⟨3, 4⟩] : List (Pair Nat))).2.1
    (by norm_num),
   (closureLoop_doubles_chain_length ([⟨1, 2⟩, ⟨2, 3⟩, ⟨3, 4⟩] : List (Pair Nat))).2.2
    (by norm_num)⟩

/-- C6: the closure is idempotent. For every relation R of at most 2^100 pairs, which covers
every relation a std::set can hold (its size is a size_t), applying the closure loop to its
own result returns that result unchanged: closure(closure(R)) = closure(R). -/
theorem transitiveClosure_idempotent [LinearOrder α] (R : List (Pair α))
    (hsize : R.length ≤ 2 ^ 100) :
    transitiveClosure (transitiveClosure R) = transitiveClosure R := by
  have hcov : CoversChains R (closureLoop 100 R true).1 (2 ^ 100) := by
    have := closureLoop_covers R 100 R true 1 (le_refl 1) (coversChains_base R) (by simp)
    rwa [one_mul] at this
  exact transitiveClosure_of_transitive _ (transitive_of_coversChains R _ _ hcov hsize)

/-- Witness for C6: the chain 1 -> 2 -> 3 -> 4 of three pairs. -/
theorem transitiveClosure_idempotent_witness :
    ([⟨1, 2⟩, ⟨2, 3⟩, ⟨3, 4⟩] : List (Pair Nat)).length ≤ 2 ^ 100 ∧
    transitiveClosure (transitiveClosure ([⟨1, 2⟩, ⟨2, 3⟩, ⟨3, 4⟩] : List (Pair Nat)))
      = transitiveClosure ([⟨1, 2⟩, ⟨2, 3⟩, ⟨3, 4⟩] : List (Pair Nat)) :=
  ⟨by norm_num, transitiveClosure_idempotent _ (by norm_num)⟩

/-! ## The prerequisite walk and the closure of the prerequisite relation -/

section Walk
variable [LinearOrder α]

theorem unvisited_mono (L V V1 : List α) (h : ∀ x ∈ V, x ∈ V1) :
    (L.filter (fun x => decide (x ∉ V1))).length ≤ (L.filter (fun x => decide (x ∉ V))).length := by
  induction L with
  | nil => simp
  | cons a L ih =>
    by_cases h1 : a ∈ V1
    · rw [List.filter_cons_of_neg (by simpa using h1)]
      by_cases h2 : a ∈ V
      · rw [List.filter_cons_of_neg (by simpa using h2)]
        exact ih
      · rw [List.filter_cons_of_pos (by simpa using h2), List.length_cons]
        omega
    · have h2 : a ∉ V := fun h2 => h1 (h a h2)
      rw [List.filter_cons_of_pos (by simpa using h1),
        List.filter_cons_of_pos (by simpa using h2), List.length_cons, List.length_cons]
      omega

theorem unvisited_insert_lt (L V : List α) (c : α) (hc : c ∈ L) (hV : c ∉ V) :
    (L.filter (fun x => decide (x ∉ V.insert c))).length
      < (L.filter (fun x => decide (x ∉ V))).length := by
  induction L with
  | nil => simp at hc
  | cons a L ih =>
    by_cases hac : a = c
    · subst hac
      have hmono := unvisited_mono L V (V.insert a) (fun x hx => List.mem_insert_of_mem hx)
      rw [List.filter_cons_of_neg (by simp),
        List.filter_cons_of_pos (by simpa using hV), List.length_cons]
      omega
    · have hcL : c ∈ L := by
        rcases List.mem_cons.1 hc with h | h
        · exact absurd h.symm hac
        · exact h
      have := ih hcL
      by_cases h2 : a ∈ V
      · rw [List.filter_cons_of_neg (by simp [h2]),
          List.filter_cons_of_neg (by simpa using h2)]
        exact this
      · rw [List.filter_cons_of_pos (by simp [hac, h2]),
          List.filter_cons_of_pos (by simpa using h2), List.length_cons, List.length_cons]
        omega

theorem collectPrerequisitesLoop_spec (dm : DataManager α) (N : Nat)
    (walk : α → List α × List α → Option (List α × List α))
    (hw : ∀ p st, (dm.courseIDs.filter (fun x => decide (x ∉ st.2))).length ≤ N →
      ∃ st1, walk p st = some st1 ∧ WalkSpec dm [p] [] st st1)
    (ps : List α) (st : List α × List α)
    (h : (dm.courseIDs.filter (fun x => decide (x ∉ st.2))).length ≤ N) :
    ∃ st1, collectPrerequisitesLoop walk ps st = some st1 ∧ WalkSpec dm ps ps st st1 := by
  induction ps generalizing st with
  | nil =>
    refine ⟨st, rfl, ⟨fun _ h => h, fun _ h => h, by simp, by simp, fun p hp => Or.inl hp,
      fun v hv => Or.inl hv, fun v hv hn => absurd hv hn, fun h => h⟩⟩
  | cons p rest ih =>
    obtain ⟨st1, h1, s1⟩ := hw p (setInsert p st.1, st.2) h
    have hN1 : (dm.courseIDs.filter (fun x => decide (x ∉ st1.2))).length ≤ N :=
      le_trans (unvisited_mono _ _ _ s1.subV) h
    obtain ⟨st2, h2, s2⟩ := ih st1 hN1
    refine ⟨st2, by simp only [collectPrerequisitesLoop, h1, h2], ?_⟩
    have hA01 : ∀ x ∈ setInsert p st.1, x ∈ st1.1 := s1.subA
    refine ⟨fun x hx => s2.subV x (s1.subV x hx), ?_, ?_, ?_, ?_, ?_, ?_, ?_⟩
    · intro x hx
      exact s2.subA x (hA01 x ((mem_setInsert p x _).2 (Or.inr hx)))
    · intro r hr
      rcases List.mem_cons.1 hr with rfl | hr
      · exact s2.subV _ (s1.roots_visited _ (by simp))
      · exact s2.roots_visited r hr
    · intro x hx
      rcases List.mem_cons.1 hx with rfl | hx
      · exact s2.subA _ (hA01 _ ((mem_setInsert _ _ _).2 (Or.inl rfl)))
      · exact s2.extra_in x hx
    · intro x hx
      rcases s2.sound x hx with h3 | h3 | ⟨v, hv, hv1, hreq⟩
      · rcases s1.sound x h3 with h4 | h4 | ⟨v, hv, hv0, hreq⟩
        · rcases (mem_setInsert p x _).1 h4 with h5 | h5
          · exact Or.inr (Or.inl (by simp [h5]))
          · exact Or.inl h5
        · simp at h4
        · exact Or.inr (Or.inr ⟨v, s2.subV v hv, hv0, hreq⟩)
      · exact Or.inr (Or.inl (List.mem_cons_of_mem _ h3))
      · exact Or.inr (Or.inr ⟨v, hv, fun h0 => hv1 (s1.subV v h0), hreq⟩)
    · intro v hv
      rcases s2.reach v hv with h3 | ⟨r, hr, hrv⟩
      · rcases s1.reach v h3 with h4 | ⟨r, hr, hrv⟩
        · exact Or.inl h4
        · simp only [List.mem_singleton] at hr
          subst hr
          exact Or.inr ⟨r, by simp, hrv⟩
      · exact Or.inr ⟨r, List.mem_cons_of_mem _ hr, hrv⟩
    · intro v hv hv0 q hq
      by_cases hv1 : v ∈ st1.2
      · obtain ⟨h3, h4⟩ := s1.closed v hv1 hv0 q hq
        exact ⟨s2.subA q h3, s2.subV q h4⟩
      · exact s2.closed v hv hv1 q hq
    · intro hs
      exact s2.sorted (s1.sorted (sorted_setInsert p _ hs))

theorem getAllPrerequisitesRecursive_spec (dm : DataManager α) (fuel : Nat) (c : α)
    (st : List α × List α)
    (h : (dm.courseIDs.filter (fun x => decide (x ∉ st.2))).length < fuel) :
    ∃ st1, getAllPrerequisitesRecursive dm fuel c st = some st1 ∧
      WalkSpec dm [c] [] st st1 := by
  induction fuel generalizing c st with
  | zero => omega
  | succ fuel ih =>
    rw [getAllPrerequisitesRecursive]
    by_cases hc : c ∈ st.2
    · rw [if_pos hc]
      exact ⟨st, rfl, ⟨fun _ h => h, fun _ h => h, by simpa using hc, by simp,
        fun p hp => Or.inl hp, fun v hv => Or.inl hv, fun v hv hn => absurd hv hn,
        fun h => h⟩⟩
    · rw [if_neg hc]
      cases hcourse : dm.getCourse c with
      | none =>
        refine ⟨_, rfl, ⟨fun x hx => List.mem_insert_of_mem hx, fun _ h => h, by simp,
          by simp, fun p hp => Or.inl hp, ?_, ?_, fun h => h⟩⟩
        · intro v hv
          rcases List.mem_insert_iff.1 hv with rfl | hv
          · exact Or.inr ⟨v, by simp, Relation.ReflTransGen.refl⟩
          · exact Or.inl hv
        · intro v hv hv0 q hq
          rcases List.mem_insert_iff.1 hv with rfl | hv
          · obtain ⟨course, h1, -⟩ := (requires_iff dm v q).1 hq
            rw [hcourse] at h1
            exact absurd h1 (by simp)
          · exact absurd hv hv0
      | some course =>
        have hmem : c ∈ dm.courseIDs := by
          obtain ⟨h1, h2⟩ := getCourse_mem dm c course hcourse
          exact List.mem_map.2 ⟨course, h1, h2⟩
        have hlt := unvisited_insert_lt dm.courseIDs st.2 c hmem hc
        obtain ⟨st1, h1, s1⟩ := collectPrerequisitesLoop_spec dm (fuel - 1)
          (getAllPrerequisitesRecursive dm fuel)
          (fun p st0 h0 => ih p st0 (by omega)) course.prerequisites
          (st.1, st.2.insert c) (by simp only; omega)
        refine ⟨st1, h1, ⟨?_, s1.subA, ?_, by simp, ?_, ?_, ?_, s1.sorted⟩⟩
        · intro x hx
          exact s1.subV x (List.mem_insert_of_mem hx)
        · intro r hr
          simp only [List.mem_singleton] at hr
          subst hr
          exact s1.subV r (List.mem_insert_self _ _)
        · intro x hx
          rcases s1.sound x hx with h3 | h3 | ⟨v, hv, hv1, hreq⟩
          · exact Or.inl h3
          · exact Or.inr (Or.inr ⟨c, s1.subV c (List.mem_insert_self _ _), hc,
              (requires_iff dm c x).2 ⟨course, hcourse, h3⟩⟩)
          · exact Or.inr (Or.inr ⟨v, hv, fun h0 => hv1 (List.mem_insert_of_mem h0), hreq⟩)
        · intro v hv
          rcases s1.reach v hv with h3 | ⟨r, hr, hrv⟩
          · rcases List.mem_insert_iff.1 h3 with rfl | h3
            · exact Or.inr ⟨v, by simp, Relation.ReflTransGen.refl⟩
            · exact Or.inl h3
          · exact Or.inr ⟨c, by simp, Relation.ReflTransGen.head
              ((requires_iff dm c r).2 ⟨course, hcourse, hr⟩) hrv⟩
        · intro v hv hv0 q hq
          by_cases hvc : v = c
          · subst hvc
            obtain ⟨course1, g1, g2⟩ := (requires_iff dm v q).1 hq
            rw [hcourse] at g1
            cases g1
            exact ⟨s1.extra_in q g2, s1.roots_visited q g2⟩
          · exact s1.closed v hv (fun h0 => by
              rcases List.mem_insert_iff.1 h0 with h0 | h0
              · exact hvc h0
              · exact hv0 h0) q hq

/-- The walk from a course returns, and collects exactly the direct and indirect
prerequisites of the course, in ascending order. -/
theorem validateIndirectPrerequisites_spec (dm : DataManager α) (c : α) :
    ∃ A, validateIndirectPrerequisites dm c = some A ∧ A.Sorted (· < ·) ∧
      ∀ p, p ∈ A ↔ Relation.TransGen (Requires dm) c p := by
  obtain ⟨st1, h1, s1⟩ := getAllPrerequisitesRecursive_spec dm (dm.courses.length + 1) c
    ([], []) (by
      have := List.length_filter_le (fun x => decide (x ∉ ([] : List α))) dm.courseIDs
      simp only [DataManager.courseIDs, List.length_map] at this ⊢
      omega)
  refine ⟨st1.1, by simp [validateIndirectPrerequisites, h1], s1.sorted List.sorted_nil, ?_⟩
  have hclosed : ∀ v, Relation.ReflTransGen (Requires dm) c v → v ∈ st1.2 := by
    intro v hv
    induction hv with
    | refl => exact s1.roots_visited c (by simp)
    | tail _ hreq ih => exact (s1.closed _ ih (by simp) _ hreq).2
  intro p
  constructor
  · intro hp
    rcases s1.sound p hp with h3 | h3 | ⟨v, hv, -, hreq⟩
    · simp at h3
    · simp at h3
    · rcases s1.reach v hv with h4 | ⟨r, hr, hrv⟩
      · simp at h4
      · simp only [List.mem_singleton] at hr
        subst hr
        exact Relation.TransGen.tail' hrv hreq
  · intro hp
    obtain ⟨v, hcv, hreq⟩ := Relation.TransGen.tail'_iff.1 hp
    exact (s1.closed v (hclosed v hcv) (by simp) p hreq).1

theorem mem_allPrereqsIn (T : List (Pair α)) (c p : α) :
    p ∈ allPrereqsIn T c ↔ (⟨c, p⟩ : Pair α) ∈ T := by
  have key : ∀ (L : List (Pair α)) (acc : List α),
      p ∈ L.foldl (fun allPrereqs q =>
          if q.first = c then setInsert q.second allPrereqs else allPrereqs) acc ↔
        p ∈ acc ∨ (⟨c, p⟩ : Pair α) ∈ L := by
    intro L
    induction L with
    | nil => simp
    | cons q L ih =>
      intro acc
      rw [List.foldl_cons, ih]
      by_cases hq : q.first = c
      · rw [if_pos hq, mem_setInsert, List.mem_cons]
        constructor
        · rintro ((h | h) | h)
          · right; left
            cases q
            simp_all
          · exact Or.inl h
          · exact Or.inr (Or.inr h)
        · rintro (h | h | h)
          · exact Or.inl (Or.inr h)
          · left; left
            rw [← h]
          · exact Or.inr h
      · rw [if_neg hq, List.mem_cons]
        constructor
        · rintro (h | h)
          · exact Or.inl h
          · exact Or.inr (Or.inr h)
        · rintro (h | h | h)
          · exact Or.inl h
          · exact absurd (by rw [← h]) hq
          · exact Or.inr h
  unfold allPrereqsIn
  rw [key]
  simp

theorem allPrereqsIn_sorted (T : List (Pair α)) (c : α) :
    (allPrereqsIn T c).Sorted (· < ·) := by
  have key : ∀ (L : List (Pair α)) (acc : List α), acc.Sorted (· < ·) →
      (L.foldl (fun allPrereqs q =>
          if q.first = c then setInsert q.second allPrereqs else allPrereqs) acc).Sorted
        (· < ·) := by
    intro L
    induction L with
    | nil => intro acc h; exact h
    | cons q L ih =>
      intro acc h
      rw [List.foldl_cons]
      apply ih
      split
      · exact sorted_setInsert _ _ h
      · exact h
  exact key T [] List.sorted_nil

theorem mem_closure_iff_transGen (dm : DataManager α) (hkeys : dm.courseIDs.Nodup)
    (hfix : (closurePass (transitiveClosure (prerequisiteRelation dm))).2 = false) (c p : α) :
    (⟨c, p⟩ : Pair α) ∈ transitiveClosure (prerequisiteRelation dm) ↔
      Relation.TransGen (Requires dm) c p := by
  have htrans : TransitiveRel (transitiveClosure (prerequisiteRelation dm)) :=
    (closurePass_changed_false_iff _).1 hfix
  constructor
  · intro h
    exact closureLoop_least MAX_ITER (prerequisiteRelation dm) true
      (Relation.TransGen (Requires dm)) (fun _ _ _ => Relation.TransGen.trans)
      (fun q hq => Relation.TransGen.single
        (requires_of_mem_prerequisiteRelation dm hkeys q.first q.second hq)) ⟨c, p⟩ h
  · intro h
    have hbase : ∀ a b, Requires dm a b →
        (⟨a, b⟩ : Pair α) ∈ transitiveClosure (prerequisiteRelation dm) := by
      intro a b hab
      obtain ⟨course, hcourse, hb⟩ := (requires_iff dm a b).1 hab
      obtain ⟨h1, h2⟩ := getCourse_mem dm a course hcourse
      exact closureLoop_grows MAX_ITER _ true _
        ((mem_prerequisiteRelation dm a b).2 ⟨course, h1, h2, hb⟩)
    induction h with
    | single h1 => exact hbase _ _ h1
    | tail _ h2 ih => exact htrans _ _ _ ih (hbase _ _ h2)

end Walk

/-- C27: for every catalog, cyclic or not, and every course ID c, the walk
validateIndirectPrerequisites(c) returns, and the set it returns is the set of p such that
(c, p) is in the closure of prerequisiteRelation computed by the closure loop, when that
closure is at its fixed point (one more pass adds no pair). -/
theorem validateIndirectPrerequisites_eq_closure [LinearOrder α] (dm : DataManager α)
    (hkeys : dm.courseIDs.Nodup)
    (hfix : (closurePass (transitiveClosure (prerequisiteRelation dm))).2 = false) (c : α) :
    validateIndirectPrerequisites dm c
      = some (allPrereqsIn (transitiveClosure (prerequisiteRelation dm)) c) := by
  obtain ⟨A, h1, h2, h3⟩ := validateIndirectPrerequisites_spec dm c
  rw [h1]
  congr 1
  apply eq_of_sorted_of_mem_iff A _ h2 (allPrereqsIn_sorted _ c)
  intro p
  rw [h3, mem_allPrereqsIn, mem_closure_iff_transGen dm hkeys hfix]

/-- Witness for C27: the cyclic catalog where 1 requires 2, 2 requires 1 and 3 requires 1,
read at course 3. -/
theorem validateIndirectPrerequisites_eq_closure_witness :
    numberedCycleCatalog.courseIDs.Nodup ∧
    (closurePass (transitiveClosure (prerequisiteRelation numberedCycleCatalog))).2 = false ∧
    validateIndirectPrerequisites numberedCycleCatalog 3
      = some (allPrereqsIn (transitiveClosure (prerequisiteRelation numberedCycleCatalog)) 3) :=
  ⟨by decide, by decide,
    validateIndirectPrerequisites_eq_closure numberedCycleCatalog (by decide) (by decide) 3⟩

/-! ## The work list of topologicalSort is a stack -/

section Lifo
variable [DecidableEq α]

theorem relaxNeighbours_madeEligible (dm : DataManager α) (S : List α) (hS : S.Nodup)
    (hP : ∀ c course, dm.getCourse c = some course → course.prerequisites.Nodup)
    (q : List α) (cur : α) (d : α → Int) (result : List α)
    (h : KahnInv dm S (q ++ [cur]) d result) :
    (relaxNeighbours (S.filter (fun c => decide (cur ∈ predsIn dm S c))) d q).2
      = q ++ madeEligibleBy dm S result cur := by
  rw [(relaxNeighbours_eq _ (hS.filter _) d q).2, List.filter_filter]
  congr 1
  unfold madeEligibleBy
  apply List.filter_congr
  intro c hc
  have hcur_res : cur ∉ result := by
    intro hmem
    exact List.disjoint_of_nodup_append h.nodup hmem (by simp)
  have hnd : (predsIn dm S c).Nodup := by
    unfold predsIn
    cases hcourse : dm.getCourse c with
    | none => simp
    | some course => exact (hP c course hcourse).filter _
  by_cases hcur : cur ∈ predsIn dm S c
  · have hfilt : cur ∈ (predsIn dm S c).filter (fun p => decide (p ∉ result)) := by
      simp [hcur, hcur_res]
    have hiff : d c = 1 ↔ ∀ p ∈ predsIn dm S c, p = cur ∨ p ∈ result := by
      rw [h.deg c hc]
      constructor
      · intro hlen p hp
        by_cases hpr : p ∈ result
        · exact Or.inr hpr
        · left
          have hp2 : p ∈ (predsIn dm S c).filter (fun p => decide (p ∉ result)) := by
            simp [hp, hpr]
          have hl : ((predsIn dm S c).filter (fun p => decide (p ∉ result))).length = 1 := by
            exact_mod_cast hlen
          obtain ⟨a, ha⟩ := List.length_eq_one.1 hl
          rw [ha] at hp2 hfilt
          simp only [List.mem_singleton] at hp2 hfilt
          rw [hp2, hfilt]
      · intro hall
        have hsub : (predsIn dm S c).filter (fun p => decide (p ∉ result)) ⊆ [cur] := by
          intro p hp
          simp only [List.mem_filter, decide_eq_true_eq] at hp
          rcases hall p hp.1 with h1 | h1
          · simp [h1]
          · exact absurd h1 hp.2
        have h1 := ((hnd.filter _).subperm hsub).length_le
        have h2 := List.length_pos_of_mem hfilt
        simp only [List.length_singleton] at h1
        have : ((predsIn dm S c).filter (fun p => decide (p ∉ result))).length = 1 := by
          omega
        exact_mod_cast this
    simp [hcur, hiff]
  · simp [hcur]

theorem kahnLoop_lifo (dm : DataManager α) (S : List α) (hS : S.Nodup)
    (hP : ∀ c course, dm.getCourse c = some course → course.prerequisites.Nodup)
    (adj : α → List α)
    (hadj : ∀ p, adj p = S.filter (fun c => decide (p ∈ predsIn dm S c)))
    (fuel : Nat) (queue : List α) (d : α → Int) (result : List α)
    (h : KahnInv dm S queue d result) (r : List α)
    (hr : kahnLoop adj fuel queue d result = some r) :
    (∃ rest, r = result ++ rest ∧ rest.head? = queue.getLast?) ∧
    (∀ l1 cur rest, r = l1 ++ cur :: rest → result.length ≤ l1.length →
      madeEligibleBy dm S l1 cur ≠ [] →
      rest.head? = (madeEligibleBy dm S l1 cur).getLast?) := by
  induction fuel generalizing queue d result with
  | zero =>
    simp only [kahnLoop] at hr
    split at hr
    · rename_i hq
      cases hr
      subst hq
      refine ⟨⟨[], by simp, rfl⟩, ?_⟩
      intro l1 cur rest hdec hlen
      have := congrArg List.length hdec
      simp only [List.length_append, List.length_cons] at this
      omega
    · cases hr
  | succ fuel ih =>
    rcases List.eq_nil_or_concat queue with hq | ⟨q, cur0, hq⟩
    · subst hq
      simp only [kahnLoop, List.getLast?_nil] at hr
      cases hr
      refine ⟨⟨[], by simp, rfl⟩, ?_⟩
      intro l1 cur rest hdec hlen
      have := congrArg List.length hdec
      simp only [List.length_append, List.length_cons] at this
      omega
    · rw [List.concat_eq_append] at hq
      subst hq
      have hstep := KahnInv.step dm S hS hP q cur0 d result h
      have h1 : (q ++ [cur0]).getLast? = some cur0 := by simp
      have h2 : (q ++ [cur0]).dropLast = q := by simp
      simp only [kahnLoop, h1, h2, hadj] at hr
      obtain ⟨⟨rest1, hr1, hhead1⟩, hb⟩ := ih _ _ _ hstep hr
      refine ⟨⟨cur0 :: rest1, by rw [hr1]; simp, by simp⟩, ?_⟩
      intro l1 cur rest hdec hlen hE
      by_cases hl : result.length + 1 ≤ l1.length
      · exact hb l1 cur rest hdec (by simpa using hl) hE
      · have hlen2 : l1.length = result.length := by omega
        have heq : l1 ++ cur :: rest = result ++ cur0 :: rest1 := by
          rw [← hdec, hr1]; simp
        obtain ⟨e1, e2⟩ := List.append_inj heq hlen2
        simp only [List.cons.injEq] at e2
        obtain ⟨e2, e3⟩ := e2
        subst e1 e2 e3
        rw [hhead1, relaxNeighbours_madeEligible dm S hS hP q _ _ _ h]
        rw [List.getLast?_append_of_ne_nil _ hE]

end Lifo

theorem sorted_le_getLast [LinearOrder α] (l : List α) (hl : l.Sorted (· < ·)) (m : α)
    (hm : l.getLast? = some m) : ∀ x ∈ l, x ≤ m := by
  obtain ⟨ys, rfl⟩ := List.getLast?_eq_some_iff.1 hm
  intro x hx
  rcases List.mem_append.1 hx with h | h
  · exact le_of_lt ((List.pairwise_append.1 hl).2.2 x h m (by simp))
  · simp only [List.mem_singleton] at h
    exact le_of_eq h

theorem kahnInv_init [DecidableEq α] (dm : DataManager α) (S : List α) (hS : S.Nodup)
    (hP : ∀ c course, dm.getCourse c = some course → course.prerequisites.Nodup) :
    KahnInv dm S (S.filter (fun c => decide ((buildGraph dm S).1 c = 0)))
      (buildGraph dm S).1 [] := by
  refine ⟨?_, ?_, ?_, ?_, ?_⟩
  · simpa using hS.filter _
  · intro x hx
    simp only [List.not_mem_nil, false_or, List.mem_filter] at hx
    exact hx.1
  · intro c hc
    simp [buildGraph_fst dm S hS hP, hc]
  · intro c hc
    simp [hc]
  · intro c hc
    simp at hc

/-- C25: the work list of topologicalSort is a stack seeded in ascending ID order. For a set
S given in ascending order, the sort returns an ordering such that, if some course of S has
no prerequisite inside S, the first element is the greatest such course; and whenever the
course emitted at some position makes some of its dependents eligible (it was their last
prerequisite inside S not yet emitted), the next course emitted is the one of them pushed
last, which is the one with the greatest ID. On the diamond where 4 requires 2 and 3, which
both require 1, the ordering is 1, 3, 2, 4. -/
theorem topologicalSort_lifo [LinearOrder α] (dm : DataManager α) (S : List α)
    (hS : S.Sorted (· < ·)) (hP : ∀ course ∈ dm.courses, course.prerequisites.Nodup) :
    (∃ order, topologicalSort dm S = some order ∧
      ((∃ c ∈ S, predsIn dm S c = []) →
        ∃ m, order.head? = some m ∧ m ∈ S ∧ predsIn dm S m = [] ∧
          ∀ c ∈ S, predsIn dm S c = [] → c ≤ m) ∧
      (∀ l1 cur rest, order = l1 ++ cur :: rest → madeEligibleBy dm S l1 cur ≠ [] →
        ∃ next, rest.head? = some next ∧
          (madeEligibleBy dm S l1 cur).getLast? = some next ∧
          ∀ c ∈ madeEligibleBy dm S l1 cur, c ≤ next)) ∧
    topologicalSort numberedCatalog [1, 2, 3, 4] = some [1, 3, 2, 4] := by
  refine ⟨?_, by decide⟩
  have hnd : S.Nodup := hS.nodup
  have hP' : ∀ c course, dm.getCourse c = some course → course.prerequisites.Nodup :=
    fun c course h => hP course (getCourse_mem dm c course h).1
  obtain ⟨order, d, hr, -⟩ := topologicalSort_inv dm S hnd hP
  have hinit := kahnInv_init dm S hnd hP'
  obtain ⟨⟨rest0, h1, h2⟩, hb⟩ := kahnLoop_lifo dm S hnd hP' (buildGraph dm S).2
    (buildGraph_snd dm S hnd hP') S.length _ _ [] hinit order hr
  have hmemQ : ∀ c, c ∈ S.filter (fun c => decide ((buildGraph dm S).1 c = 0)) ↔
      c ∈ S ∧ predsIn dm S c = [] := by
    intro c
    simp only [List.mem_filter, decide_eq_true_eq]
    constructor
    · rintro ⟨hc, h0⟩
      rw [buildGraph_fst dm S hnd hP', if_pos hc] at h0
      exact ⟨hc, List.eq_nil_of_length_eq_zero (by exact_mod_cast h0)⟩
    · rintro ⟨hc, h0⟩
      refine ⟨hc, ?_⟩
      rw [buildGraph_fst dm S hnd hP', if_pos hc, h0]
      rfl
  refine ⟨order, hr, ?_, ?_⟩
  · rintro ⟨c, hc, hc0⟩
    have hne : S.filter (fun c => decide ((buildGraph dm S).1 c = 0)) ≠ [] :=
      List.ne_nil_of_mem ((hmemQ c).2 ⟨hc, hc0⟩)
    obtain ⟨m, hm⟩ : ∃ m, (S.filter
        (fun c => decide ((buildGraph dm S).1 c = 0))).getLast? = some m := by
      rw [← Option.isSome_iff_exists]
      simpa using hne
    have hmQ := List.mem_of_getLast?_eq_some hm
    have hsorted : (S.filter (fun c => decide ((buildGraph dm S).1 c = 0))).Sorted (· < ·) :=
      hS.filter _
    refine ⟨m, ?_, ((hmemQ m).1 hmQ).1, ((hmemQ m).1 hmQ).2, ?_⟩
    · rw [h1, List.nil_append, h2, hm]
    · intro x hx hx0
      exact sorted_le_getLast _ hsorted m hm x ((hmemQ x).2 ⟨hx, hx0⟩)
  · intro l1 cur rest hdec hE
    have hhead := hb l1 cur rest hdec (by simp) hE
    obtain ⟨next, hnext⟩ : ∃ next, (madeEligibleBy dm S l1 cur).getLast? = some next := by
      rw [← Option.isSome_iff_exists]
      simpa using hE
    refine ⟨next, by rw [hhead, hnext], hnext, ?_⟩
    exact sorted_le_getLast _ (hS.filter _) next hnext

/-- Witness for C25: the diamond over numbered courses, where 4 requires 2 and 3, which both
require 1. -/
theorem topologicalSort_lifo_witness :
    ∃ order, topologicalSort numberedCatalog [1, 2, 3, 4] = some order ∧
      ((∃ c ∈ [1, 2, 3, 4], predsIn numberedCatalog [1, 2, 3, 4] c = []) →
        ∃ m, order.head? = some m ∧ m ∈ [1, 2, 3, 4] ∧
          predsIn numberedCatalog [1, 2, 3, 4] m = [] ∧
          ∀ c ∈ [1, 2, 3, 4], predsIn numberedCatalog [1, 2, 3, 4] c = [] → c ≤ m) ∧
      (∀ l1 cur rest, order = l1 ++ cur :: rest →
        madeEligibleBy numberedCatalog [1, 2, 3, 4] l1 cur ≠ [] →
        ∃ next, rest.head? = some next ∧
          (madeEligibleBy numberedCatalog [1, 2, 3, 4] l1 cur).getLast? = some next ∧
          ∀ c ∈ madeEligibleBy numberedCatalog [1, 2, 3, 4] l1 cur, c ≤ next) :=
  (topologicalSort_lifo numberedCatalog [1, 2, 3, 4] (by decide) (by decide)).1

/-! ## The level computation of verifyPrerequisiteChain -/

theorem exists_fuel_bound (P : α → Nat → Prop) (L : List α)
    (h : ∀ p ∈ L, ∃ f0, ∀ fuel, f0 ≤ fuel → P p fuel) :
    ∃ F, ∀ p ∈ L, ∀ fuel, F ≤ fuel → P p fuel := by
  induction L with
  | nil => exact ⟨0, by simp⟩
  | cons a L ih =>
    obtain ⟨F, hF⟩ := ih (fun p hp => h p (by simp [hp]))
    obtain ⟨f0, hf0⟩ := h a (by simp)
    refine ⟨max F f0, ?_⟩
    intro p hp fuel hfuel
    rcases List.mem_cons.1 hp with rfl | hp
    · exact hf0 fuel (le_trans (le_max_right _ _) hfuel)
    · exact hF p hp fuel (le_trans (le_max_left _ _) hfuel)

section Levels
variable [DecidableEq α]

theorem requires_mem_courseIDs (dm : DataManager α) (c p : α) (h : Requires dm c p) :
    c ∈ dm.courseIDs := by
  obtain ⟨course, hcourse, -⟩ := (requires_iff dm c p).1 h
  obtain ⟨h1, h2⟩ := getCourse_mem dm c course hcourse
  exact List.mem_map.2 ⟨course, h1, h2⟩

theorem requires_wf (dm : DataManager α)
    (hacyc : ∀ c, ¬ Relation.TransGen (Requires dm) c c) :
    WellFounded (fun p c => Requires dm c p) := by
  classical
  let β := {x // x ∈ dm.courseIDs}
  let r : β → β → Prop := fun a b => Requires dm b.1 a.1
  have hlift : ∀ a b : β, Relation.TransGen r a b →
      Relation.TransGen (Requires dm) b.1 a.1 := by
    intro a b h
    induction h with
    | single h1 => exact Relation.TransGen.single h1
    | tail _ h2 ih => exact Relation.TransGen.head h2 ih
  haveI : IsTrans β (Relation.TransGen r) := ⟨fun _ _ _ h1 h2 => h1.trans h2⟩
  haveI : IsIrrefl β (Relation.TransGen r) := ⟨fun a h => hacyc a.1 (hlift a a h)⟩
  haveI : Finite β := (List.finite_toSet dm.courseIDs).to_subtype
  have wf : WellFounded (Relation.TransGen r) := Finite.wellFounded_of_trans_of_irrefl _
  have wfr : WellFounded r := Subrelation.wf (fun h => Relation.TransGen.single h) wf
  have hout : ∀ x, x ∉ dm.courseIDs → Acc (fun p c => Requires dm c p) x := by
    intro x hx
    exact Acc.intro x (fun p hp => absurd (requires_mem_courseIDs dm x p hp) hx)
  have hin : ∀ b : β, Acc (fun p c => Requires dm c p) b.1 := by
    intro b
    induction b using wfr.induction with
    | _ b ih =>
      refine Acc.intro b.1 (fun p hp => ?_)
      by_cases hpT : p ∈ dm.courseIDs
      · exact ih ⟨p, hpT⟩ hp
      · exact hout p hpT
  refine ⟨fun x => ?_⟩
  by_cases hx : x ∈ dm.courseIDs
  · exact hin ⟨x, hx⟩
  · exact hout x hx

theorem levelInv_update (dm : DataManager α) (M : α → Option Int) (x : α) (l : Int)
    (hM : LevelInv dm M) (hx : M x = none) (hl : 0 ≤ l)
    (hpos : 1 ≤ l → (dm.getCourse x).isSome)
    (hstep : ∀ p, Requires dm x p → ∃ lp, M p = some lp ∧ lp + 1 ≤ l) :
    LevelInv dm (Function.update M x (some l)) := by
  have hne : ∀ y ly, M y = some ly → y ≠ x := by
    intro y ly hy hyx
    rw [hyx, hx] at hy
    cases hy
  refine ⟨?_, ?_, ?_⟩
  · intro y ly hy
    by_cases hyx : y = x
    · subst hyx
      rw [Function.update_same] at hy
      cases hy
      exact hl
    · rw [Function.update_noteq hyx] at hy
      exact hM.nonneg y ly hy
  · intro y ly hy h1
    by_cases hyx : y = x
    · subst hyx
      rw [Function.update_same] at hy
      cases hy
      exact hpos h1
    · rw [Function.update_noteq hyx] at hy
      exact hM.pos y ly hy h1
  · intro y ly hy p hp
    by_cases hyx : y = x
    · subst hyx
      rw [Function.update_same] at hy
      cases hy
      obtain ⟨lp, h1, h2⟩ := hstep p hp
      exact ⟨lp, by rw [Function.update_noteq (hne p lp h1)]; exact h1, h2⟩
    · rw [Function.update_noteq hyx] at hy
      obtain ⟨lp, h1, h2⟩ := hM.step y ly hy p hp
      exact ⟨lp, by rw [Function.update_noteq (hne p lp h1)]; exact h1, h2⟩

theorem levelSpec_update (dm : DataManager α) (M : α → Option Int) (x : α) (l : Int)
    (hM : LevelInv dm M) (hx : M x = none) (hl : 0 ≤ l)
    (hpos : 1 ≤ l → (dm.getCourse x).isSome)
    (hstep : ∀ p, Requires dm x p → ∃ lp, M p = some lp ∧ lp + 1 ≤ l) :
    LevelSpec dm x M l (Function.update M x (some l)) := by
  refine ⟨Function.update_same _ _ _, levelInv_update dm M x l hM hx hl hpos hstep, ?_, ?_⟩
  · intro y ly hy
    have hyx : y ≠ x := by
      intro hyx
      rw [hyx, hx] at hy
      cases hy
    rw [Function.update_noteq hyx]
    exact hy
  · intro y hy
    by_cases hyx : y = x
    · exact Or.inr (hyx ▸ Relation.ReflTransGen.refl)
    · rw [Function.update_noteq hyx] at hy
      exact Or.inl hy

theorem levelSpec_stored (dm : DataManager α) (M : α → Option Int) (x : α) (l : Int)
    (hM : LevelInv dm M) (hx : M x = some l) : LevelSpec dm x M l M :=
  ⟨hx, hM, fun _ _ h => h, fun _ h => Or.inl h⟩

theorem computeLevelLoop_spec (dm : DataManager α)
    (walk : α → (α → Option Int) → Option (Int × (α → Option Int))) (qs : List α)
    (hw : ∀ q ∈ qs, ∀ M, LevelInv dm M → ∃ l M1, walk q M = some (l, M1) ∧
      LevelSpec dm q M l M1)
    (mx : Int) (M : α → Option Int) (hM : LevelInv dm M) :
    ∃ mx1 M1, computeLevelLoop walk qs mx M = some (mx1, M1) ∧ LevelInv dm M1 ∧ mx ≤ mx1 ∧
      (∀ y ly, M y = some ly → M1 y = some ly) ∧
      (∀ y, M1 y ≠ none → M y ≠ none ∨ ∃ q ∈ qs, Relation.ReflTransGen (Requires dm) q y) ∧
      (∀ q ∈ qs, ∃ lq, M1 q = some lq ∧ lq + 1 ≤ mx1) := by
  induction qs generalizing mx M with
  | nil =>
    exact ⟨mx, M, rfl, hM, le_refl _, fun _ _ h => h, fun _ h => Or.inl h, by simp⟩
  | cons q qs ih =>
    obtain ⟨l, M1, h1, s1⟩ := hw q (by simp) M hM
    obtain ⟨mx2, M2, h2, hM2, hle, hmono, hgrow, hall⟩ :=
      ih (fun q' hq' => hw q' (by simp [hq'])) (max mx (l + 1)) M1 s1.inv
    refine ⟨mx2, M2, by simp only [computeLevelLoop, h1, h2], hM2,
      le_trans (le_max_left _ _) hle, fun y ly hy => hmono y ly (s1.mono y ly hy), ?_, ?_⟩
    · intro y hy
      rcases hgrow y hy with h3 | ⟨q', hq', hr⟩
      · rcases s1.grow y h3 with h4 | h4
        · exact Or.inl h4
        · exact Or.inr ⟨q, by simp, h4⟩
      · exact Or.inr ⟨q', by simp [hq'], hr⟩
    · intro q' hq'
      rcases List.mem_cons.1 hq' with rfl | hq'
      · exact ⟨l, hmono _ _ s1.stored, le_trans (le_max_right _ _) hle⟩
      · exact hall q' hq'

/-- On a catalog without prerequisite cycles, computeLevel returns for every course once the
fuel is large enough, whatever valid map it starts from. -/
theorem computeLevel_spec (dm : DataManager α)
    (hacyc : ∀ c, ¬ Relation.TransGen (Requires dm) c c) (x : α) :
    ∃ f0, ∀ fuel, f0 ≤ fuel → ∀ M, LevelInv dm M →
      ∃ l M1, computeLevel dm fuel x M = some (l, M1) ∧ LevelSpec dm x M l M1 := by
  induction x using (requires_wf dm hacyc).induction with
  | _ x ih =>
    cases hcourse : dm.getCourse x with
    | none =>
      refine ⟨1, ?_⟩
      intro fuel hfuel M hM
      obtain ⟨f, rfl⟩ : ∃ f, fuel = f + 1 := ⟨fuel - 1, by omega⟩
      rw [computeLevel]
      cases hx : M x with
      | some l => exact ⟨l, M, rfl, levelSpec_stored dm M x l hM hx⟩
      | none =>
        simp only [hcourse]
        refine ⟨0, _, rfl, levelSpec_update dm M x 0 hM hx (le_refl 0) (by simp) ?_⟩
        intro p hp
        obtain ⟨course, h1, -⟩ := (requires_iff dm x p).1 hp
        rw [hcourse] at h1
        cases h1
    | some c =>
      have hreq : ∀ p, Requires dm x p ↔ p ∈ c.prerequisites := by
        intro p
        rw [requires_iff]
        constructor
        · rintro ⟨course, h1, h2⟩
          rw [hcourse] at h1
          cases h1
          exact h2
        · intro h
          exact ⟨c, hcourse, h⟩
      obtain ⟨F, hF⟩ := exists_fuel_bound
        (fun p fuel => ∀ M, LevelInv dm M →
          ∃ l M1, computeLevel dm fuel p M = some (l, M1) ∧ LevelSpec dm p M l M1)
        c.prerequisites (fun p hp => ih p ((hreq p).2 hp))
      refine ⟨F + 1, ?_⟩
      intro fuel hfuel M hM
      obtain ⟨f, rfl⟩ : ∃ f, fuel = f + 1 := ⟨fuel - 1, by omega⟩
      rw [computeLevel]
      cases hx : M x with
      | some l => exact ⟨l, M, rfl, levelSpec_stored dm M x l hM hx⟩
      | none =>
        simp only [hcourse]
        by_cases hnil : c.prerequisites = []
        · rw [if_pos hnil]
          refine ⟨0, _, rfl, levelSpec_update dm M x 0 hM hx (le_refl 0) (by simp) ?_⟩
          intro p hp
          have := (hreq p).1 hp
          rw [hnil] at this
          cases this
        · rw [if_neg hnil]
          obtain ⟨mx1, M1, h1, hM1, hle, hmono, hgrow, hall⟩ :=
            computeLevelLoop_spec dm (computeLevel dm f) c.prerequisites
              (fun q hq M0 hM0 => hF q hq f (by omega) M0 hM0) 0 M hM
          have hx1 : M1 x = none := by
            by_contra hne
            rcases hgrow x hne with h3 | ⟨q, hq, hr⟩
            · exact h3 hx
            · exact hacyc x (Relation.TransGen.head' ((hreq q).2 hq) hr)
          rw [h1]
          have hspec := levelSpec_update dm M1 x mx1 hM1 hx1 hle
            (fun _ => by simp [hcourse])
            (fun p hp => hall p ((hreq p).1 hp))
          refine ⟨mx1, _, rfl, ⟨hspec.stored, hspec.inv, ?_, ?_⟩⟩
          · intro y ly hy
            exact hspec.mono y ly (hmono y ly hy)
          · intro y hy
            rcases hspec.grow y hy with h3 | h3
            · rcases hgrow y h3 with h4 | ⟨q, hq, hr⟩
              · exact Or.inl h4
              · exact Or.inr (Relation.ReflTransGen.head ((hreq q).2 hq) hr)
            · exact Or.inr h3

end Levels

section LevelMap
variable [LinearOrder α]

theorem buildLevelMap_spec (dm : DataManager α)
    (walk : α → (α → Option Int) → Option (Int × (α → Option Int))) (qs : List α)
    (hw : ∀ q ∈ qs, ∀ M, LevelInv dm M → ∃ l M1, walk q M = some (l, M1) ∧
      LevelSpec dm q M l M1)
    (done : List α) (LM : Int → List α) (M : α → Option Int) (hM : LevelInv dm M)
    (hdone : ∀ p ∈ done, ∃ l, M p = some l)
    (hLM : ∀ l p, p ∈ LM l ↔ p ∈ done ∧ M p = some l) :
    ∃ LM1 M1, buildLevelMap walk qs (LM, M) = some (LM1, M1) ∧ LevelInv dm M1 ∧
      (∀ y ly, M y = some ly → M1 y = some ly) ∧
      (∀ p, p ∈ done ∨ p ∈ qs → ∃ l, M1 p = some l) ∧
      (∀ l p, p ∈ LM1 l ↔ (p ∈ done ∨ p ∈ qs) ∧ M1 p = some l) := by
  induction qs generalizing done LM M with
  | nil =>
    refine ⟨LM, M, rfl, hM, fun _ _ h => h, ?_, ?_⟩
    · intro p hp
      rcases hp with hp | hp
      · exact hdone p hp
      · simp at hp
    · intro l p
      rw [hLM]
      simp
  | cons q qs ih =>
    obtain ⟨lq, Mq, h1, s1⟩ := hw q (by simp) M hM
    have hdone1 : ∀ p ∈ q :: done, ∃ l, Mq p = some l := by
      intro p hp
      rcases List.mem_cons.1 hp with rfl | hp
      · exact ⟨lq, s1.stored⟩
      · obtain ⟨l, hl⟩ := hdone p hp
        exact ⟨l, s1.mono p l hl⟩
    have hLM1 : ∀ l p, p ∈ Function.update LM lq (setInsert q (LM lq)) l ↔
        p ∈ q :: done ∧ Mq p = some l := by
      intro l p
      constructor
      · intro hp
        by_cases hl : l = lq
        · subst hl
          rw [Function.update_same, mem_setInsert] at hp
          rcases hp with rfl | hp
          · exact ⟨by simp, s1.stored⟩
          · obtain ⟨g1, g2⟩ := (hLM l p).1 hp
            exact ⟨List.mem_cons_of_mem _ g1, s1.mono p l g2⟩
        · rw [Function.update_noteq hl] at hp
          obtain ⟨g1, g2⟩ := (hLM l p).1 hp
          exact ⟨List.mem_cons_of_mem _ g1, s1.mono p l g2⟩
      · rintro ⟨hp, hMp⟩
        have hcase : (p = q ∧ l = lq) ∨ p ∈ LM l := by
          rcases List.mem_cons.1 hp with rfl | hp
          · left
            rw [s1.stored] at hMp
            cases hMp
            exact ⟨rfl, rfl⟩
          · right
            obtain ⟨l1, hl1⟩ := hdone p hp
            have := s1.mono p l1 hl1
            rw [hMp] at this
            cases this
            exact (hLM l p).2 ⟨hp, hl1⟩
        by_cases hl : l = lq
        · subst hl
          rw [Function.update_same, mem_setInsert]
          rcases hcase with ⟨h3, -⟩ | h3
          · exact Or.inl h3
          · exact Or.inr h3
        · rw [Function.update_noteq hl]
          rcases hcase with ⟨-, h3⟩ | h3
          · exact absurd h3 hl
          · exact h3
    obtain ⟨LM2, M2, h2, hM2, hmono, hall, hmem⟩ :=
      ih (fun q1 hq1 => hw q1 (by simp [hq1])) (q :: done) _ Mq s1.inv hdone1 hLM1
    refine ⟨LM2, M2, by simp only [buildLevelMap, h1, h2], hM2,
      fun y ly hy => hmono y ly (s1.mono y ly hy), ?_, ?_⟩
    · intro p hp
      apply hall p
      rcases hp with hp | hp
      · exact Or.inl (List.mem_cons_of_mem _ hp)
      · rcases List.mem_cons.1 hp with rfl | hp
        · exact Or.inl (by simp)
        · exact Or.inr hp
    · intro l p
      rw [hmem]
      simp only [List.mem_cons]
      constructor
      · rintro ⟨(h3 | h3) | h3, h4⟩
        · exact ⟨Or.inr (Or.inl h3), h4⟩
        · exact ⟨Or.inl h3, h4⟩
        · exact ⟨Or.inr (Or.inr h3), h4⟩
      · rintro ⟨h3 | h3 | h3, h4⟩
        · exact ⟨Or.inl (Or.inr h3), h4⟩
        · exact ⟨Or.inl (Or.inl h3), h4⟩
        · exact ⟨Or.inr h3, h4⟩

theorem baseCaseScan_eq_true (completedCourses L : List α) :
    baseCaseScan completedCourses L = true := by
  induction L with
  | nil => rfl
  | cons a L ih => simp [baseCaseScan, findInCopyNeEnd_eq_true, ih]

theorem levelScan_eq_true (dm : DataManager α) (completedCourses L : List α) :
    levelScan dm completedCourses L = true := by
  induction L with
  | nil => rfl
  | cons a L ih =>
    cases hc : dm.getCourse a with
    | none => simp [levelScan, hc, ih]
    | some course => simp [levelScan, hc, findInCopyNeEnd_eq_true, ih]

theorem inductiveSteps_eq_true (dm : DataManager α) (completedCourses : List α)
    (LM : Int → List α) (ks : List Nat) :
    inductiveSteps dm completedCourses LM ks = true := by
  induction ks with
  | nil => rfl
  | cons k ks ih => simp [inductiveSteps, levelScan_eq_true, ih]

theorem allSatisfied_eq_true (completedCourses A : List α) :
    A.foldl (fun allSatisfied prereq =>
        let completed := findInCopyNeEnd completedCourses prereq
        if !completed then false else allSatisfied) true = true := by
  induction A with
  | nil => rfl
  | cons a A ih => simp [findInCopyNeEnd_eq_true]

/-- For an existing student, verifyStrongInduction returns true whatever the course and
whatever the student has completed. -/
theorem verifyStrongInduction_eq_true (dm : DataManager α) (students : List (Student α))
    (studentID courseID : α) (student : Student α)
    (hs : getStudent students studentID = some student) :
    verifyStrongInduction dm students studentID courseID = some true := by
  obtain ⟨A, hA, -, -⟩ := validateIndirectPrerequisites_spec dm courseID
  simp only [verifyStrongInduction, hs, hA]
  have h1 := allSatisfied_eq_true student.completedCourses A
  simp only [] at h1 ⊢
  rw [h1]
  simp

/-- On a catalog without prerequisite cycles, for an existing student and an existing
course, verifyPrerequisiteChain returns true once computeLevel is given enough fuel,
whatever the student has completed. -/
theorem verifyPrerequisiteChain_eq_true (dm : DataManager α) (students : List (Student α))
    (studentID courseID : α) (student : Student α) (course : Course α)
    (hacyc : ∀ c, ¬ Relation.TransGen (Requires dm) c c)
    (hs : getStudent students studentID = some student)
    (hc : dm.getCourse courseID = some course) :
    ∃ fuel0, ∀ fuel, fuel0 ≤ fuel →
      verifyPrerequisiteChain dm students fuel studentID courseID = some true := by
  obtain ⟨A, hA, -, -⟩ := validateIndirectPrerequisites_spec dm courseID
  obtain ⟨F, hF⟩ := exists_fuel_bound
    (fun p fuel => ∀ M, LevelInv dm M →
      ∃ l M1, computeLevel dm fuel p M = some (l, M1) ∧ LevelSpec dm p M l M1)
    (courseID :: A) (fun p _ => computeLevel_spec dm hacyc p)
  refine ⟨F, ?_⟩
  intro fuel hfuel
  simp only [verifyPrerequisiteChain, hs, hc, hA]
  by_cases hnil : A = []
  · rw [if_pos hnil]
  · rw [if_neg hnil]
    have hinit : LevelInv dm (fun _ : α => (none : Option Int)) :=
      ⟨fun _ _ h => (by cases h), fun _ _ h => (by cases h), fun _ _ h => (by cases h)⟩
    obtain ⟨LM, M1, h1, hM1, -, -, -⟩ := buildLevelMap_spec dm (computeLevel dm fuel) A
      (fun q hq M hM => hF q (List.mem_cons_of_mem _ hq) fuel hfuel M hM)
      [] (fun _ => []) (fun _ => none) hinit (by simp) (by simp)
    obtain ⟨t, M2, h2, -⟩ := hF courseID (List.mem_cons_self _ _) fuel hfuel M1 hM1
    simp only [h1, h2, baseCaseScan_eq_true, inductiveSteps_eq_true, if_true]

end LevelMap

/-- C28 fails on the code: for an existing student, verifyStrongInduction returns true
whatever the student has completed, and on a catalog without prerequisite cycles so does
verifyPrerequisiteChain for an existing course (once computeLevel is given enough fuel),
because each test of the completed set compares an iterator of one copy of the set with the
end of another copy. On the numbered diamond (4 requires 2 and 3, which both require 1),
student 102 has completed course 1 only, the prerequisites of course 4 are 1, 2 and 3, and
both functions return true; so does verifyStrongInduction for student S102 of the test
data, who has completed nothing, and course CS102, which requires CS101. -/
theorem verifyPrerequisiteChain_accepts_uncompleted_prerequisites [LinearOrder α]
    (dm : DataManager α) (students : List (Student α)) (studentID courseID : α) :
    (∀ student, getStudent students studentID = some student →
      verifyStrongInduction dm students studentID courseID = some true) ∧
    (∀ student course, (∀ c, ¬ Relation.TransGen (Requires dm) c c) →
      getStudent students studentID = some student →
      dm.getCourse courseID = some course →
      ∃ fuel0, ∀ fuel, fuel0 ≤ fuel →
        verifyPrerequisiteChain dm students fuel studentID courseID = some true) ∧
    verifyPrerequisiteChain numberedCatalog numberedStudents 3 102 4 = some true ∧
    verifyStrongInduction numberedCatalog numberedStudents 102 4 = some true ∧
    validateIndirectPrerequisites numberedCatalog 4 = some [1, 2, 3] ∧
    getStudent numberedStudents 102 = some ⟨102, [], [1], 0⟩ ∧
    verifyStrongInduction testCatalog testStudents "S102" "CS102" = some true ∧
    testCatalog.prereqsOf "CS102" = ["CS101"] ∧
    getStudent testStudents "S102" = some ⟨"S102", ["CS101", "MATH101"], [], 7⟩ := by
  refine ⟨fun student hs => verifyStrongInduction_eq_true dm students _ _ student hs,
    fun student course hacyc hs hc =>
      verifyPrerequisiteChain_eq_true dm students _ _ student course hacyc hs hc,
    by decide, by decide, by decide, rfl, ?_, by decide, rfl⟩
  exact verifyStrongInduction_eq_true testCatalog testStudents "S102" "CS102"
    ⟨"S102", ["CS101", "MATH101"], [], 7⟩ (by simp [getStudent, testStudents])

theorem computeLevel_cycle_none (fuel : Nat) (M : Nat → Option Int) (h1 : M 1 = none)
    (h2 : M 2 = none) :
    computeLevel numberedCycleCatalog fuel 1 M = none ∧
    computeLevel numberedCycleCatalog fuel 2 M = none := by
  induction fuel with
  | zero => exact ⟨rfl, rfl⟩
  | succ fuel ih =>
    have g1 : numberedCycleCatalog.getCourse 1 = some ⟨1, [2]⟩ := rfl
    have g2 : numberedCycleCatalog.getCourse 2 = some ⟨2, [1]⟩ := rfl
    constructor
    · rw [computeLevel]
      simp only [h1, g1]
      simp [computeLevelLoop, ih.2]
    · rw [computeLevel]
      simp only [h2, g2]
      simp [computeLevelLoop, ih.1]

/-- C29 fails on the code: on the catalog where 1 requires 2 and 2 requires 1, for the
existing student 101 and course 1, the walk that collects the prerequisites returns {1, 2},
but the level computation of verifyPrerequisiteChain does not return with any amount of
fuel: the call for course 1 calls the one for course 2, which calls the one for course 1
again before either level is stored. -/
theorem verifyPrerequisiteChain_never_returns_on_cycle :
    validateIndirectPrerequisites numberedCycleCatalog 1 = some [1, 2] ∧
    (∀ fuel, computeLevel numberedCycleCatalog fuel 1 (fun _ => none) = none) ∧
    ∀ fuel, verifyPrerequisiteChain numberedCycleCatalog numberedStudents fuel 101 1
      = none := by
  have hA : validateIndirectPrerequisites numberedCycleCatalog 1 = some [1, 2] := by decide
  refine ⟨hA, fun fuel => (computeLevel_cycle_none fuel _ rfl rfl).1, ?_⟩
  intro fuel
  have hs : getStudent numberedStudents 101 = some ⟨101, [4], [1, 2, 3], 3⟩ := rfl
  have hc : numberedCycleCatalog.getCourse 1 = some ⟨1, [2]⟩ := rfl
  simp only [verifyPrerequisiteChain, hs, hc, hA]
  simp [buildLevelMap, (computeLevel_cycle_none fuel (fun _ => none) rfl rfl).1]

end Unidisc
